import Mathlib

/-!
# Verification of the `coding` package (tagged binary encoder / decoder)

A shallow embedding of `coding.go`, `encoder.go` and `decoder.go`.

Modelling conventions.

* A Go `byte` is a `Fin 256`; a `[]byte` and a `string` are a `List Byte`
  (a Go string is its byte sequence; a nil slice is the empty list).
* Go `int` is the 64-bit `int64`.  Signed machine integers are `Int`, unsigned
  ones are `Nat`; conversions and wrap-around are written out with `%`.
* A `float64` / `float32` is represented by its IEEE-754 bit pattern
  (`math.Float64bits` and `math.Float64frombits` are the identity on that
  representation).
* A run-time panic (index or slice bounds out of range) is `none`.
* Go's `(value, error)` results are pairs `(value, Option Err)`; `none` in the
  second component is the `nil` error.
* Buffer lengths and offsets stay far below `2^63`, so the `int` additions of
  the decoder (`offset+l-1`, `offset+n`) do not wrap and are taken in `Int`.
* The standard-library routines `binary.PutUvarint`, `binary.PutVarint`,
  `binary.ReadUvarint`, `binary.ReadVarint` and `crc32.ChecksumIEEE` are
  transcribed from the Go standard library (`ReadUvarint` as in current Go
  releases, where a read that ends inside a varint reports
  `io.ErrUnexpectedEOF`).
-/

namespace Coding

/-! ## Bytes and machine integers -/

/-- A Go byte. -/
abbrev Byte := Fin 256

/-- The conversion `byte(x)` of an unsigned integer. -/
def byte (x : Nat) : Byte := ⟨x % 256, Nat.mod_lt _ (by decide)⟩

/-- The conversion `uint64(x)` of a signed integer (two's complement). -/
def uint64 (x : Int) : Nat := (x % 2 ^ 64).toNat

/-- The conversion `int64(u)` of an unsigned 64-bit integer. -/
def int64 (u : Nat) : Int :=
  if u % 2 ^ 64 < 2 ^ 63 then ((u % 2 ^ 64 : Nat) : Int) else ((u % 2 ^ 64 : Nat) : Int) - 2 ^ 64

/-- The narrowing conversion `int32(i)`. -/
def int32 (i : Int) : Int := (i + 2 ^ 31) % 2 ^ 32 - 2 ^ 31

/-- The narrowing conversion `int16(i)`. -/
def int16 (i : Int) : Int := (i + 2 ^ 15) % 2 ^ 16 - 2 ^ 15

/-- The narrowing conversion `int8(i)`. -/
def int8 (i : Int) : Int := (i + 2 ^ 7) % 2 ^ 8 - 2 ^ 7

/-- The narrowing conversion `uint32(i)`. -/
def uint32 (i : Nat) : Nat := i % 2 ^ 32

/-- The narrowing conversion `uint16(i)`. -/
def uint16 (i : Nat) : Nat := i % 2 ^ 16

/-- The narrowing conversion `uint8(i)`. -/
def uint8 (i : Nat) : Nat := i % 2 ^ 8

/-! ## coding.go: the coding types -/

def codingTypeBool : Byte := 0x00
def codingTypeInt : Byte := 0x01
def codingTypeInt64 : Byte := 0x02
def codingTypeInt32 : Byte := 0x03
def codingTypeInt16 : Byte := 0x04
def codingTypeInt8 : Byte := 0x05
def codingTypeUint : Byte := 0x06
def codingTypeUint64 : Byte := 0x07
def codingTypeUint32 : Byte := 0x08
def codingTypeUint16 : Byte := 0x09
def codingTypeUint8 : Byte := 0x0A
def codingTypeFloat64 : Byte := 0x0B
def codingTypeFloat32 : Byte := 0x0C
def codingTypeString : Byte := 0x0D
def codingTypeData : Byte := 0x0E
def codingTypeSlice : Byte := 0x0F

/-! ## Errors -/

/-- The error values the package can return: its own four sentinel errors and
the errors of the standard-library varint reader (`io.EOF`,
`io.ErrUnexpectedEOF`, and the overflow error of `encoding/binary`). -/
inductive Err where
  | ErrEOB
  | ErrType
  | ErrByteLength
  | ErrCRC
  | EOF
  | ErrUnexpectedEOF
  | errOverflow
  deriving DecidableEq

/-! ## encoding/binary: varints -/

/-- The function `binary.PutUvarint(buf, x)`: returns the buffer after the
writes together with the number of bytes written.  The Go loop writes
`buf[0], buf[1], ...` in order, so the byte at index `i` is the head of the part
of the buffer not yet written; reaching the end of the buffer is the
index-out-of-range panic.

    i := 0
    for x >= 0x80 { buf[i] = byte(x) | 0x80; x >>= 7; i++ }
    buf[i] = byte(x)
    return i + 1
-/
def PutUvarint : List Byte → Nat → Option (List Byte × Nat)
  | [], _ => none
  | _ :: rest, x =>
    if 0x80 ≤ x then
      match PutUvarint rest (x >>> 7) with
      | none => none
      | some (out, n) => some (byte ((x % 256) ||| 0x80) :: out, n + 1)
    else
      some (byte x :: rest, 1)

/-- The function `binary.PutVarint(buf, x)`: zigzag, then `PutUvarint`.  The
complement `^ux` of a `uint64` is `2^64 - 1 - ux`.

    ux := uint64(x) << 1
    if x < 0 { ux = ^ux }
    return PutUvarint(buf, ux)
-/
def PutVarint (buf : List Byte) (x : Int) : Option (List Byte × Nat) :=
  let ux := (uint64 x <<< 1) % 2 ^ 64
  let ux := if x < 0 then 2 ^ 64 - 1 - ux else ux
  PutUvarint buf ux

/-- The loop of `binary.ReadUvarint` over a `bytes.Reader` holding `bs`, entered
at iteration `i` with accumulator `x` and shift `s`.

    for i := 0; i < MaxVarintLen64; i++ {
        b, err := r.ReadByte()
        if err != nil {
            if i > 0 && err == io.EOF { err = io.ErrUnexpectedEOF }
            return x, err
        }
        if b < 0x80 {
            if i == MaxVarintLen64-1 && b > 1 { return x, errOverflow }
            return x | uint64(b)<<s, nil
        }
        x |= uint64(b&0x7f) << s
        s += 7
    }
    return x, errOverflow
-/
def ReadUvarint.loop : List Byte → Nat → Nat → Nat → Nat × Option Err
  | [], x, _, i =>
    if i < 10 then (x, some (if 0 < i then Err.ErrUnexpectedEOF else Err.EOF))
    else (x, some Err.errOverflow)
  | b :: rest, x, s, i =>
    if i < 10 then
      if b.val < 0x80 then
        if i = 9 ∧ 1 < b.val then (x, some Err.errOverflow)
        else (x ||| (b.val <<< s) % 2 ^ 64, none)
      else
        ReadUvarint.loop rest (x ||| ((b.val &&& 0x7f) <<< s) % 2 ^ 64) (s + 7) (i + 1)
    else (x, some Err.errOverflow)

/-- The function `binary.ReadUvarint(r)` for a fresh `bytes.NewReader(bs)`. -/
def ReadUvarint (bs : List Byte) : Nat × Option Err :=
  ReadUvarint.loop bs 0 0 0

/-- The function `binary.ReadVarint(r)` for a fresh `bytes.NewReader(bs)`.  The
complement `^x` of an `int64` is `-x - 1`.

    ux, err := ReadUvarint(r)
    x := int64(ux >> 1)
    if ux&1 != 0 { x = ^x }
    return x, err
-/
def ReadVarint (bs : List Byte) : Int × Option Err :=
  let (ux, err) := ReadUvarint bs
  let x := int64 (ux >>> 1)
  let x := if ux &&& 1 ≠ 0 then -x - 1 else x
  (x, err)

/-! ## hash/crc32: the IEEE checksum -/

/-- One entry of the IEEE table (`simpleMakeTable` with polynomial
`0xedb88320`): eight rounds of
`if crc&1 == 1 { crc = (crc >> 1) ^ poly } else { crc >>= 1 }`. -/
def crcTableEntry.round (crc : Nat) : Nat :=
  if crc &&& 1 = 1 then (crc >>> 1) ^^^ 0xedb88320 else crc >>> 1

def crcTableEntry (i : Nat) : Nat :=
  crcTableEntry.round (crcTableEntry.round (crcTableEntry.round (crcTableEntry.round
    (crcTableEntry.round (crcTableEntry.round (crcTableEntry.round (crcTableEntry.round i)))))))

/-- The byte loop of `simpleUpdate`:
`crc = tab[byte(crc)^v] ^ (crc >> 8)` for each byte `v`. -/
def crcUpdate : Nat → List Byte → Nat
  | crc, [] => crc
  | crc, v :: rest => crcUpdate (crcTableEntry ((crc % 256) ^^^ v.val) ^^^ (crc >>> 8)) rest

/-- The function `crc32.ChecksumIEEE(data)`: `^update(^0, data)` on `uint32`,
the complement of a `uint32` written as the exclusive or with `0xffffffff`. -/
def ChecksumIEEE (data : List Byte) : Nat :=
  crcUpdate 0xffffffff data ^^^ 0xffffffff

/-! ## encoder.go -/

/-- The encoder: its data. -/
structure Encoder where
  data : List Byte
  deriving DecidableEq

/-- The constructor `NewEncoder()`. -/
def NewEncoder : Encoder := ⟨[]⟩

namespace Encoder

/-- The method `appendByte`: `e.data = append(e.data, b)`. -/
def appendByte (e : Encoder) (b : Byte) : Encoder := ⟨e.data ++ [b]⟩

/-- The method `appendBytes`: `e.data = append(e.data, b...)`. -/
def appendBytes (e : Encoder) (b : List Byte) : Encoder := ⟨e.data ++ b⟩

/-- The method `EncodeBool`. -/
def EncodeBool (e : Encoder) (b : Bool) : Encoder :=
  let e := e.appendByte codingTypeBool
  if b then e.appendByte 1 else e.appendByte 0

/-- The method `EncodeInt`: tag, then `PutVarint` into `make([]byte, 8, 8)`. -/
def EncodeInt (e : Encoder) (n : Int) : Option Encoder :=
  let e := e.appendByte codingTypeInt
  match PutVarint (List.replicate 8 0) n with
  | none => none
  | some (b, _) => some (e.appendBytes b)

/-- The method `EncodeInt64`: tag, then `PutVarint` into `make([]byte, 8, 8)`. -/
def EncodeInt64 (e : Encoder) (n : Int) : Option Encoder :=
  let e := e.appendByte codingTypeInt64
  match PutVarint (List.replicate 8 0) n with
  | none => none
  | some (b, _) => some (e.appendBytes b)

/-- The method `EncodeInt32`: tag, then `PutVarint` into `make([]byte, 4, 4)`. -/
def EncodeInt32 (e : Encoder) (n : Int) : Option Encoder :=
  let e := e.appendByte codingTypeInt32
  match PutVarint (List.replicate 4 0) n with
  | none => none
  | some (b, _) => some (e.appendBytes b)

/-- The method `EncodeInt16`: tag, then `PutVarint` into `make([]byte, 2, 2)`. -/
def EncodeInt16 (e : Encoder) (n : Int) : Option Encoder :=
  let e := e.appendByte codingTypeInt16
  match PutVarint (List.replicate 2 0) n with
  | none => none
  | some (b, _) => some (e.appendBytes b)

/-- The method `EncodeInt8`: tag, then `PutVarint` into `make([]byte, 1, 1)`. -/
def EncodeInt8 (e : Encoder) (n : Int) : Option Encoder :=
  let e := e.appendByte codingTypeInt8
  match PutVarint (List.replicate 1 0) n with
  | none => none
  | some (b, _) => some (e.appendBytes b)

/-- The method `EncodeUint`: tag, then `PutUvarint` into `make([]byte, 8, 8)`. -/
def EncodeUint (e : Encoder) (n : Nat) : Option Encoder :=
  let e := e.appendByte codingTypeUint
  match PutUvarint (List.replicate 8 0) n with
  | none => none
  | some (b, _) => some (e.appendBytes b)

/-- The method `EncodeUint64`: tag, then `PutUvarint` into `make([]byte, 8, 8)`. -/
def EncodeUint64 (e : Encoder) (n : Nat) : Option Encoder :=
  let e := e.appendByte codingTypeUint64
  match PutUvarint (List.replicate 8 0) n with
  | none => none
  | some (b, _) => some (e.appendBytes b)

/-- The method `EncodeUint32`: tag, then `PutUvarint` into `make([]byte, 4, 4)`. -/
def EncodeUint32 (e : Encoder) (n : Nat) : Option Encoder :=
  let e := e.appendByte codingTypeUint32
  match PutUvarint (List.replicate 4 0) n with
  | none => none
  | some (b, _) => some (e.appendBytes b)

/-- The method `EncodeUint16`: tag, then `PutUvarint` into `make([]byte, 2, 2)`. -/
def EncodeUint16 (e : Encoder) (n : Nat) : Option Encoder :=
  let e := e.appendByte codingTypeUint16
  match PutUvarint (List.replicate 2 0) n with
  | none => none
  | some (b, _) => some (e.appendBytes b)

/-- The method `EncodeUint8`: tag, then `PutUvarint` into `make([]byte, 1, 1)`. -/
def EncodeUint8 (e : Encoder) (n : Nat) : Option Encoder :=
  let e := e.appendByte codingTypeUint8
  match PutUvarint (List.replicate 1 0) n with
  | none => none
  | some (b, _) => some (e.appendBytes b)

/-- The method `EncodeFloat64`; `bits` is `math.Float64bits(f)`.  Tag, the
varint of the bits written into `make([]byte, 16, 16)`, its length `n` as one
byte, then `b[:n]`. -/
def EncodeFloat64 (e : Encoder) (bits : Nat) : Option Encoder :=
  let e := e.appendByte codingTypeFloat64
  match PutUvarint (List.replicate 16 0) bits with
  | none => none
  | some (b, n) =>
    let e := e.appendByte (byte n)
    some (e.appendBytes (b.take n))

/-- The method `EncodeFloat32`; `bits` is `math.Float32bits(f)`. -/
def EncodeFloat32 (e : Encoder) (bits : Nat) : Option Encoder :=
  let e := e.appendByte codingTypeFloat32
  match PutUvarint (List.replicate 16 0) bits with
  | none => none
  | some (b, n) =>
    let e := e.appendByte (byte n)
    some (e.appendBytes (b.take n))

/-- The method `EncodeString`: tag, `PutVarint` of `int64(len(s))` into an
8-byte buffer, then the bytes of `s`. -/
def EncodeString (e : Encoder) (s : List Byte) : Option Encoder :=
  let e := e.appendByte codingTypeString
  match PutVarint (List.replicate 8 0) (s.length : Int) with
  | none => none
  | some (b, _) =>
    let e := e.appendBytes b
    some (e.appendBytes s)

/-- The method `EncodeData`. -/
def EncodeData (e : Encoder) (b : List Byte) : Option Encoder :=
  let e := e.appendByte codingTypeData
  match PutVarint (List.replicate 8 0) (b.length : Int) with
  | none => none
  | some (bytes, _) =>
    let e := e.appendBytes bytes
    some (e.appendBytes b)

/-- The method `crcBytes`: the varint of the CRC32 of the data, written into
`make([]byte, 16, 16)`, followed by its length. -/
def crcBytes (e : Encoder) : Option (List Byte) :=
  let crc := ChecksumIEEE e.data
  match PutUvarint (List.replicate 16 0) crc with
  | none => none
  | some (b, n) => some (b.take n ++ [byte n])

/-- The method `Data`: `append(e.data, e.crcBytes()...)`. -/
def Data (e : Encoder) : Option (List Byte) :=
  match e.crcBytes with
  | none => none
  | some c => some (e.data ++ c)

/-- The method `Flush`: `e.data = nil`. -/
def Flush (_e : Encoder) : Encoder := ⟨[]⟩

end Encoder

/-! ## decoder.go -/

/-- The decoder: its data and its offset (a Go `int`). -/
structure Decoder where
  data : List Byte
  offset : Int
  deriving DecidableEq

/-- The constructor `NewDecoder(data)`. -/
def NewDecoder (data : List Byte) : Decoder := ⟨data, 0⟩

namespace Decoder

/-- The method `checkLength`: `d.offset+l-1 < len(d.data)`. -/
def checkLength (d : Decoder) (l : Int) : Bool :=
  decide (d.offset + l - 1 < (d.data.length : Int))

/-- The method `incrementOffset`. -/
def incrementOffset (d : Decoder) (n : Int) : Decoder := { d with offset := d.offset + n }

/-- The method `decrementOffset`. -/
def decrementOffset (d : Decoder) (n : Int) : Decoder := { d with offset := d.offset - n }

/-- The method `getByte`: `d.data[d.offset]`, then the deferred
`incrementOffset(1)`; an index outside `0 <= offset < len(data)` panics. -/
def getByte (d : Decoder) : Option (Byte × Decoder) :=
  if 0 ≤ d.offset then
    match d.data[d.offset.toNat]? with
    | none => none
    | some b => some (b, d.incrementOffset 1)
  else none

/-- The method `getBytes`: `d.data[d.offset : d.offset+n]`, then the deferred
`incrementOffset(n)`.  The slice expression panics unless
`0 <= offset <= offset+n <= cap(data)`; every call site is guarded by
`checkLength`, which keeps `offset+n` within `len(data)`, so the capacity is
taken to be the length. -/
def getBytes (d : Decoder) (n : Int) : Option (List Byte × Decoder) :=
  if 0 ≤ d.offset ∧ 0 ≤ n ∧ d.offset + n ≤ (d.data.length : Int) then
    some ((d.data.drop d.offset.toNat).take n.toNat, d.incrementOffset n)
  else none

/-- The method `checkType`. -/
def checkType (d : Decoder) (t : Byte) : Option (Option Err × Decoder) :=
  if !d.checkLength 1 then some (some Err.ErrEOB, d)
  else
    match d.getByte with
    | none => none
    | some (tb, d) =>
      if tb = t then some (none, d)
      else some (some Err.ErrType, d.decrementOffset 1)

/-- The method `getIntByteReader`: the contents of the `bytes.Reader`. -/
def getIntByteReader (d : Decoder) (byteLength : Int) :
    Option ((List Byte × Option Err) × Decoder) :=
  if !d.checkLength byteLength then some (([], some Err.ErrEOB), d)
  else
    match d.getBytes byteLength with
    | none => none
    | some (ib, d) => some ((ib, none), d)

/-- The method `decodeInt64`. -/
def decodeInt64 (d : Decoder) (byteLength : Int) : Option ((Int × Option Err) × Decoder) :=
  match d.getIntByteReader byteLength with
  | none => none
  | some ((_, some err), d) => some ((0, some err), d)
  | some ((r, none), d) => some (ReadVarint r, d)

/-- The method `decodeUint64`. -/
def decodeUint64 (d : Decoder) (byteLength : Int) : Option ((Nat × Option Err) × Decoder) :=
  match d.getIntByteReader byteLength with
  | none => none
  | some ((_, some err), d) => some ((0, some err), d)
  | some ((r, none), d) => some (ReadUvarint r, d)

/-- The method `DecodeBool`. -/
def DecodeBool (d : Decoder) : Option ((Bool × Option Err) × Decoder) :=
  match d.checkType codingTypeBool with
  | none => none
  | some (some err, d) => some ((false, some err), d)
  | some (none, d) =>
    if !d.checkLength 1 then some ((false, some Err.ErrEOB), d)
    else
      match d.getByte with
      | none => none
      | some (bb, d) => some ((decide (bb = 1), none), d)

/-- The method `DecodeInt`: `decodeInt64(8)`, then `int(i)`. -/
def DecodeInt (d : Decoder) : Option ((Int × Option Err) × Decoder) :=
  match d.checkType codingTypeInt with
  | none => none
  | some (some err, d) => some ((0, some err), d)
  | some (none, d) =>
    match d.decodeInt64 8 with
    | none => none
    | some ((_, some err), d) => some ((0, some err), d)
    | some ((i, none), d) => some ((i, none), d)

/-- The method `DecodeInt64`: `decodeInt64(8)`, then `i`. -/
def DecodeInt64 (d : Decoder) : Option ((Int × Option Err) × Decoder) :=
  match d.checkType codingTypeInt64 with
  | none => none
  | some (some err, d) => some ((0, some err), d)
  | some (none, d) =>
    match d.decodeInt64 8 with
    | none => none
    | some ((_, some err), d) => some ((0, some err), d)
    | some ((i, none), d) => some ((i, none), d)

/-- The method `DecodeInt32`: `decodeInt64(4)`, then `int32(i)`. -/
def DecodeInt32 (d : Decoder) : Option ((Int × Option Err) × Decoder) :=
  match d.checkType codingTypeInt32 with
  | none => none
  | some (some err, d) => some ((0, some err), d)
  | some (none, d) =>
    match d.decodeInt64 4 with
    | none => none
    | some ((_, some err), d) => some ((0, some err), d)
    | some ((i, none), d) => some ((int32 i, none), d)

/-- The method `DecodeInt16`: `decodeInt64(2)`, then `int16(i)`. -/
def DecodeInt16 (d : Decoder) : Option ((Int × Option Err) × Decoder) :=
  match d.checkType codingTypeInt16 with
  | none => none
  | some (some err, d) => some ((0, some err), d)
  | some (none, d) =>
    match d.decodeInt64 2 with
    | none => none
    | some ((_, some err), d) => some ((0, some err), d)
    | some ((i, none), d) => some ((int16 i, none), d)

/-- The method `DecodeInt8`: `decodeInt64(1)`, then `int8(i)`. -/
def DecodeInt8 (d : Decoder) : Option ((Int × Option Err) × Decoder) :=
  match d.checkType codingTypeInt8 with
  | none => none
  | some (some err, d) => some ((0, some err), d)
  | some (none, d) =>
    match d.decodeInt64 1 with
    | none => none
    | some ((_, some err), d) => some ((0, some err), d)
    | some ((i, none), d) => some ((int8 i, none), d)

/-- The method `DecodeUint`: `decodeUint64(8)`, then `uint(i)`. -/
def DecodeUint (d : Decoder) : Option ((Nat × Option Err) × Decoder) :=
  match d.checkType codingTypeUint with
  | none => none
  | some (some err, d) => some ((0, some err), d)
  | some (none, d) =>
    match d.decodeUint64 8 with
    | none => none
    | some ((_, some err), d) => some ((0, some err), d)
    | some ((i, none), d) => some ((i, none), d)

/-- The method `DecodeUint64`: `decodeUint64(8)`, then `uint64(i)`. -/
def DecodeUint64 (d : Decoder) : Option ((Nat × Option Err) × Decoder) :=
  match d.checkType codingTypeUint64 with
  | none => none
  | some (some err, d) => some ((0, some err), d)
  | some (none, d) =>
    match d.decodeUint64 8 with
    | none => none
    | some ((_, some err), d) => some ((0, some err), d)
    | some ((i, none), d) => some ((i, none), d)

/-- The method `DecodeUint32`: `decodeUint64(4)`, then `uint32(i)`. -/
def DecodeUint32 (d : Decoder) : Option ((Nat × Option Err) × Decoder) :=
  match d.checkType codingTypeUint32 with
  | none => none
  | some (some err, d) => some ((0, some err), d)
  | some (none, d) =>
    match d.decodeUint64 4 with
    | none => none
    | some ((_, some err), d) => some ((0, some err), d)
    | some ((i, none), d) => some ((uint32 i, none), d)

/-- The method `DecodeUint16`: `decodeUint64(2)`, then `uint16(i)`. -/
def DecodeUint16 (d : Decoder) : Option ((Nat × Option Err) × Decoder) :=
  match d.checkType codingTypeUint16 with
  | none => none
  | some (some err, d) => some ((0, some err), d)
  | some (none, d) =>
    match d.decodeUint64 2 with
    | none => none
    | some ((_, some err), d) => some ((0, some err), d)
    | some ((i, none), d) => some ((uint16 i, none), d)

/-- The method `DecodeUint8`: `decodeUint64(1)`, then `uint8(i)`. -/
def DecodeUint8 (d : Decoder) : Option ((Nat × Option Err) × Decoder) :=
  match d.checkType codingTypeUint8 with
  | none => none
  | some (some err, d) => some ((0, some err), d)
  | some (none, d) =>
    match d.decodeUint64 1 with
    | none => none
    | some ((_, some err), d) => some ((0, some err), d)
    | some ((i, none), d) => some ((uint8 i, none), d)

/-- The method `DecodeFloat64`; the result is the bit pattern handed to
`math.Float64frombits`. -/
def DecodeFloat64 (d : Decoder) : Option ((Nat × Option Err) × Decoder) :=
  match d.checkType codingTypeFloat64 with
  | none => none
  | some (some err, d) => some ((0, some err), d)
  | some (none, d) =>
    if !d.checkLength 1 then some ((0, some Err.ErrEOB), d)
    else
      match d.decodeUint64 1 with
      | none => none
      | some ((_, some err), d) => some ((0, some err), d)
      | some ((n, none), d) =>
        match d.decodeUint64 (int64 n) with
        | none => none
        | some ((_, some err), d) => some ((0, some err), d)
        | some ((i, none), d) => some ((i, none), d)

/-- The method `DecodeFloat32`; the result is the bit pattern handed to
`math.Float32frombits`, namely `uint32(i)`. -/
def DecodeFloat32 (d : Decoder) : Option ((Nat × Option Err) × Decoder) :=
  match d.checkType codingTypeFloat32 with
  | none => none
  | some (some err, d) => some ((0, some err), d)
  | some (none, d) =>
    if !d.checkLength 1 then some ((0, some Err.ErrEOB), d)
    else
      match d.decodeUint64 1 with
      | none => none
      | some ((_, some err), d) => some ((0, some err), d)
      | some ((n, none), d) =>
        match d.decodeUint64 (int64 n) with
        | none => none
        | some ((_, some err), d) => some ((0, some err), d)
        | some ((i, none), d) => some ((uint32 i, none), d)

/-- The method `DecodeString`. -/
def DecodeString (d : Decoder) : Option ((List Byte × Option Err) × Decoder) :=
  match d.checkType codingTypeString with
  | none => none
  | some (some err, d) => some (([], some err), d)
  | some (none, d) =>
    if !d.checkLength 8 then some (([], some Err.ErrEOB), d)
    else
      match d.decodeInt64 8 with
      | none => none
      | some ((_, some err), d) => some (([], some err), d)
      | some ((l, none), d) =>
        if !d.checkLength l then some (([], some Err.ErrEOB), d)
        else if l = 0 then some (([], none), d)
        else
          match d.getBytes l with
          | none => none
          | some (bs, d) => some ((bs, none), d)

/-- The method `DecodeData`. -/
def DecodeData (d : Decoder) : Option ((List Byte × Option Err) × Decoder) :=
  match d.checkType codingTypeData with
  | none => none
  | some (some err, d) => some (([], some err), d)
  | some (none, d) =>
    match d.decodeInt64 8 with
    | none => none
    | some ((_, some err), d) => some (([], some err), d)
    | some ((l, none), d) =>
      if !d.checkLength l then some (([], some Err.ErrEOB), d)
      else if l = 0 then some (([], none), d)
      else
        match d.getBytes l with
        | none => none
        | some (bs, d) => some ((bs, none), d)

/-- The method `Validate`.  The result is the returned error (`none` is `nil`);
the outer `none` is the slice-bounds panic of
`d.data[len(d.data)-l-1 : len(d.data)-1]` when `len(d.data)-l-1 < 0`. -/
def Validate (d : Decoder) : Option (Option Err) :=
  if d.data.length < 1 then some (some Err.ErrByteLength)
  else
    match d.data[d.data.length - 1]? with
    | none => none
    | some lb =>
      let l : Nat := lb.val
      if d.data.length < l + 1 then none
      else
        let r := (d.data.drop (d.data.length - l - 1)).take l
        match ReadUvarint r with
        | (_, some err) => some (some err)
        | (i, none) =>
          let crc := uint32 i
          let ccrc := ChecksumIEEE (d.data.take (d.data.length - l - 1))
          if crc ≠ ccrc then some (some Err.ErrCRC) else some none

end Decoder

/-! ## Values and kinds

The test helper `testEncodeDecode` dispatches on the dynamic type of a value
(`switch i.(type)`), first to the matching `Encode<Kind>` and then to the
matching `Decode<Kind>`.  `Value`, `Kind`, `Encoder.Encode` and `Decoder.Decode`
are that type switch. -/

/-- The fifteen supported kinds (the cases of the type switch). -/
inductive Kind where
  | bool
  | int
  | int64
  | int32
  | int16
  | int8
  | uint
  | uint64
  | uint32
  | uint16
  | uint8
  | float64
  | float32
  | string
  | data
  deriving DecidableEq

/-- A value of one of the supported kinds. -/
inductive Value where
  | bool (v : Bool)
  | int (v : Int)
  | int64 (v : Int)
  | int32 (v : Int)
  | int16 (v : Int)
  | int8 (v : Int)
  | uint (v : Nat)
  | uint64 (v : Nat)
  | uint32 (v : Nat)
  | uint16 (v : Nat)
  | uint8 (v : Nat)
  | float64 (v : Nat)
  | float32 (v : Nat)
  | string (v : List Byte)
  | data (v : List Byte)
  deriving DecidableEq

/-- The kind of a value. -/
def Value.kind : Value → Kind
  | .bool _ => .bool
  | .int _ => .int
  | .int64 _ => .int64
  | .int32 _ => .int32
  | .int16 _ => .int16
  | .int8 _ => .int8
  | .uint _ => .uint
  | .uint64 _ => .uint64
  | .uint32 _ => .uint32
  | .uint16 _ => .uint16
  | .uint8 _ => .uint8
  | .float64 _ => .float64
  | .float32 _ => .float32
  | .string _ => .string
  | .data _ => .data

/-- The tag byte of a kind. -/
def Kind.tag : Kind → Byte
  | .bool => codingTypeBool
  | .int => codingTypeInt
  | .int64 => codingTypeInt64
  | .int32 => codingTypeInt32
  | .int16 => codingTypeInt16
  | .int8 => codingTypeInt8
  | .uint => codingTypeUint
  | .uint64 => codingTypeUint64
  | .uint32 => codingTypeUint32
  | .uint16 => codingTypeUint16
  | .uint8 => codingTypeUint8
  | .float64 => codingTypeFloat64
  | .float32 => codingTypeFloat32
  | .string => codingTypeString
  | .data => codingTypeData

/-- The zero value of a kind: what a failing `Decode<Kind>` returns next to its
error. -/
def Kind.zero : Kind → Value
  | .bool => .bool false
  | .int => .int 0
  | .int64 => .int64 0
  | .int32 => .int32 0
  | .int16 => .int16 0
  | .int8 => .int8 0
  | .uint => .uint 0
  | .uint64 => .uint64 0
  | .uint32 => .uint32 0
  | .uint16 => .uint16 0
  | .uint8 => .uint8 0
  | .float64 => .float64 0
  | .float32 => .float32 0
  | .string => .string []
  | .data => .data []

/-- The values a Go variable of the kind can hold: the range of the integer
type, the width of the bit pattern, and a length that fits a Go `int`. -/
def Value.WellTyped : Value → Prop
  | .bool _ => True
  | .int v => -2 ^ 63 ≤ v ∧ v < 2 ^ 63
  | .int64 v => -2 ^ 63 ≤ v ∧ v < 2 ^ 63
  | .int32 v => -2 ^ 31 ≤ v ∧ v < 2 ^ 31
  | .int16 v => -2 ^ 15 ≤ v ∧ v < 2 ^ 15
  | .int8 v => -2 ^ 7 ≤ v ∧ v < 2 ^ 7
  | .uint v => v < 2 ^ 64
  | .uint64 v => v < 2 ^ 64
  | .uint32 v => v < 2 ^ 32
  | .uint16 v => v < 2 ^ 16
  | .uint8 v => v < 2 ^ 8
  | .float64 v => v < 2 ^ 64
  | .float32 v => v < 2 ^ 32
  | .string v => v.length < 2 ^ 63
  | .data v => v.length < 2 ^ 63

instance (v : Value) : Decidable v.WellTyped := by
  cases v <;> unfold Value.WellTyped <;> infer_instance

/-- The encoding half of the type switch. -/
def Encoder.Encode (e : Encoder) : Value → Option Encoder
  | .bool v => some (e.EncodeBool v)
  | .int v => e.EncodeInt v
  | .int64 v => e.EncodeInt64 v
  | .int32 v => e.EncodeInt32 v
  | .int16 v => e.EncodeInt16 v
  | .int8 v => e.EncodeInt8 v
  | .uint v => e.EncodeUint v
  | .uint64 v => e.EncodeUint64 v
  | .uint32 v => e.EncodeUint32 v
  | .uint16 v => e.EncodeUint16 v
  | .uint8 v => e.EncodeUint8 v
  | .float64 v => e.EncodeFloat64 v
  | .float32 v => e.EncodeFloat32 v
  | .string v => e.EncodeString v
  | .data v => e.EncodeData v

/-- Wraps the result of a `Decode<Kind>` as a `Value`. -/
def Decoder.asValue {α : Type} (f : α → Value) :
    Option ((α × Option Err) × Decoder) → Option ((Value × Option Err) × Decoder)
  | none => none
  | some ((a, err), d) => some ((f a, err), d)

/-- The decoding half of the type switch. -/
def Decoder.Decode (d : Decoder) : Kind → Option ((Value × Option Err) × Decoder)
  | .bool => Decoder.asValue Value.bool d.DecodeBool
  | .int => Decoder.asValue Value.int d.DecodeInt
  | .int64 => Decoder.asValue Value.int64 d.DecodeInt64
  | .int32 => Decoder.asValue Value.int32 d.DecodeInt32
  | .int16 => Decoder.asValue Value.int16 d.DecodeInt16
  | .int8 => Decoder.asValue Value.int8 d.DecodeInt8
  | .uint => Decoder.asValue Value.uint d.DecodeUint
  | .uint64 => Decoder.asValue Value.uint64 d.DecodeUint64
  | .uint32 => Decoder.asValue Value.uint32 d.DecodeUint32
  | .uint16 => Decoder.asValue Value.uint16 d.DecodeUint16
  | .uint8 => Decoder.asValue Value.uint8 d.DecodeUint8
  | .float64 => Decoder.asValue Value.float64 d.DecodeFloat64
  | .float32 => Decoder.asValue Value.float32 d.DecodeFloat32
  | .string => Decoder.asValue Value.string d.DecodeString
  | .data => Decoder.asValue Value.data d.DecodeData

/-- Encodes the values in order on one encoder. -/
def Encoder.EncodeAll : Encoder → List Value → Option Encoder
  | e, [] => some e
  | e, v :: vs =>
    match e.Encode v with
    | none => none
    | some e => Encoder.EncodeAll e vs

/-- Decodes the kinds in order on one decoder, each decode starting from the
state the previous one left, and collects the results. -/
def Decoder.DecodeAll : Decoder → List Kind → Option (List (Value × Option Err) × Decoder)
  | d, [] => some ([], d)
  | d, k :: ks =>
    match d.Decode k with
    | none => none
    | some (r, d) =>
      match Decoder.DecodeAll d ks with
      | none => none
      | some (rs, d) => some (r :: rs, d)

/-- The buffer ends in a trailer that matches its own prefix: `P ++ V ++ [len V]`
where `V` reads as a varint whose low 32 bits are the CRC32 of `P`. -/
def EndsInTrailer (D : List Byte) : Prop :=
  ∃ P V : List Byte, D = P ++ V ++ [byte V.length] ∧ V.length < 256 ∧
    ∃ i, ReadUvarint V = (i, none) ∧ uint32 i = ChecksumIEEE P

/-- The unsigned varint of `x` in the words of the specification: the base-128
digits of `x`, least significant first, one per byte, every byte but the last
with its top bit set. -/
def uvarint (x : Nat) : List Byte :=
  if x < 128 then [byte x] else byte (x % 128 + 128) :: uvarint (x / 128)
termination_by x
decreasing_by omega

/-- The ten fixed-width integer kinds. -/
def Kind.isInteger : Kind → Bool
  | .int | .int64 | .int32 | .int16 | .int8 => true
  | .uint | .uint64 | .uint32 | .uint16 | .uint8 => true
  | _ => false

/-- The number of bytes a `Decode<Kind>` asks for right after the tag: the byte
of a bool, the window of an integer kind (`decodeInt64(8)`, `decodeInt64(4)`,
...), the length byte of a float, the 8-byte length window of a string or byte
slice. -/
def Kind.firstRead : Kind → Nat
  | .bool => 1
  | .int => 8
  | .int64 => 8
  | .int32 => 4
  | .int16 => 2
  | .int8 => 1
  | .uint => 8
  | .uint64 => 8
  | .uint32 => 4
  | .uint16 => 2
  | .uint8 => 1
  | .float64 => 1
  | .float32 => 1
  | .string => 8
  | .data => 8

/-- The cursor invariant `0 <= offset <= len(data)`. -/
def Decoder.Inv (d : Decoder) : Prop :=
  0 ≤ d.offset ∧ d.offset ≤ (d.data.length : Int)

instance (d : Decoder) : Decidable d.Inv := by
  unfold Decoder.Inv; infer_instance

/-- The zigzag value of the specification, `(v << 1) xor (v >> 63)`, on 64-bit
two's complement patterns: `v << 1` wraps at 64 bits and `v >> 63`, the
arithmetic shift, is all ones for a negative `v` and zero otherwise. -/
def zigzag (v : Int) : Nat :=
  ((uint64 v <<< 1) % 2 ^ 64) ^^^ (if v < 0 then 2 ^ 64 - 1 else 0)

/-- The five signed integer kinds. -/
def Kind.isSigned : Kind → Bool
  | .int | .int64 | .int32 | .int16 | .int8 => true
  | _ => false

/-- The integer held by a value of an integer kind (0 for the other kinds). -/
def Value.toInt : Value → Int
  | .int v | .int64 v | .int32 v | .int16 v | .int8 v => v
  | .uint v | .uint64 v | .uint32 v | .uint16 v | .uint8 v => (v : Int)
  | _ => 0

/-- The varint of an integer value in the words of the specification: the
base-128 varint of `zigzag(v)` for the signed kinds, of `v` for the unsigned
kinds (empty for the other kinds). -/
def Value.varint : Value → List Byte
  | .int v | .int64 v | .int32 v | .int16 v | .int8 v => uvarint (zigzag v)
  | .uint v | .uint64 v | .uint32 v | .uint16 v | .uint8 v => uvarint v
  | _ => []

/-- The values whose varint fits the window `w` of their kind, as the ranges of
the specification: `-2^(7w-1) <= v < 2^(7w-1)` for the signed kinds and
`v < 2^(7w)` for the unsigned kinds, `w` being 1, 2, 4, 8 bytes for the
8/16/32/64-bit kinds and 8 for `int` and `uint` (no value of another kind). -/
def Value.InWindow : Value → Prop
  | .int v => -2 ^ (7 * 8 - 1) ≤ v ∧ v < 2 ^ (7 * 8 - 1)
  | .int64 v => -2 ^ (7 * 8 - 1) ≤ v ∧ v < 2 ^ (7 * 8 - 1)
  | .int32 v => -2 ^ (7 * 4 - 1) ≤ v ∧ v < 2 ^ (7 * 4 - 1)
  | .int16 v => -2 ^ (7 * 2 - 1) ≤ v ∧ v < 2 ^ (7 * 2 - 1)
  | .int8 v => -2 ^ (7 * 1 - 1) ≤ v ∧ v < 2 ^ (7 * 1 - 1)
  | .uint v => v < 2 ^ (7 * 8)
  | .uint64 v => v < 2 ^ (7 * 8)
  | .uint32 v => v < 2 ^ (7 * 4)
  | .uint16 v => v < 2 ^ (7 * 2)
  | .uint8 v => v < 2 ^ (7 * 1)
  | _ => False

instance (v : Value) : Decidable v.InWindow := by
  cases v <;> unfold Value.InWindow <;> infer_instance

/-- The state `DecodeString` leaves the decoder in, also when its last step
panics.  The method `getBytes` registers `defer d.incrementOffset(n)` before it
evaluates the slice expression, and Go runs a deferred call both when the
function returns and when it panics, so the last step moves the offset by `l`
either way.  (`none`: an earlier step panicked.) -/
def Decoder.DecodeStringState (d : Decoder) : Option Decoder :=
  match d.checkType codingTypeString with
  | none => none
  | some (some _, d) => some d
  | some (none, d) =>
    if !d.checkLength 8 then some d
    else
      match d.decodeInt64 8 with
      | none => none
      | some ((_, some _), d) => some d
      | some ((l, none), d) =>
        if !d.checkLength l then some d
        else if l = 0 then some d
        else some (d.incrementOffset l)

/-- The state `DecodeData` leaves the decoder in, also when its last step
panics (see `DecodeStringState`). -/
def Decoder.DecodeDataState (d : Decoder) : Option Decoder :=
  match d.checkType codingTypeData with
  | none => none
  | some (some _, d) => some d
  | some (none, d) =>
    match d.decodeInt64 8 with
    | none => none
    | some ((_, some _), d) => some d
    | some ((l, none), d) =>
      if !d.checkLength l then some d
      else if l = 0 then some d
      else some (d.incrementOffset l)

open Decoder Encoder

/-! ## Arithmetic of the varint routines -/

theorem lor_shiftLeft_eq_add (acc v s : Nat) (h : acc < 2 ^ s) :
    acc ||| (v <<< s) = acc + v * 2 ^ s := by
  rw [Nat.shiftLeft_eq, Nat.lor_comm, Nat.mul_comm v, ← Nat.mul_add_lt_is_or h]
  omega

theorem lor_shiftLeft_mod_eq_add (acc v s : Nat) (h : acc < 2 ^ s) (hfit : v * 2 ^ s < 2 ^ 64) :
    acc ||| (v <<< s) % 2 ^ 64 = acc + v * 2 ^ s := by
  have : v <<< s % 2 ^ 64 = v <<< s := by
    rw [Nat.shiftLeft_eq]; exact Nat.mod_eq_of_lt hfit
  rw [this, lor_shiftLeft_eq_add _ _ _ h]

theorem byte_lor_val (x : Nat) : (byte ((x % 256) ||| 0x80)).val = x % 128 + 128 := by
  have h : ∀ b : Fin 256, b.val ||| 128 = b.val % 128 + 128 := by
    set_option maxRecDepth 100000 in decide
  have := h ⟨x % 256, Nat.mod_lt _ (by decide)⟩
  simp only [byte] at *
  rw [this]
  omega

theorem byte_val_of_lt (x : Nat) (h : x < 256) : (byte x).val = x := by
  simp [byte, Nat.mod_eq_of_lt h]

theorem land_0x7f (b : Nat) : b &&& 0x7f = b % 128 :=
  Nat.and_pow_two_sub_one_eq_mod b 7

/-- Reading back what `PutUvarint` wrote, from any iteration of the reader's
loop: the first `n` bytes of the output contribute `x`, shifted into place. -/
theorem readLoop_putUvarint (buf : List Byte) :
    ∀ (x : Nat) (out : List Byte) (n : Nat) (tl : List Byte) (acc i : Nat),
      PutUvarint buf x = some (out, n) → i ≤ 9 → x < 2 ^ (64 - 7 * i) → acc < 2 ^ (7 * i) →
      ReadUvarint.loop (out.take n ++ tl) acc (7 * i) i = (acc + x * 2 ^ (7 * i), none) := by
  induction buf with
  | nil => intro x out n tl acc i h; simp [PutUvarint] at h
  | cons b rest ih =>
    intro x out n tl acc i h hi hx hacc
    unfold PutUvarint at h
    split at h
    · -- a continuation byte
      rename_i hge
      cases hrec : PutUvarint rest (x >>> 7) with
      | none => simp [hrec] at h
      | some p =>
        obtain ⟨out1, n1⟩ := p
        simp only [hrec, Option.some.injEq, Prod.mk.injEq] at h
        obtain ⟨rfl, rfl⟩ := h
        have hi8 : i ≤ 8 := by
          by_contra hc
          have : i = 9 := by omega
          subst this
          norm_num at hx
          omega
        have hx7 : x >>> 7 = x / 128 := by rw [Nat.shiftRight_eq_div_pow]
        have hpow : (2:Nat) ^ (7 * (i + 1)) = 128 * 2 ^ (7 * i) := by
          rw [show 7 * (i + 1) = 7 + 7 * i by ring, pow_add]; norm_num
        have hpow2 : (2:Nat) ^ (64 - 7 * i) = 128 * 2 ^ (64 - 7 * (i + 1)) := by
          rw [show 64 - 7 * i = 7 + (64 - 7 * (i + 1)) by omega, pow_add]; norm_num
        have hlow : x % 128 * 2 ^ (7 * i) < 2 ^ 64 := by
          have h1 : x % 128 < 128 := Nat.mod_lt _ (by decide)
          have h2 : (2:Nat) ^ (7 * i) ≤ 2 ^ 56 := Nat.pow_le_pow_right (by decide) (by omega)
          calc x % 128 * 2 ^ (7 * i) < 128 * 2 ^ 56 := by
                apply Nat.mul_lt_mul_of_lt_of_le h1 h2 (by positivity)
            _ ≤ 2 ^ 64 := by norm_num
        rw [hx7] at hrec
        have step := ih (x / 128) out1 n1 tl (acc + x % 128 * 2 ^ (7 * i)) (i + 1) hrec
          (by omega)
          (by rw [hpow2] at hx; omega)
          (by
            rw [hpow]
            have h1 : x % 128 < 128 := Nat.mod_lt _ (by decide)
            nlinarith)
        simp only [List.take_succ_cons, List.cons_append, ReadUvarint.loop, List.append_eq]
        rw [if_pos (by omega), byte_lor_val, if_neg (by omega), land_0x7f]
        have hm : (x % 128 + 128) % 128 = x % 128 := by omega
        rw [hm, lor_shiftLeft_mod_eq_add _ _ _ hacc hlow,
          show 7 * i + 7 = 7 * (i + 1) by ring, step, hpow]
        congr 1
        have := Nat.div_add_mod x 128
        nlinarith
    · -- the final byte
      rename_i hlt
      simp only [Option.some.injEq, Prod.mk.injEq] at h
      obtain ⟨rfl, rfl⟩ := h
      have hx128 : x < 128 := by omega
      have hfit : x * 2 ^ (7 * i) < 2 ^ 64 := by
        have : (2:Nat) ^ 64 = 2 ^ (64 - 7 * i) * 2 ^ (7 * i) := by
          rw [← pow_add]; congr 1; omega
        rw [this]
        exact Nat.mul_lt_mul_of_lt_of_le hx (le_refl _) (by positivity)
      simp only [List.take_succ_cons, List.take_zero, List.cons_append, List.nil_append,
        ReadUvarint.loop]
      rw [if_pos (by omega), byte_val_of_lt x (by omega), if_pos (by omega), if_neg]
      · rw [lor_shiftLeft_mod_eq_add _ _ _ hacc hfit]
      · rintro ⟨rfl, h1⟩
        norm_num at hx
        omega

/-- The round trip `ReadUvarint (PutUvarint x)` for every `uint64`, over the
`n` bytes written followed by anything. -/
theorem readUvarint_putUvarint (buf : List Byte) (x : Nat) (out : List Byte) (n : Nat)
    (tl : List Byte) (h : PutUvarint buf x = some (out, n)) (hx : x < 2 ^ 64) :
    ReadUvarint (out.take n ++ tl) = (x, none) := by
  have := readLoop_putUvarint buf x out n tl 0 0 h (by omega) (by simpa using hx) (by simp)
  simpa [ReadUvarint] using this

/-- The result of `PutUvarint`: the buffer keeps its length and `1 ≤ n ≤ len`. -/
theorem putUvarint_length (buf : List Byte) :
    ∀ (x : Nat) (out : List Byte) (n : Nat), PutUvarint buf x = some (out, n) →
      out.length = buf.length ∧ 1 ≤ n ∧ n ≤ buf.length := by
  induction buf with
  | nil => intro x out n h; simp [PutUvarint] at h
  | cons b rest ih =>
    intro x out n h
    unfold PutUvarint at h
    split at h
    · cases hrec : PutUvarint rest (x >>> 7) with
      | none => simp [hrec] at h
      | some p =>
        obtain ⟨out1, n1⟩ := p
        simp only [hrec, Option.some.injEq, Prod.mk.injEq] at h
        obtain ⟨rfl, rfl⟩ := h
        have := ih _ _ _ hrec
        simp only [List.length_cons]
        omega
    · simp only [Option.some.injEq, Prod.mk.injEq] at h
      obtain ⟨rfl, rfl⟩ := h
      simp

/-- The function `PutUvarint` completes when the value fits the buffer: `7`
bits per byte. -/
theorem putUvarint_isSome (buf : List Byte) :
    ∀ (x : Nat), x < 2 ^ (7 * buf.length) → 1 ≤ buf.length →
      ∃ out n, PutUvarint buf x = some (out, n) := by
  induction buf with
  | nil => intro x _ h; simp at h
  | cons b rest ih =>
    intro x hx _
    unfold PutUvarint
    split
    · rename_i hge
      have hrest : 1 ≤ rest.length := by
        by_contra hc
        have : rest.length = 0 := by omega
        simp [this] at hx
        omega
      have hx2 : x >>> 7 < 2 ^ (7 * rest.length) := by
        rw [Nat.shiftRight_eq_div_pow]
        simp only [List.length_cons] at hx
        rw [show 7 * (rest.length + 1) = 7 + 7 * rest.length by ring, pow_add] at hx
        exact Nat.div_lt_of_lt_mul hx
      obtain ⟨out, n, h⟩ := ih _ hx2 hrest
      exact ⟨_, _, by rw [h]⟩
    · exact ⟨_, _, rfl⟩

/-! ## Zigzag -/

/-- The round trip `ReadVarint (PutVarint x)` for every `int64`, over the `n`
bytes written followed by anything. -/
theorem readVarint_putVarint (buf : List Byte) (x : Int) (out : List Byte) (n : Nat)
    (tl : List Byte) (h : PutVarint buf x = some (out, n))
    (hlo : -2 ^ 63 ≤ x) (hhi : x < 2 ^ 63) :
    ReadVarint (out.take n ++ tl) = (x, none) := by
  unfold PutVarint at h
  simp only at h
  have hrt := readUvarint_putUvarint buf _ out n tl h
  by_cases hneg : x < 0
  · simp only [hneg, if_true] at h hrt
    have hu : uint64 x = (x + 2 ^ 64).toNat := by unfold uint64; omega
    have hux : (uint64 x <<< 1) % 2 ^ 64 = (2 * x + 2 ^ 64).toNat := by
      rw [Nat.shiftLeft_eq, hu]; omega
    rw [hux] at hrt
    have hrt2 := hrt (by omega)
    unfold ReadVarint
    rw [hrt2]
    simp only [Nat.and_one_is_mod, Nat.shiftRight_eq_div_pow, int64]
    have h1 : (2 ^ 64 - 1 - (2 * x + 2 ^ 64).toNat) % 2 = 1 := by omega
    rw [h1]
    simp only [ne_eq, one_ne_zero, not_false_eq_true, if_true, Prod.mk.injEq, and_true]
    split <;> omega
  · simp only [hneg, if_false] at h hrt
    have hu : uint64 x = x.toNat := by unfold uint64; omega
    have hux : (uint64 x <<< 1) % 2 ^ 64 = 2 * x.toNat := by
      rw [Nat.shiftLeft_eq, hu]; omega
    rw [hux] at hrt
    have hrt2 := hrt (by omega)
    unfold ReadVarint
    rw [hrt2]
    simp only [Nat.and_one_is_mod, Nat.shiftRight_eq_div_pow, int64]
    have h1 : (2 * x.toNat) % 2 = 0 := by omega
    rw [h1]
    simp only [ne_eq, not_true_eq_false, if_false, Prod.mk.injEq, and_true]
    split <;> omega

/-- The zigzag value handed to `PutUvarint` by `PutVarint`. -/
theorem putVarint_eq (buf : List Byte) (x : Int) (hlo : -2 ^ 63 ≤ x) (hhi : x < 2 ^ 63) :
    PutVarint buf x = PutUvarint buf (if x < 0 then (-2 * x - 1).toNat else (2 * x).toNat) := by
  unfold PutVarint
  simp only
  congr 1
  by_cases hneg : x < 0
  · simp only [hneg, if_true]
    unfold uint64
    rw [Nat.shiftLeft_eq]
    omega
  · simp only [hneg, if_false]
    unfold uint64
    rw [Nat.shiftLeft_eq]
    omega

/-! ## The checksum is a `uint32` -/

theorem crcTableEntry_round_lt (c : Nat) (h : c < 2 ^ 32) : crcTableEntry.round c < 2 ^ 32 := by
  unfold crcTableEntry.round
  have h1 : c >>> 1 < 2 ^ 32 := by rw [Nat.shiftRight_eq_div_pow]; omega
  split
  · exact Nat.xor_lt_two_pow h1 (by norm_num)
  · exact h1

theorem crcTableEntry_lt (i : Nat) (h : i < 2 ^ 32) : crcTableEntry i < 2 ^ 32 := by
  unfold crcTableEntry
  repeat apply crcTableEntry_round_lt
  exact h

theorem crcUpdate_lt (data : List Byte) : ∀ crc, crc < 2 ^ 32 → crcUpdate crc data < 2 ^ 32 := by
  induction data with
  | nil => intro crc h; simpa [crcUpdate] using h
  | cons v rest ih =>
    intro crc h
    unfold crcUpdate
    apply ih
    apply Nat.xor_lt_two_pow
    · apply crcTableEntry_lt
      have h1 : crc % 256 < 2 ^ 32 := by omega
      have h2 : v.val < 2 ^ 32 := by have := v.isLt; omega
      exact Nat.xor_lt_two_pow h1 h2
    · rw [Nat.shiftRight_eq_div_pow]; omega

theorem checksumIEEE_lt (data : List Byte) : ChecksumIEEE data < 2 ^ 32 := by
  unfold ChecksumIEEE
  exact Nat.xor_lt_two_pow (crcUpdate_lt data _ (by norm_num)) (by norm_num)

/-! ## The decoder's primitives at a known position -/

theorem getElem?_lt_length {α : Type} (l : List α) (i : Nat) (a : α) (h : l[i]? = some a) :
    i < l.length := by
  by_contra hc
  rw [List.getElem?_eq_none (by omega)] at h
  exact Option.noConfusion h

/-- A tag mismatch: `ErrType`, and the decoder is exactly as before. -/
theorem checkType_mismatch (d : Decoder) (b t : Byte) (h0 : 0 ≤ d.offset)
    (hb : d.data[d.offset.toNat]? = some b) (hne : b ≠ t) :
    d.checkType t = some (some Err.ErrType, d) := by
  have hlt := getElem?_lt_length _ _ _ hb
  have hcl : d.checkLength 1 = true := by
    simp only [checkLength, decide_eq_true_eq]; omega
  unfold checkType
  simp only [hcl, Bool.not_true, Bool.false_eq_true, if_false, getByte, h0, if_true, hb, hne]
  simp [decrementOffset, incrementOffset]

/-- A tag match: no error, and the offset moves past the tag. -/
theorem checkType_match (d : Decoder) (pre rest : List Byte) (t : Byte)
    (hd : d.data = pre ++ t :: rest) (ho : d.offset = pre.length) :
    d.checkType t = some (none, ⟨d.data, d.offset + 1⟩) := by
  have hcl : d.checkLength 1 = true := by
    simp only [checkLength, decide_eq_true_eq, hd, ho, List.length_append, List.length_cons]
    push_cast; omega
  have hb : d.data[d.offset.toNat]? = some t := by
    rw [hd, ho, Int.toNat_ofNat, List.getElem?_append_right (le_refl _)]; simp
  have h0 : 0 ≤ d.offset := by omega
  unfold checkType
  simp only [hcl, Bool.not_true, Bool.false_eq_true, if_false, getByte, h0, if_true, hb]
  simp [incrementOffset]

/-- The slice `d.data[d.offset : d.offset+n]` when the next `n` bytes are `win`. -/
theorem getBytes_window (d : Decoder) (pre win suf : List Byte) (n : Int)
    (hd : d.data = pre ++ win ++ suf) (ho : d.offset = pre.length) (hn : n = win.length) :
    d.getBytes n = some (win, ⟨d.data, d.offset + n⟩) := by
  unfold getBytes
  have hc : 0 ≤ d.offset ∧ 0 ≤ n ∧ d.offset + n ≤ (d.data.length : Int) := by
    rw [hd, ho, hn]; simp only [List.length_append]; push_cast; omega
  rw [if_pos hc]
  have h1 : d.offset.toNat = pre.length := by omega
  have h2 : n.toNat = win.length := by omega
  simp only [h1, h2, hd, incrementOffset, List.append_assoc, List.drop_left, List.take_left]

theorem checkLength_window (d : Decoder) (pre win suf : List Byte) (n : Int)
    (hd : d.data = pre ++ win ++ suf) (ho : d.offset = pre.length) (hn : n = win.length) :
    d.checkLength n = true := by
  simp only [checkLength, decide_eq_true_eq, hd, ho, hn, List.length_append]
  push_cast; omega

theorem getIntByteReader_window (d : Decoder) (pre win suf : List Byte) (n : Int)
    (hd : d.data = pre ++ win ++ suf) (ho : d.offset = pre.length) (hn : n = win.length) :
    d.getIntByteReader n = some ((win, none), ⟨d.data, d.offset + n⟩) := by
  unfold getIntByteReader
  simp [checkLength_window d pre win suf n hd ho hn, getBytes_window d pre win suf n hd ho hn]

theorem decodeUint64_window (d : Decoder) (pre win suf : List Byte) (n : Int)
    (hd : d.data = pre ++ win ++ suf) (ho : d.offset = pre.length) (hn : n = win.length) :
    d.decodeUint64 n = some (ReadUvarint win, ⟨d.data, d.offset + n⟩) := by
  unfold decodeUint64
  simp [getIntByteReader_window d pre win suf n hd ho hn]

theorem decodeInt64_window (d : Decoder) (pre win suf : List Byte) (n : Int)
    (hd : d.data = pre ++ win ++ suf) (ho : d.offset = pre.length) (hn : n = win.length) :
    d.decodeInt64 n = some (ReadVarint win, ⟨d.data, d.offset + n⟩) := by
  unfold decodeInt64
  simp [getIntByteReader_window d pre win suf n hd ho hn]

/-- Too few bytes for the window: `ErrEOB`, offset unchanged. -/
theorem decodeInt64_short (d : Decoder) (n : Int) (h : (d.data.length : Int) ≤ d.offset + n - 1) :
    d.decodeInt64 n = some ((0, some Err.ErrEOB), d) := by
  have hcl : d.checkLength n = false := by
    simp only [checkLength, decide_eq_false_iff_not]; omega
  simp [decodeInt64, getIntByteReader, hcl]

/-! ## Round trips of the windows -/

theorem putVarint_length (buf : List Byte) (x : Int) (out : List Byte) (n : Nat)
    (h : PutVarint buf x = some (out, n)) : out.length = buf.length ∧ 1 ≤ n ∧ n ≤ buf.length :=
  putUvarint_length buf _ out n h

/-- Decoding a signed window that `PutVarint` filled. -/
theorem decodeInt64_putVarint (w : Nat) (wi : Int) (hw : wi = w) (x : Int)
    (hlo : -2 ^ 63 ≤ x) (hhi : x < 2 ^ 63)
    (b : List Byte) (n : Nat) (hp : PutVarint (List.replicate w 0) x = some (b, n))
    (d : Decoder) (pre suf : List Byte) (hd : d.data = pre ++ b ++ suf)
    (ho : d.offset = pre.length) :
    d.decodeInt64 wi = some ((x, none), ⟨d.data, d.offset + wi⟩) := by
  have hl := putVarint_length _ _ _ _ hp
  rw [List.length_replicate] at hl
  rw [decodeInt64_window d pre b suf wi hd ho (by omega)]
  have := readVarint_putVarint _ x b n (b.drop n) hp hlo hhi
  rw [List.take_append_drop] at this
  rw [this]

/-- Decoding an unsigned window that `PutUvarint` filled. -/
theorem decodeUint64_putUvarint (w : Nat) (wi : Int) (hw : wi = w) (x : Nat) (hx : x < 2 ^ 64)
    (b : List Byte) (n : Nat) (hp : PutUvarint (List.replicate w 0) x = some (b, n))
    (d : Decoder) (pre suf : List Byte) (hd : d.data = pre ++ b ++ suf)
    (ho : d.offset = pre.length) :
    d.decodeUint64 wi = some ((x, none), ⟨d.data, d.offset + wi⟩) := by
  have hl := putUvarint_length _ _ _ _ hp
  rw [List.length_replicate] at hl
  rw [decodeUint64_window d pre b suf wi hd ho (by omega)]
  have := readUvarint_putUvarint _ x b n (b.drop n) hp hx
  rw [List.take_append_drop] at this
  rw [this]

/-- What a completed `EncodeInt` appended. -/
theorem EncodeInt_data (e e1 : Encoder) (x : Int) (h : e.EncodeInt x = some e1) :
    ∃ b n, PutVarint (List.replicate 8 0) x = some (b, n) ∧
      e1.data = e.data ++ codingTypeInt :: b := by
  unfold EncodeInt at h
  simp only at h
  split at h
  · exact Option.noConfusion h
  · rename_i b n hp
    refine ⟨b, n, hp, ?_⟩
    simp only [Option.some.injEq] at h
    subst h
    simp [appendBytes, appendByte]

/-- Round trip of `EncodeInt` / `DecodeInt` at any position of a buffer. -/
theorem DecodeInt_EncodeInt (e e1 : Encoder) (x : Int) (hlo : -2 ^ 63 ≤ x) (hhi : x < 2 ^ 63)
    (h : e.EncodeInt x = some e1) (suf : List Byte) :
    (⟨e1.data ++ suf, e.data.length⟩ : Decoder).DecodeInt =
      some ((x, none), ⟨e1.data ++ suf, e1.data.length⟩) := by
  obtain ⟨b, n, hp, hdata⟩ := EncodeInt_data e e1 x h
  have hl := putVarint_length _ _ _ _ hp
  rw [List.length_replicate] at hl
  have h1 := checkType_match ⟨e1.data ++ suf, e.data.length⟩ e.data (b ++ suf) codingTypeInt
    (by simp [hdata]) rfl
  have h2 := decodeInt64_putVarint 8 8 rfl x (by omega) (by omega) b n hp
    ⟨e1.data ++ suf, (e.data.length : Int) + 1⟩ (e.data ++ [codingTypeInt]) suf
    (by simp [hdata]) (by simp)
  unfold DecodeInt
  simp only [h1, h2, Option.some.injEq, Prod.mk.injEq, Decoder.mk.injEq, true_and, and_true]
  rw [hdata]; simp only [List.length_append, List.length_cons, hl.1]; push_cast; omega

/-- What a completed `EncodeInt64` appended. -/
theorem EncodeInt64_data (e e1 : Encoder) (x : Int) (h : e.EncodeInt64 x = some e1) :
    ∃ b n, PutVarint (List.replicate 8 0) x = some (b, n) ∧
      e1.data = e.data ++ codingTypeInt64 :: b := by
  unfold EncodeInt64 at h
  simp only at h
  split at h
  · exact Option.noConfusion h
  · rename_i b n hp
    refine ⟨b, n, hp, ?_⟩
    simp only [Option.some.injEq] at h
    subst h
    simp [appendBytes, appendByte]

/-- Round trip of `EncodeInt64` / `DecodeInt64` at any position of a buffer. -/
theorem DecodeInt64_EncodeInt64 (e e1 : Encoder) (x : Int) (hlo : -2 ^ 63 ≤ x) (hhi : x < 2 ^ 63)
    (h : e.EncodeInt64 x = some e1) (suf : List Byte) :
    (⟨e1.data ++ suf, e.data.length⟩ : Decoder).DecodeInt64 =
      some ((x, none), ⟨e1.data ++ suf, e1.data.length⟩) := by
  obtain ⟨b, n, hp, hdata⟩ := EncodeInt64_data e e1 x h
  have hl := putVarint_length _ _ _ _ hp
  rw [List.length_replicate] at hl
  have h1 := checkType_match ⟨e1.data ++ suf, e.data.length⟩ e.data (b ++ suf) codingTypeInt64
    (by simp [hdata]) rfl
  have h2 := decodeInt64_putVarint 8 8 rfl x (by omega) (by omega) b n hp
    ⟨e1.data ++ suf, (e.data.length : Int) + 1⟩ (e.data ++ [codingTypeInt64]) suf
    (by simp [hdata]) (by simp)
  unfold DecodeInt64
  simp only [h1, h2, Option.some.injEq, Prod.mk.injEq, Decoder.mk.injEq, true_and, and_true]
  rw [hdata]; simp only [List.length_append, List.length_cons, hl.1]; push_cast; omega

/-- What a completed `EncodeInt32` appended. -/
theorem EncodeInt32_data (e e1 : Encoder) (x : Int) (h : e.EncodeInt32 x = some e1) :
    ∃ b n, PutVarint (List.replicate 4 0) x = some (b, n) ∧
      e1.data = e.data ++ codingTypeInt32 :: b := by
  unfold EncodeInt32 at h
  simp only at h
  split at h
  · exact Option.noConfusion h
  · rename_i b n hp
    refine ⟨b, n, hp, ?_⟩
    simp only [Option.some.injEq] at h
    subst h
    simp [appendBytes, appendByte]

/-- Round trip of `EncodeInt32` / `DecodeInt32` at any position of a buffer. -/
theorem DecodeInt32_EncodeInt32 (e e1 : Encoder) (x : Int) (hlo : -2 ^ 31 ≤ x) (hhi : x < 2 ^ 31)
    (h : e.EncodeInt32 x = some e1) (suf : List Byte) :
    (⟨e1.data ++ suf, e.data.length⟩ : Decoder).DecodeInt32 =
      some ((x, none), ⟨e1.data ++ suf, e1.data.length⟩) := by
  obtain ⟨b, n, hp, hdata⟩ := EncodeInt32_data e e1 x h
  have hl := putVarint_length _ _ _ _ hp
  rw [List.length_replicate] at hl
  have h1 := checkType_match ⟨e1.data ++ suf, e.data.length⟩ e.data (b ++ suf) codingTypeInt32
    (by simp [hdata]) rfl
  have h2 := decodeInt64_putVarint 4 4 rfl x (by omega) (by omega) b n hp
    ⟨e1.data ++ suf, (e.data.length : Int) + 1⟩ (e.data ++ [codingTypeInt32]) suf
    (by simp [hdata]) (by simp)
  unfold DecodeInt32
  simp only [h1, h2, Option.some.injEq, Prod.mk.injEq, Decoder.mk.injEq, true_and, and_true]
  constructor
  · unfold int32; omega
  · rw [hdata]; simp only [List.length_append, List.length_cons, hl.1]; push_cast; omega

/-- What a completed `EncodeInt16` appended. -/
theorem EncodeInt16_data (e e1 : Encoder) (x : Int) (h : e.EncodeInt16 x = some e1) :
    ∃ b n, PutVarint (List.replicate 2 0) x = some (b, n) ∧
      e1.data = e.data ++ codingTypeInt16 :: b := by
  unfold EncodeInt16 at h
  simp only at h
  split at h
  · exact Option.noConfusion h
  · rename_i b n hp
    refine ⟨b, n, hp, ?_⟩
    simp only [Option.some.injEq] at h
    subst h
    simp [appendBytes, appendByte]

/-- Round trip of `EncodeInt16` / `DecodeInt16` at any position of a buffer. -/
theorem DecodeInt16_EncodeInt16 (e e1 : Encoder) (x : Int) (hlo : -2 ^ 15 ≤ x) (hhi : x < 2 ^ 15)
    (h : e.EncodeInt16 x = some e1) (suf : List Byte) :
    (⟨e1.data ++ suf, e.data.length⟩ : Decoder).DecodeInt16 =
      some ((x, none), ⟨e1.data ++ suf, e1.data.length⟩) := by
  obtain ⟨b, n, hp, hdata⟩ := EncodeInt16_data e e1 x h
  have hl := putVarint_length _ _ _ _ hp
  rw [List.length_replicate] at hl
  have h1 := checkType_match ⟨e1.data ++ suf, e.data.length⟩ e.data (b ++ suf) codingTypeInt16
    (by simp [hdata]) rfl
  have h2 := decodeInt64_putVarint 2 2 rfl x (by omega) (by omega) b n hp
    ⟨e1.data ++ suf, (e.data.length : Int) + 1⟩ (e.data ++ [codingTypeInt16]) suf
    (by simp [hdata]) (by simp)
  unfold DecodeInt16
  simp only [h1, h2, Option.some.injEq, Prod.mk.injEq, Decoder.mk.injEq, true_and, and_true]
  constructor
  · unfold int16; omega
  · rw [hdata]; simp only [List.length_append, List.length_cons, hl.1]; push_cast; omega

/-- What a completed `EncodeInt8` appended. -/
theorem EncodeInt8_data (e e1 : Encoder) (x : Int) (h : e.EncodeInt8 x = some e1) :
    ∃ b n, PutVarint (List.replicate 1 0) x = some (b, n) ∧
      e1.data = e.data ++ codingTypeInt8 :: b := by
  unfold EncodeInt8 at h
  simp only at h
  split at h
  · exact Option.noConfusion h
  · rename_i b n hp
    refine ⟨b, n, hp, ?_⟩
    simp only [Option.some.injEq] at h
    subst h
    simp [appendBytes, appendByte]

/-- Round trip of `EncodeInt8` / `DecodeInt8` at any position of a buffer. -/
theorem DecodeInt8_EncodeInt8 (e e1 : Encoder) (x : Int) (hlo : -2 ^ 7 ≤ x) (hhi : x < 2 ^ 7)
    (h : e.EncodeInt8 x = some e1) (suf : List Byte) :
    (⟨e1.data ++ suf, e.data.length⟩ : Decoder).DecodeInt8 =
      some ((x, none), ⟨e1.data ++ suf, e1.data.length⟩) := by
  obtain ⟨b, n, hp, hdata⟩ := EncodeInt8_data e e1 x h
  have hl := putVarint_length _ _ _ _ hp
  rw [List.length_replicate] at hl
  have h1 := checkType_match ⟨e1.data ++ suf, e.data.length⟩ e.data (b ++ suf) codingTypeInt8
    (by simp [hdata]) rfl
  have h2 := decodeInt64_putVarint 1 1 rfl x (by omega) (by omega) b n hp
    ⟨e1.data ++ suf, (e.data.length : Int) + 1⟩ (e.data ++ [codingTypeInt8]) suf
    (by simp [hdata]) (by simp)
  unfold DecodeInt8
  simp only [h1, h2, Option.some.injEq, Prod.mk.injEq, Decoder.mk.injEq, true_and, and_true]
  constructor
  · unfold int8; omega
  · rw [hdata]; simp only [List.length_append, List.length_cons, hl.1]; push_cast; omega

/-- What a completed `EncodeUint` appended. -/
theorem EncodeUint_data (e e1 : Encoder) (x : Nat) (h : e.EncodeUint x = some e1) :
    ∃ b n, PutUvarint (List.replicate 8 0) x = some (b, n) ∧
      e1.data = e.data ++ codingTypeUint :: b := by
  unfold EncodeUint at h
  simp only at h
  split at h
  · exact Option.noConfusion h
  · rename_i b n hp
    refine ⟨b, n, hp, ?_⟩
    simp only [Option.some.injEq] at h
    subst h
    simp [appendBytes, appendByte]

/-- Round trip of `EncodeUint` / `DecodeUint` at any position of a buffer. -/
theorem DecodeUint_EncodeUint (e e1 : Encoder) (x : Nat) (hx : x < 2 ^ 64)
    (h : e.EncodeUint x = some e1) (suf : List Byte) :
    (⟨e1.data ++ suf, e.data.length⟩ : Decoder).DecodeUint =
      some ((x, none), ⟨e1.data ++ suf, e1.data.length⟩) := by
  obtain ⟨b, n, hp, hdata⟩ := EncodeUint_data e e1 x h
  have hl := putUvarint_length _ _ _ _ hp
  rw [List.length_replicate] at hl
  have h1 := checkType_match ⟨e1.data ++ suf, e.data.length⟩ e.data (b ++ suf) codingTypeUint
    (by simp [hdata]) rfl
  have h2 := decodeUint64_putUvarint 8 8 rfl x (by omega) b n hp
    ⟨e1.data ++ suf, (e.data.length : Int) + 1⟩ (e.data ++ [codingTypeUint]) suf
    (by simp [hdata]) (by simp)
  unfold DecodeUint
  simp only [h1, h2, Option.some.injEq, Prod.mk.injEq, Decoder.mk.injEq, true_and, and_true]
  rw [hdata]; simp only [List.length_append, List.length_cons, hl.1]; push_cast; omega

/-- What a completed `EncodeUint64` appended. -/
theorem EncodeUint64_data (e e1 : Encoder) (x : Nat) (h : e.EncodeUint64 x = some e1) :
    ∃ b n, PutUvarint (List.replicate 8 0) x = some (b, n) ∧
      e1.data = e.data ++ codingTypeUint64 :: b := by
  unfold EncodeUint64 at h
  simp only at h
  split at h
  · exact Option.noConfusion h
  · rename_i b n hp
    refine ⟨b, n, hp, ?_⟩
    simp only [Option.some.injEq] at h
    subst h
    simp [appendBytes, appendByte]

/-- Round trip of `EncodeUint64` / `DecodeUint64` at any position of a buffer. -/
theorem DecodeUint64_EncodeUint64 (e e1 : Encoder) (x : Nat) (hx : x < 2 ^ 64)
    (h : e.EncodeUint64 x = some e1) (suf : List Byte) :
    (⟨e1.data ++ suf, e.data.length⟩ : Decoder).DecodeUint64 =
      some ((x, none), ⟨e1.data ++ suf, e1.data.length⟩) := by
  obtain ⟨b, n, hp, hdata⟩ := EncodeUint64_data e e1 x h
  have hl := putUvarint_length _ _ _ _ hp
  rw [List.length_replicate] at hl
  have h1 := checkType_match ⟨e1.data ++ suf, e.data.length⟩ e.data (b ++ suf) codingTypeUint64
    (by simp [hdata]) rfl
  have h2 := decodeUint64_putUvarint 8 8 rfl x (by omega) b n hp
    ⟨e1.data ++ suf, (e.data.length : Int) + 1⟩ (e.data ++ [codingTypeUint64]) suf
    (by simp [hdata]) (by simp)
  unfold DecodeUint64
  simp only [h1, h2, Option.some.injEq, Prod.mk.injEq, Decoder.mk.injEq, true_and, and_true]
  rw [hdata]; simp only [List.length_append, List.length_cons, hl.1]; push_cast; omega

/-- What a completed `EncodeUint32` appended. -/
theorem EncodeUint32_data (e e1 : Encoder) (x : Nat) (h : e.EncodeUint32 x = some e1) :
    ∃ b n, PutUvarint (List.replicate 4 0) x = some (b, n) ∧
      e1.data = e.data ++ codingTypeUint32 :: b := by
  unfold EncodeUint32 at h
  simp only at h
  split at h
  · exact Option.noConfusion h
  · rename_i b n hp
    refine ⟨b, n, hp, ?_⟩
    simp only [Option.some.injEq] at h
    subst h
    simp [appendBytes, appendByte]

/-- Round trip of `EncodeUint32` / `DecodeUint32` at any position of a buffer. -/
theorem DecodeUint32_EncodeUint32 (e e1 : Encoder) (x : Nat) (hx : x < 2 ^ 32)
    (h : e.EncodeUint32 x = some e1) (suf : List Byte) :
    (⟨e1.data ++ suf, e.data.length⟩ : Decoder).DecodeUint32 =
      some ((x, none), ⟨e1.data ++ suf, e1.data.length⟩) := by
  obtain ⟨b, n, hp, hdata⟩ := EncodeUint32_data e e1 x h
  have hl := putUvarint_length _ _ _ _ hp
  rw [List.length_replicate] at hl
  have h1 := checkType_match ⟨e1.data ++ suf, e.data.length⟩ e.data (b ++ suf) codingTypeUint32
    (by simp [hdata]) rfl
  have h2 := decodeUint64_putUvarint 4 4 rfl x (by omega) b n hp
    ⟨e1.data ++ suf, (e.data.length : Int) + 1⟩ (e.data ++ [codingTypeUint32]) suf
    (by simp [hdata]) (by simp)
  unfold DecodeUint32
  simp only [h1, h2, Option.some.injEq, Prod.mk.injEq, Decoder.mk.injEq, true_and, and_true]
  constructor
  · unfold uint32; omega
  · rw [hdata]; simp only [List.length_append, List.length_cons, hl.1]; push_cast; omega

/-- What a completed `EncodeUint16` appended. -/
theorem EncodeUint16_data (e e1 : Encoder) (x : Nat) (h : e.EncodeUint16 x = some e1) :
    ∃ b n, PutUvarint (List.replicate 2 0) x = some (b, n) ∧
      e1.data = e.data ++ codingTypeUint16 :: b := by
  unfold EncodeUint16 at h
  simp only at h
  split at h
  · exact Option.noConfusion h
  · rename_i b n hp
    refine ⟨b, n, hp, ?_⟩
    simp only [Option.some.injEq] at h
    subst h
    simp [appendBytes, appendByte]

/-- Round trip of `EncodeUint16` / `DecodeUint16` at any position of a buffer. -/
theorem DecodeUint16_EncodeUint16 (e e1 : Encoder) (x : Nat) (hx : x < 2 ^ 16)
    (h : e.EncodeUint16 x = some e1) (suf : List Byte) :
    (⟨e1.data ++ suf, e.data.length⟩ : Decoder).DecodeUint16 =
      some ((x, none), ⟨e1.data ++ suf, e1.data.length⟩) := by
  obtain ⟨b, n, hp, hdata⟩ := EncodeUint16_data e e1 x h
  have hl := putUvarint_length _ _ _ _ hp
  rw [List.length_replicate] at hl
  have h1 := checkType_match ⟨e1.data ++ suf, e.data.length⟩ e.data (b ++ suf) codingTypeUint16
    (by simp [hdata]) rfl
  have h2 := decodeUint64_putUvarint 2 2 rfl x (by omega) b n hp
    ⟨e1.data ++ suf, (e.data.length : Int) + 1⟩ (e.data ++ [codingTypeUint16]) suf
    (by simp [hdata]) (by simp)
  unfold DecodeUint16
  simp only [h1, h2, Option.some.injEq, Prod.mk.injEq, Decoder.mk.injEq, true_and, and_true]
  constructor
  · unfold uint16; omega
  · rw [hdata]; simp only [List.length_append, List.length_cons, hl.1]; push_cast; omega

/-- What a completed `EncodeUint8` appended. -/
theorem EncodeUint8_data (e e1 : Encoder) (x : Nat) (h : e.EncodeUint8 x = some e1) :
    ∃ b n, PutUvarint (List.replicate 1 0) x = some (b, n) ∧
      e1.data = e.data ++ codingTypeUint8 :: b := by
  unfold EncodeUint8 at h
  simp only at h
  split at h
  · exact Option.noConfusion h
  · rename_i b n hp
    refine ⟨b, n, hp, ?_⟩
    simp only [Option.some.injEq] at h
    subst h
    simp [appendBytes, appendByte]

/-- Round trip of `EncodeUint8` / `DecodeUint8` at any position of a buffer. -/
theorem DecodeUint8_EncodeUint8 (e e1 : Encoder) (x : Nat) (hx : x < 2 ^ 8)
    (h : e.EncodeUint8 x = some e1) (suf : List Byte) :
    (⟨e1.data ++ suf, e.data.length⟩ : Decoder).DecodeUint8 =
      some ((x, none), ⟨e1.data ++ suf, e1.data.length⟩) := by
  obtain ⟨b, n, hp, hdata⟩ := EncodeUint8_data e e1 x h
  have hl := putUvarint_length _ _ _ _ hp
  rw [List.length_replicate] at hl
  have h1 := checkType_match ⟨e1.data ++ suf, e.data.length⟩ e.data (b ++ suf) codingTypeUint8
    (by simp [hdata]) rfl
  have h2 := decodeUint64_putUvarint 1 1 rfl x (by omega) b n hp
    ⟨e1.data ++ suf, (e.data.length : Int) + 1⟩ (e.data ++ [codingTypeUint8]) suf
    (by simp [hdata]) (by simp)
  unfold DecodeUint8
  simp only [h1, h2, Option.some.injEq, Prod.mk.injEq, Decoder.mk.injEq, true_and, and_true]
  constructor
  · unfold uint8; omega
  · rw [hdata]; simp only [List.length_append, List.length_cons, hl.1]; push_cast; omega

/-- The one-byte length prefix of a float reads back as itself. -/
theorem readUvarint_single (n : Nat) (h : n < 128) : ReadUvarint [byte n] = (n, none) := by
  have hv : (byte n).val = n := byte_val_of_lt n (by omega)
  simp only [ReadUvarint, ReadUvarint.loop, hv]
  rw [if_pos (by omega), if_pos (by omega), if_neg (by omega)]
  simp only [Nat.shiftLeft_zero, Nat.zero_or, Prod.mk.injEq, and_true]
  omega

theorem int64_of_lt (n : Nat) (h : n < 2 ^ 63) : int64 n = (n : Int) := by
  unfold int64
  have : n % 2 ^ 64 = n := Nat.mod_eq_of_lt (by omega)
  rw [this, if_pos h]

/-- What a completed `EncodeFloat64` appended. -/
theorem EncodeFloat64_data (e e1 : Encoder) (x : Nat) (h : e.EncodeFloat64 x = some e1) :
    ∃ b n, PutUvarint (List.replicate 16 0) x = some (b, n) ∧
      e1.data = e.data ++ codingTypeFloat64 :: byte n :: b.take n := by
  unfold EncodeFloat64 at h
  simp only at h
  split at h
  · exact Option.noConfusion h
  · rename_i b n hp
    refine ⟨b, n, hp, ?_⟩
    simp only [Option.some.injEq] at h
    subst h
    simp [appendBytes, appendByte]

/-- Round trip of `EncodeFloat64` / `DecodeFloat64` at any position of a buffer. -/
theorem DecodeFloat64_EncodeFloat64 (e e1 : Encoder) (x : Nat) (hx : x < 2 ^ 64)
    (h : e.EncodeFloat64 x = some e1) (suf : List Byte) :
    (⟨e1.data ++ suf, e.data.length⟩ : Decoder).DecodeFloat64 =
      some ((x, none), ⟨e1.data ++ suf, e1.data.length⟩) := by
  obtain ⟨b, n, hp, hdata⟩ := EncodeFloat64_data e e1 x h
  have hl := putUvarint_length _ _ _ _ hp
  rw [List.length_replicate] at hl
  have hlen : (b.take n).length = n := by rw [List.length_take]; omega
  have h1 := checkType_match ⟨e1.data ++ suf, e.data.length⟩ e.data
    (byte n :: b.take n ++ suf) codingTypeFloat64 (by simp [hdata]) rfl
  have h2 := checkLength_window ⟨e1.data ++ suf, (e.data.length : Int) + 1⟩
    (e.data ++ [codingTypeFloat64]) [byte n] (b.take n ++ suf) 1 (by simp [hdata]) (by simp)
    (by simp)
  have h3 := decodeUint64_window ⟨e1.data ++ suf, (e.data.length : Int) + 1⟩
    (e.data ++ [codingTypeFloat64]) [byte n] (b.take n ++ suf) 1 (by simp [hdata]) (by simp)
    (by simp)
  rw [readUvarint_single n (by omega)] at h3
  have h4 := decodeUint64_window ⟨e1.data ++ suf, (e.data.length : Int) + 1 + 1⟩
    (e.data ++ [codingTypeFloat64, byte n]) (b.take n) suf (int64 n) (by simp [hdata])
    (by simp; omega) (by rw [int64_of_lt n (by omega), hlen])
  have h5 := readUvarint_putUvarint _ x b n [] hp (by omega)
  rw [List.append_nil] at h5
  rw [h5] at h4
  unfold DecodeFloat64
  simp only [h1, h2, h3, h4, Bool.not_true, Bool.false_eq_true, if_false, Option.some.injEq,
    Prod.mk.injEq, Decoder.mk.injEq, true_and, and_true]
  rw [int64_of_lt n (by omega)]
  rw [hdata]; simp only [List.length_append, List.length_cons, hlen]; push_cast; omega

/-- What a completed `EncodeFloat32` appended. -/
theorem EncodeFloat32_data (e e1 : Encoder) (x : Nat) (h : e.EncodeFloat32 x = some e1) :
    ∃ b n, PutUvarint (List.replicate 16 0) x = some (b, n) ∧
      e1.data = e.data ++ codingTypeFloat32 :: byte n :: b.take n := by
  unfold EncodeFloat32 at h
  simp only at h
  split at h
  · exact Option.noConfusion h
  · rename_i b n hp
    refine ⟨b, n, hp, ?_⟩
    simp only [Option.some.injEq] at h
    subst h
    simp [appendBytes, appendByte]

/-- Round trip of `EncodeFloat32` / `DecodeFloat32` at any position of a buffer. -/
theorem DecodeFloat32_EncodeFloat32 (e e1 : Encoder) (x : Nat) (hx : x < 2 ^ 32)
    (h : e.EncodeFloat32 x = some e1) (suf : List Byte) :
    (⟨e1.data ++ suf, e.data.length⟩ : Decoder).DecodeFloat32 =
      some ((x, none), ⟨e1.data ++ suf, e1.data.length⟩) := by
  obtain ⟨b, n, hp, hdata⟩ := EncodeFloat32_data e e1 x h
  have hl := putUvarint_length _ _ _ _ hp
  rw [List.length_replicate] at hl
  have hlen : (b.take n).length = n := by rw [List.length_take]; omega
  have h1 := checkType_match ⟨e1.data ++ suf, e.data.length⟩ e.data
    (byte n :: b.take n ++ suf) codingTypeFloat32 (by simp [hdata]) rfl
  have h2 := checkLength_window ⟨e1.data ++ suf, (e.data.length : Int) + 1⟩
    (e.data ++ [codingTypeFloat32]) [byte n] (b.take n ++ suf) 1 (by simp [hdata]) (by simp)
    (by simp)
  have h3 := decodeUint64_window ⟨e1.data ++ suf, (e.data.length : Int) + 1⟩
    (e.data ++ [codingTypeFloat32]) [byte n] (b.take n ++ suf) 1 (by simp [hdata]) (by simp)
    (by simp)
  rw [readUvarint_single n (by omega)] at h3
  have h4 := decodeUint64_window ⟨e1.data ++ suf, (e.data.length : Int) + 1 + 1⟩
    (e.data ++ [codingTypeFloat32, byte n]) (b.take n) suf (int64 n) (by simp [hdata])
    (by simp; omega) (by rw [int64_of_lt n (by omega), hlen])
  have h5 := readUvarint_putUvarint _ x b n [] hp (by omega)
  rw [List.append_nil] at h5
  rw [h5] at h4
  unfold DecodeFloat32
  simp only [h1, h2, h3, h4, Bool.not_true, Bool.false_eq_true, if_false, Option.some.injEq,
    Prod.mk.injEq, Decoder.mk.injEq, true_and, and_true]
  rw [int64_of_lt n (by omega)]
  constructor
  · unfold uint32; omega
  · rw [hdata]; simp only [List.length_append, List.length_cons, hlen]; push_cast; omega

/-- What a completed `EncodeString` appended. -/
theorem EncodeString_data (e e1 : Encoder) (s : List Byte) (h : e.EncodeString s = some e1) :
    ∃ b n, PutVarint (List.replicate 8 0) (s.length : Int) = some (b, n) ∧
      e1.data = e.data ++ codingTypeString :: b ++ s := by
  unfold EncodeString at h
  simp only at h
  split at h
  · exact Option.noConfusion h
  · rename_i b n hp
    refine ⟨b, n, hp, ?_⟩
    simp only [Option.some.injEq] at h
    subst h
    simp [appendBytes, appendByte]

/-- Round trip of `EncodeString` / `DecodeString` at any position of a buffer. -/
theorem DecodeString_EncodeString (e e1 : Encoder) (s : List Byte) (hs : s.length < 2 ^ 63)
    (h : e.EncodeString s = some e1) (suf : List Byte) :
    (⟨e1.data ++ suf, e.data.length⟩ : Decoder).DecodeString =
      some ((s, none), ⟨e1.data ++ suf, e1.data.length⟩) := by
  obtain ⟨b, n, hp, hdata⟩ := EncodeString_data e e1 s h
  have hl := putVarint_length _ _ _ _ hp
  rw [List.length_replicate] at hl
  have h1 := checkType_match ⟨e1.data ++ suf, e.data.length⟩ e.data
    (b ++ s ++ suf) codingTypeString (by simp [hdata]) rfl
  have h2 := checkLength_window ⟨e1.data ++ suf, (e.data.length : Int) + 1⟩
    (e.data ++ [codingTypeString]) b (s ++ suf) 8 (by simp [hdata]) (by simp)
    (by omega)
  have h3 := decodeInt64_putVarint 8 8 rfl (s.length : Int) (by omega) (by omega) b n hp
    ⟨e1.data ++ suf, (e.data.length : Int) + 1⟩ (e.data ++ [codingTypeString]) (s ++ suf)
    (by simp [hdata]) (by simp)
  have h4 := checkLength_window ⟨e1.data ++ suf, (e.data.length : Int) + 1 + 8⟩
    (e.data ++ codingTypeString :: b) s suf (s.length : Int) (by simp [hdata])
    (by simp [hl.1]; omega) rfl
  have h5 := getBytes_window ⟨e1.data ++ suf, (e.data.length : Int) + 1 + 8⟩
    (e.data ++ codingTypeString :: b) s suf (s.length : Int) (by simp [hdata])
    (by simp [hl.1]; omega) rfl
  unfold DecodeString
  simp only [h1, h2, h3, h4, Bool.not_true, Bool.false_eq_true, if_false]
  by_cases hz : s = []
  · subst hz
    simp only [List.length_nil, Nat.cast_zero, if_true, Option.some.injEq, Prod.mk.injEq,
      Decoder.mk.injEq, true_and, and_true]
    rw [hdata]; simp only [List.length_append, List.length_cons, List.length_nil, hl.1]
    push_cast; omega
  · have hne : (s.length : Int) ≠ 0 := by
      have := List.length_pos.mpr hz
      omega
    simp only [hne, if_false, h5, Option.some.injEq, Prod.mk.injEq, Decoder.mk.injEq, true_and,
      and_true]
    rw [hdata]; simp only [List.length_append, List.length_cons, hl.1]
    push_cast; omega

/-- What a completed `EncodeData` appended. -/
theorem EncodeData_data (e e1 : Encoder) (s : List Byte) (h : e.EncodeData s = some e1) :
    ∃ b n, PutVarint (List.replicate 8 0) (s.length : Int) = some (b, n) ∧
      e1.data = e.data ++ codingTypeData :: b ++ s := by
  unfold EncodeData at h
  simp only at h
  split at h
  · exact Option.noConfusion h
  · rename_i b n hp
    refine ⟨b, n, hp, ?_⟩
    simp only [Option.some.injEq] at h
    subst h
    simp [appendBytes, appendByte]

/-- Round trip of `EncodeData` / `DecodeData` at any position of a buffer. -/
theorem DecodeData_EncodeData (e e1 : Encoder) (s : List Byte) (hs : s.length < 2 ^ 63)
    (h : e.EncodeData s = some e1) (suf : List Byte) :
    (⟨e1.data ++ suf, e.data.length⟩ : Decoder).DecodeData =
      some ((s, none), ⟨e1.data ++ suf, e1.data.length⟩) := by
  obtain ⟨b, n, hp, hdata⟩ := EncodeData_data e e1 s h
  have hl := putVarint_length _ _ _ _ hp
  rw [List.length_replicate] at hl
  have h1 := checkType_match ⟨e1.data ++ suf, e.data.length⟩ e.data
    (b ++ s ++ suf) codingTypeData (by simp [hdata]) rfl
  have h3 := decodeInt64_putVarint 8 8 rfl (s.length : Int) (by omega) (by omega) b n hp
    ⟨e1.data ++ suf, (e.data.length : Int) + 1⟩ (e.data ++ [codingTypeData]) (s ++ suf)
    (by simp [hdata]) (by simp)
  have h4 := checkLength_window ⟨e1.data ++ suf, (e.data.length : Int) + 1 + 8⟩
    (e.data ++ codingTypeData :: b) s suf (s.length : Int) (by simp [hdata])
    (by simp [hl.1]; omega) rfl
  have h5 := getBytes_window ⟨e1.data ++ suf, (e.data.length : Int) + 1 + 8⟩
    (e.data ++ codingTypeData :: b) s suf (s.length : Int) (by simp [hdata])
    (by simp [hl.1]; omega) rfl
  unfold DecodeData
  simp only [h1, h3, h4, Bool.not_true, Bool.false_eq_true, if_false]
  by_cases hz : s = []
  · subst hz
    simp only [List.length_nil, Nat.cast_zero, if_true, Option.some.injEq, Prod.mk.injEq,
      Decoder.mk.injEq, true_and, and_true]
    rw [hdata]; simp only [List.length_append, List.length_cons, List.length_nil, hl.1]
    push_cast; omega
  · have hne : (s.length : Int) ≠ 0 := by
      have := List.length_pos.mpr hz
      omega
    simp only [hne, if_false, h5, Option.some.injEq, Prod.mk.injEq, Decoder.mk.injEq, true_and,
      and_true]
    rw [hdata]; simp only [List.length_append, List.length_cons, hl.1]
    push_cast; omega

/-- What `EncodeBool` appended. -/
theorem EncodeBool_data (e : Encoder) (v : Bool) :
    (e.EncodeBool v).data = e.data ++ [codingTypeBool, if v then 1 else 0] := by
  cases v <;> simp [EncodeBool, appendByte]

/-- Round trip of `EncodeBool` / `DecodeBool` at any position of a buffer. -/
theorem DecodeBool_EncodeBool (e : Encoder) (v : Bool) (suf : List Byte) :
    (⟨(e.EncodeBool v).data ++ suf, e.data.length⟩ : Decoder).DecodeBool =
      some ((v, none), ⟨(e.EncodeBool v).data ++ suf, (e.EncodeBool v).data.length⟩) := by
  have hdata := EncodeBool_data e v
  have h1 := checkType_match ⟨(e.EncodeBool v).data ++ suf, e.data.length⟩ e.data
    ((if v then 1 else 0) :: suf) codingTypeBool (by simp [hdata]) rfl
  have h2 := checkLength_window ⟨(e.EncodeBool v).data ++ suf, (e.data.length : Int) + 1⟩
    (e.data ++ [codingTypeBool]) [if v then 1 else 0] suf 1 (by simp [hdata]) (by simp)
    (by simp)
  have h3 : (⟨(e.EncodeBool v).data ++ suf, (e.data.length : Int) + 1⟩ : Decoder).getByte =
      some ((if v then 1 else 0),
        ⟨(e.EncodeBool v).data ++ suf, (e.data.length : Int) + 1 + 1⟩) := by
    unfold getByte
    have : ((e.data.length : Int) + 1).toNat = (e.data ++ [codingTypeBool]).length := by
      rw [List.length_append, List.length_singleton]; omega
    simp only [this, incrementOffset]
    rw [if_pos (by omega), hdata]
    have h : e.data ++ [codingTypeBool, if v then 1 else 0] ++ suf =
        (e.data ++ [codingTypeBool]) ++ ((if v then 1 else 0) :: suf) := by simp
    rw [h, List.getElem?_append_right (le_refl _)]
    simp
  unfold DecodeBool
  simp only [h1, h2, h3, Bool.not_true, Bool.false_eq_true, if_false, Option.some.injEq,
    Prod.mk.injEq, Decoder.mk.injEq, true_and, and_true]
  constructor
  · cases v <;> decide
  · rw [hdata]; simp only [List.length_append, List.length_cons, List.length_nil]
    push_cast; omega

/-! ## The type switch -/

/-- A completed encode only appends to the buffer. -/
theorem encode_data_prefix (e e1 : Encoder) (v : Value) (h : e.Encode v = some e1) :
    ∃ p, e1.data = e.data ++ p := by
  cases v with
  | bool v =>
    simp only [Encode, Option.some.injEq] at h
    subst h
    exact ⟨_, EncodeBool_data e v⟩
  | int v =>
    obtain ⟨b, n, _, hd⟩ := EncodeInt_data e e1 v h
    exact ⟨_, hd⟩
  | int64 v =>
    obtain ⟨b, n, _, hd⟩ := EncodeInt64_data e e1 v h
    exact ⟨_, hd⟩
  | int32 v =>
    obtain ⟨b, n, _, hd⟩ := EncodeInt32_data e e1 v h
    exact ⟨_, hd⟩
  | int16 v =>
    obtain ⟨b, n, _, hd⟩ := EncodeInt16_data e e1 v h
    exact ⟨_, hd⟩
  | int8 v =>
    obtain ⟨b, n, _, hd⟩ := EncodeInt8_data e e1 v h
    exact ⟨_, hd⟩
  | uint v =>
    obtain ⟨b, n, _, hd⟩ := EncodeUint_data e e1 v h
    exact ⟨_, hd⟩
  | uint64 v =>
    obtain ⟨b, n, _, hd⟩ := EncodeUint64_data e e1 v h
    exact ⟨_, hd⟩
  | uint32 v =>
    obtain ⟨b, n, _, hd⟩ := EncodeUint32_data e e1 v h
    exact ⟨_, hd⟩
  | uint16 v =>
    obtain ⟨b, n, _, hd⟩ := EncodeUint16_data e e1 v h
    exact ⟨_, hd⟩
  | uint8 v =>
    obtain ⟨b, n, _, hd⟩ := EncodeUint8_data e e1 v h
    exact ⟨_, hd⟩
  | float64 v =>
    obtain ⟨b, n, _, hd⟩ := EncodeFloat64_data e e1 v h
    exact ⟨_, hd⟩
  | float32 v =>
    obtain ⟨b, n, _, hd⟩ := EncodeFloat32_data e e1 v h
    exact ⟨_, hd⟩
  | string v =>
    obtain ⟨b, n, _, hd⟩ := EncodeString_data e e1 v h
    exact ⟨_, by rw [hd, List.append_assoc]⟩
  | data v =>
    obtain ⟨b, n, _, hd⟩ := EncodeData_data e e1 v h
    exact ⟨_, by rw [hd, List.append_assoc]⟩

/-- Round trip of one value through the type switch, at any position of a
buffer. -/
theorem decode_encode (e e1 : Encoder) (v : Value) (hwt : v.WellTyped)
    (h : e.Encode v = some e1) (suf : List Byte) :
    (⟨e1.data ++ suf, e.data.length⟩ : Decoder).Decode v.kind =
      some ((v, none), ⟨e1.data ++ suf, e1.data.length⟩) := by
  cases v with
  | bool v =>
    simp only [Encode, Option.some.injEq] at h
    subst h
    simp only [Value.kind, Decode, DecodeBool_EncodeBool, asValue]
  | int v =>
    simp only [Value.WellTyped] at hwt
    simp only [Value.kind, Decode, DecodeInt_EncodeInt e e1 v hwt.1 hwt.2 h suf, asValue]
  | int64 v =>
    simp only [Value.WellTyped] at hwt
    simp only [Value.kind, Decode, DecodeInt64_EncodeInt64 e e1 v hwt.1 hwt.2 h suf, asValue]
  | int32 v =>
    simp only [Value.WellTyped] at hwt
    simp only [Value.kind, Decode, DecodeInt32_EncodeInt32 e e1 v hwt.1 hwt.2 h suf, asValue]
  | int16 v =>
    simp only [Value.WellTyped] at hwt
    simp only [Value.kind, Decode, DecodeInt16_EncodeInt16 e e1 v hwt.1 hwt.2 h suf, asValue]
  | int8 v =>
    simp only [Value.WellTyped] at hwt
    simp only [Value.kind, Decode, DecodeInt8_EncodeInt8 e e1 v hwt.1 hwt.2 h suf, asValue]
  | uint v =>
    simp only [Value.WellTyped] at hwt
    simp only [Value.kind, Decode, DecodeUint_EncodeUint e e1 v hwt h suf, asValue]
  | uint64 v =>
    simp only [Value.WellTyped] at hwt
    simp only [Value.kind, Decode, DecodeUint64_EncodeUint64 e e1 v hwt h suf, asValue]
  | uint32 v =>
    simp only [Value.WellTyped] at hwt
    simp only [Value.kind, Decode, DecodeUint32_EncodeUint32 e e1 v hwt h suf, asValue]
  | uint16 v =>
    simp only [Value.WellTyped] at hwt
    simp only [Value.kind, Decode, DecodeUint16_EncodeUint16 e e1 v hwt h suf, asValue]
  | uint8 v =>
    simp only [Value.WellTyped] at hwt
    simp only [Value.kind, Decode, DecodeUint8_EncodeUint8 e e1 v hwt h suf, asValue]
  | float64 v =>
    simp only [Value.WellTyped] at hwt
    simp only [Value.kind, Decode, DecodeFloat64_EncodeFloat64 e e1 v hwt h suf, asValue]
  | float32 v =>
    simp only [Value.WellTyped] at hwt
    simp only [Value.kind, Decode, DecodeFloat32_EncodeFloat32 e e1 v hwt h suf, asValue]
  | string v =>
    simp only [Value.WellTyped] at hwt
    simp only [Value.kind, Decode, DecodeString_EncodeString e e1 v hwt h suf, asValue]
  | data v =>
    simp only [Value.WellTyped] at hwt
    simp only [Value.kind, Decode, DecodeData_EncodeData e e1 v hwt h suf, asValue]

/-- A completed sequence of encodes only appends to the buffer. -/
theorem encodeAll_data_prefix (vs : List Value) :
    ∀ (e e1 : Encoder), e.EncodeAll vs = some e1 → ∃ p, e1.data = e.data ++ p := by
  induction vs with
  | nil =>
    intro e e1 h
    simp only [EncodeAll, Option.some.injEq] at h
    subst h
    exact ⟨[], by simp⟩
  | cons v vs ih =>
    intro e e1 h
    unfold EncodeAll at h
    split at h
    · exact Option.noConfusion h
    · rename_i e2 h2
      obtain ⟨p, hp⟩ := encode_data_prefix e e2 v h2
      obtain ⟨q, hq⟩ := ih e2 e1 h
      exact ⟨p ++ q, by rw [hq, hp, List.append_assoc]⟩

/-- Decoding a completed sequence of encodes in the same order, from the
position where the encodes started. -/
theorem decodeAll_encodeAll (vs : List Value) :
    ∀ (e e1 : Encoder), (∀ v ∈ vs, v.WellTyped) → e.EncodeAll vs = some e1 →
      ∀ suf : List Byte,
        (⟨e1.data ++ suf, e.data.length⟩ : Decoder).DecodeAll (vs.map Value.kind) =
          some (vs.map (fun v => (v, none)), ⟨e1.data ++ suf, e1.data.length⟩) := by
  induction vs with
  | nil =>
    intro e e1 _ h suf
    simp only [EncodeAll, Option.some.injEq] at h
    subst h
    simp [DecodeAll]
  | cons v vs ih =>
    intro e e1 hwt h suf
    unfold EncodeAll at h
    split at h
    · exact Option.noConfusion h
    · rename_i e2 h2
      obtain ⟨q, hq⟩ := encodeAll_data_prefix vs e2 e1 h
      have hstep := decode_encode e e2 v (hwt v (List.mem_cons_self _ _)) h2 (q ++ suf)
      have hrest := ih e2 e1 (fun u hu => hwt u (List.mem_cons_of_mem _ hu)) h suf
      have hdata : e1.data ++ suf = e2.data ++ (q ++ suf) := by rw [hq, List.append_assoc]
      simp only [List.map_cons, DecodeAll]
      rw [hdata, hstep]
      simp only
      rw [← hdata, hrest]

/-! ## The checksum trailer -/

/-- The method `crcBytes` always completes: the checksum is a `uint32`, its
varint takes at most 5 of the 16 bytes. -/
theorem crcBytes_eq (e : Encoder) :
    ∃ out n, PutUvarint (List.replicate 16 0) (ChecksumIEEE e.data) = some (out, n) ∧
      out.length = 16 ∧ 1 ≤ n ∧ n ≤ 16 ∧ e.crcBytes = some (out.take n ++ [byte n]) := by
  have hlt := checksumIEEE_lt e.data
  obtain ⟨out, n, hp⟩ := putUvarint_isSome (List.replicate 16 0) (ChecksumIEEE e.data)
    (by rw [List.length_replicate]
        exact lt_of_lt_of_le hlt (Nat.pow_le_pow_right (by decide) (by decide)))
    (by simp)
  have hl := putUvarint_length _ _ _ _ hp
  rw [List.length_replicate] at hl
  refine ⟨out, n, hp, hl.1, hl.2.1, hl.2.2, ?_⟩
  simp only [crcBytes, hp]

/-- The method `Data` always completes. -/
theorem Data_eq (e : Encoder) :
    ∃ out n, PutUvarint (List.replicate 16 0) (ChecksumIEEE e.data) = some (out, n) ∧
      out.length = 16 ∧ 1 ≤ n ∧ n ≤ 16 ∧ e.Data = some (e.data ++ (out.take n ++ [byte n])) := by
  obtain ⟨out, n, hp, h1, h2, h3, hc⟩ := crcBytes_eq e
  exact ⟨out, n, hp, h1, h2, h3, by simp only [Data, hc]⟩

/-- The method `Validate` on a buffer split as prefix, `l` bytes, and the byte
`l`. -/
theorem Validate_split (P V : List Byte) (off : Int) (hV : V.length < 256) :
    (⟨P ++ V ++ [byte V.length], off⟩ : Decoder).Validate =
      match ReadUvarint V with
      | (_, some err) => some (some err)
      | (i, none) =>
        if uint32 i ≠ ChecksumIEEE P then some (some Err.ErrCRC) else some none := by
  have hv : (byte V.length).val = V.length := byte_val_of_lt _ hV
  unfold Validate
  simp only [List.length_append, List.length_singleton]
  rw [if_neg (by omega)]
  have hlast : (P ++ V ++ [byte V.length])[P.length + V.length + 1 - 1]? =
      some (byte V.length) := by
    rw [List.getElem?_append_right (by simp)]
    simp
  rw [hlast]
  simp only [hv]
  rw [if_neg (by omega)]
  have hidx : P.length + V.length + 1 - V.length - 1 = P.length := by omega
  rw [hidx]
  have hdrop : List.drop P.length (P ++ V ++ [byte V.length]) = V ++ [byte V.length] := by
    rw [List.append_assoc, List.drop_left]
  have htake : List.take P.length (P ++ V ++ [byte V.length]) = P := by
    rw [List.append_assoc, List.take_left]
  rw [hdrop, htake, List.take_left]

/-- A non-empty buffer whose last byte `l` leaves room for `l` bytes before it
splits as prefix, `l` bytes, and the byte `l`. -/
theorem trailer_split (D : List Byte) (lb : Byte) (hlast : D[D.length - 1]? = some lb)
    (hroom : lb.val + 1 ≤ D.length) :
    ∃ P V, D = P ++ V ++ [byte V.length] ∧ V.length = lb.val ∧
      P = D.take (D.length - lb.val - 1) := by
  refine ⟨D.take (D.length - lb.val - 1), (D.drop (D.length - lb.val - 1)).take lb.val, ?_, ?_,
    rfl⟩
  · have hlen : ((D.drop (D.length - lb.val - 1)).take lb.val).length = lb.val := by
      rw [List.length_take, List.length_drop]; omega
    rw [hlen]
    have hb : byte lb.val = lb := by
      apply Fin.ext
      exact byte_val_of_lt _ lb.isLt
    rw [hb]
    have h1 : D.drop (D.length - lb.val - 1) =
        (D.drop (D.length - lb.val - 1)).take lb.val ++ [lb] := by
      apply List.ext_getElem?
      intro i
      by_cases hi : i < lb.val
      · rw [List.getElem?_append_left (by rw [hlen]; exact hi), List.getElem?_take_of_lt hi]
      · rw [List.getElem?_append_right (by rw [hlen]; omega), hlen, List.getElem?_drop]
        by_cases hi2 : i = lb.val
        · subst hi2
          rw [show D.length - lb.val - 1 + lb.val = D.length - 1 by omega, hlast]
          simp
        · rw [List.getElem?_eq_none (by omega)]
          rw [List.getElem?_eq_none (by simp; omega)]
    conv_lhs => rw [← List.take_append_drop (D.length - lb.val - 1) D]
    rw [List.append_assoc, ← h1]
  · rw [List.length_take, List.length_drop]; omega

/-! ## The claims -/

/-- C1 (the code departs from the claim).  The claim: every value of every
fixed-width integer kind, the minimum and maximum of the width included, survives
`Encode<Kind>` followed by `Decode<Kind>`.  On the code, `Encode<Kind>` on a
fresh encoder panics at the minimum and the maximum of every signed kind and at
the maximum of every unsigned kind (the varint does not fit the window of
1, 2, 4 or 8 bytes), and already at `int8` 64 and `uint8` 128, so nothing is
encoded and there is nothing to decode. -/
theorem encode_width_extremes_panic :
    NewEncoder.EncodeInt8 (-128) = none ∧ NewEncoder.EncodeInt8 127 = none ∧
    NewEncoder.EncodeInt16 (-32768) = none ∧ NewEncoder.EncodeInt16 32767 = none ∧
    NewEncoder.EncodeInt32 (-2147483648) = none ∧ NewEncoder.EncodeInt32 2147483647 = none ∧
    NewEncoder.EncodeInt64 (-9223372036854775808) = none ∧
    NewEncoder.EncodeInt64 9223372036854775807 = none ∧
    NewEncoder.EncodeInt (-9223372036854775808) = none ∧
    NewEncoder.EncodeInt 9223372036854775807 = none ∧
    NewEncoder.EncodeUint8 255 = none ∧ NewEncoder.EncodeUint16 65535 = none ∧
    NewEncoder.EncodeUint32 4294967295 = none ∧
    NewEncoder.EncodeUint64 18446744073709551615 = none ∧
    NewEncoder.EncodeUint 18446744073709551615 = none ∧
    NewEncoder.EncodeInt8 64 = none ∧ NewEncoder.EncodeUint8 128 = none := by
  decide

/-- C9 (the code departs from the claim).  The claim: `Encode<Kind>` never
fails or panics, for every encoder state and every value of the kind.  On the
code, from every encoder state, `EncodeInt8(100)` and
`EncodeUint64(1<<56)` panic with an index out of range inside the varint
writer. -/
theorem encode_panics_in_every_state (e : Encoder) :
    e.EncodeInt8 100 = none ∧ e.EncodeUint64 (2 ^ 56) = none := by
  have h1 : PutVarint (List.replicate 1 0) 100 = none := by decide
  have h2 : PutUvarint (List.replicate 8 0) (2 ^ 56) = none := by decide
  exact ⟨by simp only [EncodeInt8, h1], by simp only [EncodeUint64, h2]⟩

/-- C6: for every decoder state with `0 <= offset < len(data)` and every kind
whose tag byte differs from `data[offset]`, `Decode<Kind>` returns `ErrType`
together with the zero value of the kind, and the decoder (data and offset) is
exactly as before the call. -/
theorem decode_type_mismatch (d : Decoder) (k : Kind) (h0 : 0 ≤ d.offset)
    (h1 : d.offset < d.data.length) (hne : d.data[d.offset.toNat]? ≠ some k.tag) :
    d.Decode k = some ((k.zero, some Err.ErrType), d) := by
  have hlt : d.offset.toNat < d.data.length := by omega
  obtain ⟨b, hb⟩ : ∃ b, d.data[d.offset.toNat]? = some b :=
    ⟨_, List.getElem?_eq_getElem hlt⟩
  have hbt : b ≠ k.tag := by
    intro hc
    exact hne (by rw [hb, hc])
  cases k <;>
    simp only [Kind.tag] at hbt <;>
    simp only [Decode, DecodeBool, DecodeInt, DecodeInt64, DecodeInt32, DecodeInt16, DecodeInt8,
      DecodeUint, DecodeUint64, DecodeUint32, DecodeUint16, DecodeUint8, DecodeFloat64,
      DecodeFloat32, DecodeString, DecodeData, checkType_mismatch d b _ h0 hb hbt, asValue,
      Kind.zero]

/-- The type mismatch at the decoder over `[0x00, 0x01]`, offset 0, asked for a
string. -/
theorem decode_type_mismatch_witness :
    (0 : Int) ≤ (Decoder.mk [0, 1] 0).offset ∧
    (Decoder.mk [0, 1] 0).offset < (Decoder.mk [0, 1] 0).data.length ∧
    (Decoder.mk [0, 1] 0).data[(Decoder.mk [0, 1] 0).offset.toNat]? ≠ some Kind.string.tag ∧
    (Decoder.mk [0, 1] 0).Decode Kind.string =
      some ((Kind.string.zero, some Err.ErrType), Decoder.mk [0, 1] 0) :=
  ⟨by decide, by decide, by decide,
    decode_type_mismatch (Decoder.mk [0, 1] 0) Kind.string (by decide) (by decide) (by decide)⟩

/-- C7: for every bool `b`, after `EncodeBool(b)` on a fresh encoder, a decoder
over the encoded bytes (the encoder's buffer, as in the test, and also `Data()`)
fails `DecodeString` with `ErrType`, and a subsequent `DecodeBool` on the same
decoder succeeds and returns `b`. -/
theorem type_mismatch_then_bool (b : Bool) :
    (∃ d1 d2, (NewDecoder (NewEncoder.EncodeBool b).data).DecodeString =
        some (([], some Err.ErrType), d1) ∧ d1.DecodeBool = some ((b, none), d2)) ∧
    (∃ bytes d1 d2, (NewEncoder.EncodeBool b).Data = some bytes ∧
      (NewDecoder bytes).DecodeString = some (([], some Err.ErrType), d1) ∧
      d1.DecodeBool = some ((b, none), d2)) := by
  constructor
  · refine ⟨NewDecoder (NewEncoder.EncodeBool b).data, ⟨(NewEncoder.EncodeBool b).data, 2⟩, ?_, ?_⟩
    · cases b <;> decide
    · cases b <;> decide
  · obtain ⟨out, n, _, _, _, _, hD⟩ := Data_eq (NewEncoder.EncodeBool b)
    refine ⟨(NewEncoder.EncodeBool b).data ++ (List.take n out ++ [byte n]),
      NewDecoder ((NewEncoder.EncodeBool b).data ++ (List.take n out ++ [byte n])),
      ⟨(NewEncoder.EncodeBool b).data ++ (List.take n out ++ [byte n]),
        ((NewEncoder.EncodeBool b).data.length : Int)⟩, hD, ?_, ?_⟩
    · have hct := checkType_mismatch (NewDecoder ((NewEncoder.EncodeBool b).data ++
        (List.take n out ++ [byte n]))) codingTypeBool codingTypeString (by simp [NewDecoder])
        (by rw [EncodeBool_data]; simp [NewDecoder, NewEncoder]) (by decide)
      simp only [DecodeString, hct]
    · have := DecodeBool_EncodeBool NewEncoder b (List.take n out ++ [byte n])
      simpa [NewDecoder, NewEncoder] using this

/-- C5: for every encoder state, `Data()` completes and `Validate()` on a
decoder over the bytes it returns gives no error. -/
theorem validate_data (e : Encoder) :
    ∃ bytes, e.Data = some bytes ∧ (NewDecoder bytes).Validate = some none := by
  obtain ⟨out, n, hp, hlen, h1, h16, hD⟩ := Data_eq e
  refine ⟨_, hD, ?_⟩
  have hV : (out.take n).length = n := by rw [List.length_take]; omega
  have hrd := readUvarint_putUvarint _ _ out n [] hp
    (lt_of_lt_of_le (checksumIEEE_lt e.data) (Nat.pow_le_pow_right (by decide) (by decide)))
  rw [List.append_nil] at hrd
  have hsplit := Validate_split e.data (out.take n) 0 (by omega)
  rw [hV, hrd] at hsplit
  simp only [uint32, Nat.mod_eq_of_lt (checksumIEEE_lt e.data), ne_eq, not_true_eq_false,
    if_false] at hsplit
  rw [← List.append_assoc]
  exact hsplit

/-- The varint reader fails only with `io.EOF`, `io.ErrUnexpectedEOF` or its
overflow error. -/
theorem readUvarint_loop_err (bs : List Byte) :
    ∀ (x s i v : Nat) (err : Err), ReadUvarint.loop bs x s i = (v, some err) →
      err = Err.EOF ∨ err = Err.ErrUnexpectedEOF ∨ err = Err.errOverflow := by
  induction bs with
  | nil =>
    intro x s i v err h
    unfold ReadUvarint.loop at h
    split at h
    · simp only [Prod.mk.injEq, Option.some.injEq] at h
      obtain ⟨_, rfl⟩ := h
      split <;> simp
    · simp only [Prod.mk.injEq, Option.some.injEq] at h
      obtain ⟨_, rfl⟩ := h
      simp
  | cons b rest ih =>
    intro x s i v err h
    unfold ReadUvarint.loop at h
    split at h
    · split at h
      · split at h
        · simp only [Prod.mk.injEq, Option.some.injEq] at h
          obtain ⟨_, rfl⟩ := h
          simp
        · simp only [Prod.mk.injEq] at h
          exact Option.noConfusion h.2
      · exact ih _ _ _ _ _ h
    · simp only [Prod.mk.injEq, Option.some.injEq] at h
      obtain ⟨_, rfl⟩ := h
      simp

/-- The three ways `Validate` can go on a buffer: it is empty, its slice bounds
are out of range, or it splits as prefix, `l` bytes, and the byte `l`. -/
theorem Validate_cases (D : List Byte) (off : Int) :
    (D = [] ∧ (⟨D, off⟩ : Decoder).Validate = some (some Err.ErrByteLength)) ∨
    (D ≠ [] ∧ (⟨D, off⟩ : Decoder).Validate = none) ∨
    (∃ P V, D = P ++ V ++ [byte V.length] ∧ V.length < 256) := by
  by_cases hD : D = []
  · left
    subst hD
    exact ⟨rfl, by simp [Validate]⟩
  · right
    have hpos : 0 < D.length := List.length_pos.mpr hD
    obtain ⟨lb, hlb⟩ : ∃ lb, D[D.length - 1]? = some lb :=
      ⟨_, List.getElem?_eq_getElem (by omega)⟩
    by_cases hroom : lb.val + 1 ≤ D.length
    · right
      obtain ⟨P, V, hsplit, hV, _⟩ := trailer_split D lb hlb hroom
      exact ⟨P, V, hsplit, by rw [hV]; exact lb.isLt⟩
    · left
      refine ⟨hD, ?_⟩
      unfold Validate
      simp only [hlb]
      rw [if_neg (by omega), if_pos (by omega)]

/-- C10 (as amended).  `Validate()` over the encoder's buffer without the
trailer returns `nil` exactly when that buffer itself ends in a trailer matching
its own prefix; it returns `ErrByteLength` when the buffer is empty; and every
error it returns is `ErrByteLength`, `ErrCRC` or an error of the varint reader
(`io.EOF`, `io.ErrUnexpectedEOF`, overflow). -/
theorem validate_internal_buffer (e : Encoder) :
    ((NewDecoder e.data).Validate = some none ↔ EndsInTrailer e.data) ∧
    (e.data = [] → (NewDecoder e.data).Validate = some (some Err.ErrByteLength)) ∧
    (∀ err, (NewDecoder e.data).Validate = some (some err) →
      err = Err.ErrByteLength ∨ err = Err.ErrCRC ∨ err = Err.EOF ∨
        err = Err.ErrUnexpectedEOF ∨ err = Err.errOverflow) := by
  have hto : ∀ P V : List Byte, V.length < 256 →
      ∀ i, ReadUvarint V = (i, none) → uint32 i = ChecksumIEEE P →
        (⟨P ++ V ++ [byte V.length], 0⟩ : Decoder).Validate = some none := by
    intro P V hV i hr hc
    rw [Validate_split P V 0 hV, hr]
    simp [hc]
  unfold NewDecoder
  rcases Validate_cases e.data 0 with ⟨hnil, hv⟩ | ⟨hne, hv⟩ | ⟨P, V, hsplit, hV⟩
  · refine ⟨?_, ?_, ?_⟩
    · rw [hv]
      constructor
      · intro h; simp at h
      · rintro ⟨P, V, hD, _⟩
        rw [hnil] at hD
        simp at hD
    · intro _; exact hv
    · intro err h
      rw [hv] at h
      simp only [Option.some.injEq] at h
      exact Or.inl h.symm
  · refine ⟨?_, ?_, ?_⟩
    · rw [hv]
      constructor
      · intro h; simp at h
      · rintro ⟨P, V, hD, hV, i, hr, hc⟩
        have := hto P V hV i hr hc
        rw [← hD, hv] at this
        simp at this
    · intro h; exact absurd h hne
    · intro err h
      rw [hv] at h
      simp at h
  · have hvs := Validate_split P V 0 hV
    rw [← hsplit] at hvs
    have hne : e.data ≠ [] := by rw [hsplit]; simp
    rw [hvs]
    rcases hr : ReadUvarint V with ⟨i, _ | rerr⟩
    · simp only
      refine ⟨?_, ?_, ?_⟩
      · constructor
        · intro h
          refine ⟨P, V, hsplit, hV, i, hr, ?_⟩
          by_contra hc
          simp [hc] at h
        · rintro ⟨P2, V2, hD, hV2, i2, hr2, hc2⟩
          have := hto P2 V2 hV2 i2 hr2 hc2
          rw [← hD, hvs, hr] at this
          exact this
      · intro h; exact absurd h hne
      · intro err h
        split at h
        · simp only [Option.some.injEq] at h
          exact Or.inr (Or.inl h.symm)
        · simp at h
    · simp only
      have herr := readUvarint_loop_err V 0 0 0 i rerr hr
      refine ⟨?_, ?_, ?_⟩
      · constructor
        · intro h; simp at h
        · rintro ⟨P2, V2, hD, hV2, i2, hr2, hc2⟩
          have := hto P2 V2 hV2 i2 hr2 hc2
          rw [← hD, hvs, hr] at this
          simp at this
      · intro h; exact absurd h hne
      · intro err h
        simp only [Option.some.injEq] at h
        subst h
        rcases herr with h1 | h1 | h1
        · exact Or.inr (Or.inr (Or.inl h1))
        · exact Or.inr (Or.inr (Or.inr (Or.inl h1)))
        · exact Or.inr (Or.inr (Or.inr (Or.inr h1)))

/-- C10 (the claim fails as stated).  After `EncodeBool(true)` the buffer
without trailer is `[0x00, 0x01]` and `Validate()` over it returns `nil`: it
does not fail.  After `EncodeString("")`, the input of the test, `Validate()`
fails with `io.EOF`, which is neither `ErrCRC` nor `ErrByteLength`. -/
theorem validate_internal_buffer_counterexample :
    (NewDecoder (NewEncoder.EncodeBool true).data).Validate = some none ∧
    (NewEncoder.EncodeString []).map (fun e => (NewDecoder e.data).Validate) =
      some (some (some Err.EOF)) := by
  decide

/-- The buffer `[0x00, 0x01]` validates and ends in a trailer; the empty buffer
gives `ErrByteLength`. -/
theorem validate_internal_buffer_witness :
    (NewDecoder (Encoder.mk [0, 1]).data).Validate = some none ∧
    EndsInTrailer (Encoder.mk [0, 1]).data ∧
    (NewDecoder (Encoder.mk []).data).Validate = some (some Err.ErrByteLength) :=
  ⟨by decide, (validate_internal_buffer (Encoder.mk [0, 1])).1.mp (by decide),
    (validate_internal_buffer (Encoder.mk [])).2.1 rfl⟩

/-! ### Encodes that complete -/

theorem putVarint_isSome (w : Nat) (x : Int) (hw : 1 ≤ w) (hw8 : w ≤ 9)
    (hlo : -2 ^ (7 * w - 1) ≤ x) (hhi : x < 2 ^ (7 * w - 1)) :
    ∃ out n, PutVarint (List.replicate w 0) x = some (out, n) := by
  have h63 : (2:Int) ^ (7 * w - 1) ≤ 2 ^ 63 :=
    pow_le_pow_right₀ (by norm_num) (by omega)
  rw [putVarint_eq _ x (by omega) (by omega)]
  apply putUvarint_isSome
  · rw [List.length_replicate]
    have hp : (2:Int) ^ (7 * w) = 2 * 2 ^ (7 * w - 1) := by
      rw [← pow_succ']; congr 1; omega
    have hcast : ((2 ^ (7 * w) : Nat) : Int) = 2 ^ (7 * w) := by push_cast; rfl
    have hpos : (0:Int) < 2 ^ (7 * w - 1) := by positivity
    split
    · have : ((-2 * x - 1).toNat : Int) < ((2 ^ (7 * w) : Nat) : Int) := by
        rw [hcast, hp]; omega
      exact_mod_cast this
    · have : ((2 * x).toNat : Int) < ((2 ^ (7 * w) : Nat) : Int) := by
        rw [hcast, hp]; omega
      exact_mod_cast this
  · rw [List.length_replicate]; exact hw

theorem EncodeString_isSome (e : Encoder) (s : List Byte) (hs : s.length < 2 ^ 55) :
    ∃ e1, e.EncodeString s = some e1 := by
  obtain ⟨out, n, hp⟩ := putVarint_isSome 8 (s.length : Int) (by omega) (by omega) (by omega)
    (by norm_num; omega)
  simp only [EncodeString, hp]
  exact ⟨_, rfl⟩

theorem EncodeData_isSome (e : Encoder) (s : List Byte) (hs : s.length < 2 ^ 55) :
    ∃ e1, e.EncodeData s = some e1 := by
  obtain ⟨out, n, hp⟩ := putVarint_isSome 8 (s.length : Int) (by omega) (by omega) (by omega)
    (by norm_num; omega)
  simp only [EncodeData, hp]
  exact ⟨_, rfl⟩

theorem EncodeFloat64_isSome (e : Encoder) (x : Nat) (hx : x < 2 ^ 64) :
    ∃ e1, e.EncodeFloat64 x = some e1 := by
  obtain ⟨out, n, hp⟩ := putUvarint_isSome (List.replicate 16 0) x
    (by rw [List.length_replicate]
        exact lt_of_lt_of_le hx (Nat.pow_le_pow_right (by decide) (by decide)))
    (by simp)
  simp only [EncodeFloat64, hp]
  exact ⟨_, rfl⟩

theorem EncodeFloat32_isSome (e : Encoder) (x : Nat) (hx : x < 2 ^ 64) :
    ∃ e1, e.EncodeFloat32 x = some e1 := by
  obtain ⟨out, n, hp⟩ := putUvarint_isSome (List.replicate 16 0) x
    (by rw [List.length_replicate]
        exact lt_of_lt_of_le hx (Nat.pow_le_pow_right (by decide) (by decide)))
    (by simp)
  simp only [EncodeFloat32, hp]
  exact ⟨_, rfl⟩

/-- C2: for every string `s` and byte slice `b` shorter than `2^55` bytes,
`EncodeString(s)` on a fresh encoder completes and `DecodeString` on a fresh
decoder over `Data()` returns exactly `s` with no error, and likewise
`EncodeData(b)` / `DecodeData` return `b`; the empty string and the empty (nil)
slice are the instances `s = []`, `b = []`.  The cursor stops at the first byte
of the trailer. -/
theorem encode_decode_string_data (s b : List Byte) (hs : s.length < 2 ^ 55)
    (hb : b.length < 2 ^ 55) :
    (∃ e bytes, NewEncoder.EncodeString s = some e ∧ e.Data = some bytes ∧
      (NewDecoder bytes).DecodeString = some ((s, none), ⟨bytes, e.data.length⟩)) ∧
    (∃ e bytes, NewEncoder.EncodeData b = some e ∧ e.Data = some bytes ∧
      (NewDecoder bytes).DecodeData = some ((b, none), ⟨bytes, e.data.length⟩)) := by
  constructor
  · obtain ⟨e, he⟩ := EncodeString_isSome NewEncoder s hs
    obtain ⟨out, n, _, _, _, _, hD⟩ := Data_eq e
    refine ⟨e, _, he, hD, ?_⟩
    have := DecodeString_EncodeString NewEncoder e s (by omega) he (out.take n ++ [byte n])
    simpa [NewDecoder, NewEncoder] using this
  · obtain ⟨e, he⟩ := EncodeData_isSome NewEncoder b hb
    obtain ⟨out, n, _, _, _, _, hD⟩ := Data_eq e
    refine ⟨e, _, he, hD, ?_⟩
    have := DecodeData_EncodeData NewEncoder e b (by omega) he (out.take n ++ [byte n])
    simpa [NewDecoder, NewEncoder] using this

/-- The round trip of the string `"Hi"` and of the nil byte slice. -/
theorem encode_decode_string_data_witness :
    ([72, 105] : List Byte).length < 2 ^ 55 ∧ ([] : List Byte).length < 2 ^ 55 ∧
    ((∃ e bytes, NewEncoder.EncodeString [72, 105] = some e ∧ e.Data = some bytes ∧
      (NewDecoder bytes).DecodeString = some (([72, 105], none), ⟨bytes, e.data.length⟩)) ∧
    (∃ e bytes, NewEncoder.EncodeData [] = some e ∧ e.Data = some bytes ∧
      (NewDecoder bytes).DecodeData = some (([], none), ⟨bytes, e.data.length⟩))) :=
  ⟨by decide, by decide, encode_decode_string_data [72, 105] [] (by decide) (by decide)⟩

/-- C3: for every `float64` bit pattern `f` and every `float32` bit pattern `g`
(zeros, negative values, infinities and NaNs included), `EncodeFloat64(f)` on a
fresh encoder completes and `DecodeFloat64` on a fresh decoder over `Data()`
returns exactly the bit pattern `f` with no error, and likewise
`EncodeFloat32(g)` / `DecodeFloat32` return `g`. -/
theorem encode_decode_float (f g : Nat) (hf : f < 2 ^ 64) (hg : g < 2 ^ 32) :
    (∃ e bytes, NewEncoder.EncodeFloat64 f = some e ∧ e.Data = some bytes ∧
      (NewDecoder bytes).DecodeFloat64 = some ((f, none), ⟨bytes, e.data.length⟩)) ∧
    (∃ e bytes, NewEncoder.EncodeFloat32 g = some e ∧ e.Data = some bytes ∧
      (NewDecoder bytes).DecodeFloat32 = some ((g, none), ⟨bytes, e.data.length⟩)) := by
  constructor
  · obtain ⟨e, he⟩ := EncodeFloat64_isSome NewEncoder f hf
    obtain ⟨out, n, _, _, _, _, hD⟩ := Data_eq e
    refine ⟨e, _, he, hD, ?_⟩
    have := DecodeFloat64_EncodeFloat64 NewEncoder e f hf he (out.take n ++ [byte n])
    simpa [NewDecoder, NewEncoder] using this
  · obtain ⟨e, he⟩ := EncodeFloat32_isSome NewEncoder g (by omega)
    obtain ⟨out, n, _, _, _, _, hD⟩ := Data_eq e
    refine ⟨e, _, he, hD, ?_⟩
    have := DecodeFloat32_EncodeFloat32 NewEncoder e g hg he (out.take n ++ [byte n])
    simpa [NewDecoder, NewEncoder] using this

/-- The round trip of a `float64` NaN with a payload and of the `float32`
nearest to minus pi. -/
theorem encode_decode_float_witness :
    (0x7ff8000000000001 : Nat) < 2 ^ 64 ∧ (0xc0490fdb : Nat) < 2 ^ 32 ∧
    ((∃ e bytes, NewEncoder.EncodeFloat64 0x7ff8000000000001 = some e ∧ e.Data = some bytes ∧
      (NewDecoder bytes).DecodeFloat64 =
        some ((0x7ff8000000000001, none), ⟨bytes, e.data.length⟩)) ∧
    (∃ e bytes, NewEncoder.EncodeFloat32 0xc0490fdb = some e ∧ e.Data = some bytes ∧
      (NewDecoder bytes).DecodeFloat32 = some ((0xc0490fdb, none), ⟨bytes, e.data.length⟩))) :=
  ⟨by decide, by decide,
    encode_decode_float 0x7ff8000000000001 0xc0490fdb (by decide) (by decide)⟩

/-- C4: for every finite sequence of values of supported kinds that has been
encoded in order on one fresh encoder, a decoder over `Data()` that calls the
matching `Decode<Kind>` operations in the same order, each starting where the
previous one stopped, returns exactly the original values in that order with no
error, and the cursor ends at the first byte of the checksum trailer. -/
theorem decode_sequence (vs : List Value) (e : Encoder) (hwt : ∀ v ∈ vs, v.WellTyped)
    (h : NewEncoder.EncodeAll vs = some e) :
    ∃ c, e.crcBytes = some c ∧ e.Data = some (e.data ++ c) ∧
      (NewDecoder (e.data ++ c)).DecodeAll (vs.map Value.kind) =
        some (vs.map (fun v => (v, none)), ⟨e.data ++ c, e.data.length⟩) := by
  obtain ⟨out, n, _, _, _, _, hc⟩ := crcBytes_eq e
  refine ⟨_, hc, by simp only [Data, hc], ?_⟩
  have := decodeAll_encodeAll vs NewEncoder e hwt h (out.take n ++ [byte n])
  simpa [NewDecoder, NewEncoder] using this

/-- The sequence string `"pi"`, `float64` pi, bool `true`, `int8` -1. -/
theorem decode_sequence_witness :
    (∀ v ∈ [Value.string [112, 105], Value.float64 0x400921fb54442d18, Value.bool true,
        Value.int8 (-1)], v.WellTyped) ∧
    NewEncoder.EncodeAll [Value.string [112, 105], Value.float64 0x400921fb54442d18,
        Value.bool true, Value.int8 (-1)] =
      some ⟨[13, 4, 0, 0, 0, 0, 0, 0, 0, 112, 105, 11, 9, 152, 218, 144, 162, 181, 191, 200,
        132, 64, 0, 1, 5, 1]⟩ ∧
    ∃ c, (Encoder.mk [13, 4, 0, 0, 0, 0, 0, 0, 0, 112, 105, 11, 9, 152, 218, 144, 162, 181, 191,
        200, 132, 64, 0, 1, 5, 1]).crcBytes = some c ∧
      (Encoder.mk [13, 4, 0, 0, 0, 0, 0, 0, 0, 112, 105, 11, 9, 152, 218, 144, 162, 181, 191,
        200, 132, 64, 0, 1, 5, 1]).Data =
        some ([13, 4, 0, 0, 0, 0, 0, 0, 0, 112, 105, 11, 9, 152, 218, 144, 162, 181, 191,
          200, 132, 64, 0, 1, 5, 1] ++ c) ∧
      (NewDecoder ([13, 4, 0, 0, 0, 0, 0, 0, 0, 112, 105, 11, 9, 152, 218, 144, 162, 181, 191,
          200, 132, 64, 0, 1, 5, 1] ++ c)).DecodeAll
          [Kind.string, Kind.float64, Kind.bool, Kind.int8] =
        some ([(Value.string [112, 105], none), (Value.float64 0x400921fb54442d18, none),
            (Value.bool true, none), (Value.int8 (-1), none)],
          ⟨[13, 4, 0, 0, 0, 0, 0, 0, 0, 112, 105, 11, 9, 152, 218, 144, 162, 181, 191,
            200, 132, 64, 0, 1, 5, 1] ++ c, 26⟩) :=
  ⟨by decide, by decide,
    decode_sequence [Value.string [112, 105], Value.float64 0x400921fb54442d18, Value.bool true,
      Value.int8 (-1)] _ (by decide) (by decide)⟩

/-- C8: for every string `s` (shorter than `2^55` bytes, so that `EncodeString`
completes), the encoder's buffer after `EncodeString(s)` on a fresh encoder has
`9 + len(s)` bytes, and with its last `k` bytes removed, for any
`1 <= k <= 9 + len(s)` (the test removes 2), `DecodeString` on a fresh decoder
fails with `ErrEOB` and returns the empty string, never a decoded one. -/
theorem truncated_string_eob (s : List Byte) (hs : s.length < 2 ^ 55) :
    ∃ e, NewEncoder.EncodeString s = some e ∧ e.data.length = 9 + s.length ∧
      ∀ k, 1 ≤ k → k ≤ 9 + s.length →
        ∃ d1, (NewDecoder (e.data.take (e.data.length - k))).DecodeString =
          some (([], some Err.ErrEOB), d1) := by
  obtain ⟨e, he⟩ := EncodeString_isSome NewEncoder s hs
  obtain ⟨b, n, hp, hdata⟩ := EncodeString_data NewEncoder e s he
  have hl := putVarint_length _ _ _ _ hp
  rw [List.length_replicate] at hl
  have hdata2 : e.data = codingTypeString :: (b ++ s) := by
    rw [hdata]; simp [NewEncoder]
  have hlen : e.data.length = 9 + s.length := by
    rw [hdata2]; simp only [List.length_cons, List.length_append, hl.1]; omega
  refine ⟨e, he, hlen, ?_⟩
  intro k hk1 hk2
  rw [hlen]
  by_cases hm0 : 9 + s.length - k = 0
  · -- nothing is left
    rw [hm0, List.take_zero]
    exact ⟨NewDecoder [], by decide⟩
  · obtain ⟨m, hm⟩ : ∃ m, 9 + s.length - k = m + 1 := ⟨9 + s.length - k - 1, by omega⟩
    have hT : e.data.take (9 + s.length - k) = codingTypeString :: (b ++ s).take m := by
      rw [hm, hdata2, List.take_succ_cons]
    have hTlen : ((b ++ s).take m).length = m := by
      rw [List.length_take, List.length_append, hl.1]; omega
    rw [hT]
    have h1 := checkType_match ⟨codingTypeString :: (b ++ s).take m, 0⟩ [] ((b ++ s).take m)
      codingTypeString (by simp) (by simp)
    by_cases hm8 : m < 8
    · -- the tag and a part of the length window are left
      have h2 : (⟨codingTypeString :: (b ++ s).take m, 0 + 1⟩ : Decoder).checkLength 8 =
          false := by
        simp only [checkLength, decide_eq_false_iff_not, List.length_cons, hTlen]
        push_cast; omega
      refine ⟨⟨codingTypeString :: (b ++ s).take m, 0 + 1⟩, ?_⟩
      unfold DecodeString NewDecoder
      simp only [h1, h2, Bool.not_false, if_true]
    · -- the tag, the length window and a part of the bytes are left
      have hT2 : (b ++ s).take m = b ++ s.take (m - 8) := by
        rw [List.take_append_eq_append_take, hl.1, List.take_of_length_le (by omega)]
      have hs2 : (s.take (m - 8)).length = m - 8 := by
        rw [List.length_take]; omega
      have h2 : (⟨codingTypeString :: (b ++ s).take m, 0 + 1⟩ : Decoder).checkLength 8 =
          true := by
        simp only [checkLength, decide_eq_true_eq, List.length_cons, hTlen]
        push_cast; omega
      have h3 := decodeInt64_putVarint 8 8 rfl (s.length : Int) (by omega) (by omega) b n hp
        ⟨codingTypeString :: (b ++ s).take m, 0 + 1⟩ [codingTypeString] (s.take (m - 8))
        (by simp [hT2]) (by simp)
      have h4 : (⟨codingTypeString :: (b ++ s).take m, 0 + 1 + 8⟩ : Decoder).checkLength
          (s.length : Int) = false := by
        simp only [checkLength, decide_eq_false_iff_not, List.length_cons, hTlen]
        push_cast; omega
      refine ⟨⟨codingTypeString :: (b ++ s).take m, 0 + 1 + 8⟩, ?_⟩
      unfold DecodeString NewDecoder
      simp only [h1, h2, h3, h4, Bool.not_true, Bool.false_eq_true, if_false, Bool.not_false,
        if_true]

/-- Every truncation of the buffer of `EncodeString("Hello")`. -/
theorem truncated_string_eob_witness :
    ([72, 101, 108, 108, 111] : List Byte).length < 2 ^ 55 ∧
    ∃ e, NewEncoder.EncodeString [72, 101, 108, 108, 111] = some e ∧
      e.data.length = 9 + ([72, 101, 108, 108, 111] : List Byte).length ∧
      ∀ k, 1 ≤ k → k ≤ 9 + ([72, 101, 108, 108, 111] : List Byte).length →
        ∃ d1, (NewDecoder (e.data.take (e.data.length - k))).DecodeString =
          some (([], some Err.ErrEOB), d1) :=
  ⟨by decide, truncated_string_eob [72, 101, 108, 108, 111] (by decide)⟩

/-! ## The checksum separates buffers that differ in one byte -/

/-- One round of the table construction is linear over exclusive or. -/
theorem crcTableEntry_round_xor (a b : Nat) :
    crcTableEntry.round (a ^^^ b) = crcTableEntry.round a ^^^ crcTableEntry.round b := by
  unfold crcTableEntry.round
  simp only [Nat.and_one_is_mod, Nat.shiftRight_eq_div_pow, pow_one, Nat.xor_div_two]
  have ha : a % 2 = 0 ∨ a % 2 = 1 := by omega
  have hb : b % 2 = 0 ∨ b % 2 = 1 := by omega
  rcases ha with ha | ha <;> rcases hb with hb | hb
  · have h : ¬ ((a ^^^ b) % 2 = 1) := by rw [Nat.xor_mod_two_eq_one]; omega
    rw [if_neg h, if_neg (by omega), if_neg (by omega)]
  · have h : (a ^^^ b) % 2 = 1 := by rw [Nat.xor_mod_two_eq_one]; omega
    rw [if_pos h, if_neg (by omega), if_pos hb, Nat.xor_assoc]
  · have h : (a ^^^ b) % 2 = 1 := by rw [Nat.xor_mod_two_eq_one]; omega
    rw [if_pos h, if_pos ha, if_neg (by omega), Nat.xor_assoc, Nat.xor_assoc,
      Nat.xor_comm (b / 2)]
  · have h : ¬ ((a ^^^ b) % 2 = 1) := by rw [Nat.xor_mod_two_eq_one]; omega
    rw [if_neg h, if_pos ha, if_pos hb, Nat.xor_assoc, ← Nat.xor_assoc 3988292384,
      Nat.xor_comm 3988292384 (b / 2), Nat.xor_assoc (b / 2), Nat.xor_self, Nat.xor_zero]

/-- A table entry is linear over exclusive or. -/
theorem crcTableEntry_xor (a b : Nat) :
    crcTableEntry (a ^^^ b) = crcTableEntry a ^^^ crcTableEntry b := by
  unfold crcTableEntry
  simp only [crcTableEntry_round_xor]

/-- Among the 256 table entries only the entry of 0 is below `2^24`. -/
theorem crcTableEntry_small (b : Fin 256) (h : crcTableEntry b.val < 2 ^ 24) : b = 0 := by
  revert b
  set_option maxRecDepth 100000 in decide

/-- Two bytes whose table entries differ by less than `2^24` are equal. -/
theorem crcTableEntry_close (a b : Nat) (ha : a < 256) (hb : b < 256)
    (h : crcTableEntry a ^^^ crcTableEntry b < 2 ^ 24) : a = b := by
  have hlt : a ^^^ b < 256 := Nat.xor_lt_two_pow (n := 8) ha hb
  rw [← crcTableEntry_xor] at h
  have := crcTableEntry_small ⟨a ^^^ b, hlt⟩ h
  have h0 : a ^^^ b = 0 := by
    have := congrArg Fin.val this
    simpa using this
  exact Nat.xor_eq_zero.mp h0

/-- The update of the checksum state by one byte is injective in the byte. -/
theorem crcStep_byte_inj (s : Nat) (a x : Byte)
    (h : crcTableEntry ((s % 256) ^^^ a.val) ^^^ (s >>> 8) =
      crcTableEntry ((s % 256) ^^^ x.val) ^^^ (s >>> 8)) : a = x := by
  have h1 := Nat.xor_left_inj.mp h
  have hs : s % 256 < 256 := Nat.mod_lt _ (by decide)
  have h2 := crcTableEntry_close _ _ (Nat.xor_lt_two_pow (n := 8) hs a.isLt)
    (Nat.xor_lt_two_pow (n := 8) hs x.isLt) (by rw [h1, Nat.xor_self]; norm_num)
  exact Fin.ext (Nat.xor_right_inj.mp h2)

/-- The update of the checksum state by one byte is injective in the state. -/
theorem crcStep_state_inj (s t : Nat) (v : Byte) (hs : s < 2 ^ 32) (ht : t < 2 ^ 32)
    (h : crcTableEntry ((s % 256) ^^^ v.val) ^^^ (s >>> 8) =
      crcTableEntry ((t % 256) ^^^ v.val) ^^^ (t >>> 8)) : s = t := by
  have hs8 : s >>> 8 < 2 ^ 24 := by rw [Nat.shiftRight_eq_div_pow]; omega
  have ht8 : t >>> 8 < 2 ^ 24 := by rw [Nat.shiftRight_eq_div_pow]; omega
  have hsm : s % 256 < 256 := Nat.mod_lt _ (by decide)
  have htm : t % 256 < 256 := Nat.mod_lt _ (by decide)
  -- the two table entries differ by the exclusive or of the shifted states
  have hdiff : crcTableEntry ((s % 256) ^^^ v.val) ^^^ crcTableEntry ((t % 256) ^^^ v.val) =
      (s >>> 8) ^^^ (t >>> 8) := by
    have h1 : crcTableEntry ((s % 256) ^^^ v.val) =
        crcTableEntry ((t % 256) ^^^ v.val) ^^^ (t >>> 8) ^^^ (s >>> 8) := by
      rw [← h, Nat.xor_cancel_right]
    apply (Nat.xor_left_inj (n := crcTableEntry ((t % 256) ^^^ v.val))).mp
    rw [Nat.xor_cancel_right, h1]
    ac_rfl
  have hb := crcTableEntry_close _ _ (Nat.xor_lt_two_pow (n := 8) hsm v.isLt)
    (Nat.xor_lt_two_pow (n := 8) htm v.isLt)
    (by rw [hdiff]; exact Nat.xor_lt_two_pow hs8 ht8)
  have hlow : s % 256 = t % 256 := Nat.xor_left_inj.mp hb
  rw [hb] at h
  have hhigh : s >>> 8 = t >>> 8 := Nat.xor_right_inj.mp h
  rw [Nat.shiftRight_eq_div_pow, Nat.shiftRight_eq_div_pow] at hhigh
  omega

theorem crcUpdate_append (xs ys : List Byte) : ∀ crc,
    crcUpdate crc (xs ++ ys) = crcUpdate (crcUpdate crc xs) ys := by
  induction xs with
  | nil => intro crc; rfl
  | cons v rest ih => intro crc; simp only [List.cons_append, crcUpdate, ih, List.append_eq]

/-- Over the same bytes, different checksum states stay different. -/
theorem crcUpdate_state_inj (data : List Byte) : ∀ s t, s < 2 ^ 32 → t < 2 ^ 32 →
    crcUpdate s data = crcUpdate t data → s = t := by
  induction data with
  | nil => intro s t _ _ h; simpa [crcUpdate] using h
  | cons v rest ih =>
    intro s t hs ht h
    simp only [crcUpdate] at h
    have hs1 := crcUpdate_lt [v] s hs
    have ht1 := crcUpdate_lt [v] t ht
    simp only [crcUpdate] at hs1 ht1
    exact crcStep_state_inj s t v hs ht (ih _ _ hs1 ht1 h)

/-- Replacing one byte of a buffer changes its CRC32. -/
theorem checksumIEEE_replace_ne (pre suf : List Byte) (a x : Byte) (hne : a ≠ x) :
    ChecksumIEEE (pre ++ a :: suf) ≠ ChecksumIEEE (pre ++ x :: suf) := by
  intro h
  unfold ChecksumIEEE at h
  have h1 := Nat.xor_left_inj.mp h
  rw [crcUpdate_append, crcUpdate_append] at h1
  simp only [crcUpdate] at h1
  have hs := crcUpdate_lt pre 0xffffffff (by norm_num)
  have ha := crcUpdate_lt [a] _ hs
  have hx := crcUpdate_lt [x] _ hs
  simp only [crcUpdate] at ha hx
  exact hne (crcStep_byte_inj _ a x (crcUpdate_state_inj suf _ _ ha hx h1))

/-- C11: for every encoder with internal buffer `D`, every index `i < len(D)`
and every byte `x` different from `D[i]`, `Validate()` on a decoder over
`Data()` with the byte at index `i` replaced by `x` (the trailer untouched)
fails with `ErrCRC`. -/
theorem validate_replaced_byte (e : Encoder) (i : Nat) (x : Byte) (hi : i < e.data.length)
    (hx : e.data[i]? ≠ some x) :
    ∃ bytes, e.Data = some bytes ∧
      (NewDecoder (bytes.set i x)).Validate = some (some Err.ErrCRC) := by
  obtain ⟨out, n, hp, hlen, h1, h16, hD⟩ := Data_eq e
  refine ⟨_, hD, ?_⟩
  have hV : (out.take n).length = n := by rw [List.length_take]; omega
  have hrd := readUvarint_putUvarint _ _ out n [] hp
    (lt_of_lt_of_le (checksumIEEE_lt e.data) (Nat.pow_le_pow_right (by decide) (by decide)))
  rw [List.append_nil] at hrd
  -- the buffer around index `i`
  have hsplit : e.data = e.data.take i ++ e.data[i] :: e.data.drop (i + 1) := by
    rw [← List.drop_eq_getElem_cons hi, List.take_append_drop]
  have hset : e.data.set i x = e.data.take i ++ x :: e.data.drop (i + 1) := by
    rw [List.set_eq_take_append_cons_drop, if_pos hi]
  have hne : e.data[i] ≠ x := by
    intro hc
    apply hx
    rw [List.getElem?_eq_getElem hi, hc]
  have hcrc : ChecksumIEEE (e.data.set i x) ≠ ChecksumIEEE e.data := by
    rw [hset]
    conv_rhs => rw [hsplit]
    exact (checksumIEEE_replace_ne _ _ _ _ hne).symm
  have hbytes : (e.data ++ (out.take n ++ [byte n])).set i x =
      e.data.set i x ++ out.take n ++ [byte (out.take n).length] := by
    rw [List.set_append_left i x hi, hV, List.append_assoc]
  have hsp := Validate_split (e.data.set i x) (out.take n) 0 (by omega)
  rw [hrd] at hsp
  simp only [uint32, Nat.mod_eq_of_lt (checksumIEEE_lt e.data)] at hsp
  rw [if_pos (fun h => hcrc h.symm)] at hsp
  unfold NewDecoder
  rw [hbytes]
  exact hsp

/-- The payload byte 1 of the buffer `[0x00, 0x01]` replaced by 0. -/
theorem validate_replaced_byte_witness :
    1 < (Encoder.mk [0, 1]).data.length ∧ (Encoder.mk [0, 1]).data[1]? ≠ some 0 ∧
    ∃ bytes, (Encoder.mk [0, 1]).Data = some bytes ∧
      (NewDecoder (bytes.set 1 0)).Validate = some (some Err.ErrCRC) :=
  ⟨by decide, by decide, validate_replaced_byte (Encoder.mk [0, 1]) 1 0 (by decide) (by decide)⟩

/-- C12 (the code departs from the claim).  The claim: `Validate()` returns
`ErrByteLength` when the slice bounds computed from the last byte `l` are
invalid (`l + 1 > len(data)`).  On the code, the one-byte buffer `[0x05]` and
the buffer `[0x0A, 0x64]` that `EncodeUint8(100)` leaves pass the only guard
(`len(d.data) < 1`) and the slice expression
`d.data[len(d.data)-l-1 : len(d.data)-1]` panics; the empty buffer does return
`ErrByteLength`. -/
theorem validate_bad_bounds_panics :
    (NewDecoder [5]).Validate = none ∧
    (NewEncoder.EncodeUint8 100).map (fun e => (e.data, (NewDecoder e.data).Validate)) =
      some ([0x0A, 0x64], none) ∧
    (NewDecoder []).Validate = some (some Err.ErrByteLength) := by
  decide

/-! ## The layout of the trailer -/

/-- The bytes `PutUvarint` writes are the varint of the specification. -/
theorem putUvarint_take_eq_uvarint (buf : List Byte) :
    ∀ (x : Nat) (out : List Byte) (n : Nat), PutUvarint buf x = some (out, n) →
      out.take n = uvarint x := by
  induction buf with
  | nil => intro x out n h; simp [PutUvarint] at h
  | cons b rest ih =>
    intro x out n h
    unfold PutUvarint at h
    split at h
    · rename_i hge
      cases hrec : PutUvarint rest (x >>> 7) with
      | none => simp [hrec] at h
      | some p =>
        obtain ⟨out1, n1⟩ := p
        simp only [hrec, Option.some.injEq, Prod.mk.injEq] at h
        obtain ⟨rfl, rfl⟩ := h
        have hrest := ih _ _ _ hrec
        rw [Nat.shiftRight_eq_div_pow] at hrest
        rw [uvarint, if_neg (by omega), List.take_succ_cons, hrest]
        congr 1
        apply Fin.ext
        rw [byte_lor_val]
        simp only [byte]
        omega
    · rename_i hlt
      simp only [Option.some.injEq, Prod.mk.injEq] at h
      obtain ⟨rfl, rfl⟩ := h
      rw [uvarint, if_pos (by omega)]
      simp

/-- The varint of a `uint32` has between 1 and 5 bytes. -/
theorem uvarint_length_uint32 (x : Nat) (hx : x < 2 ^ 32) :
    1 ≤ (uvarint x).length ∧ (uvarint x).length ≤ 5 := by
  obtain ⟨out, n, hp⟩ := putUvarint_isSome (List.replicate 5 0) x
    (by rw [List.length_replicate]
        exact lt_of_lt_of_le hx (Nat.pow_le_pow_right (by decide) (by decide)))
    (by simp)
  have hl := putUvarint_length _ _ _ _ hp
  rw [List.length_replicate] at hl
  rw [← putUvarint_take_eq_uvarint _ _ _ _ hp, List.length_take]
  omega

/-- C13: for every encoder with internal buffer `D`, `Data()` returns exactly
`D`, followed by the unsigned varint `V` of CRC32-IEEE(`D`), followed by one byte
equal to `len(V)`; `1 <= len(V) <= 5`, so the result is 2 to 6 bytes longer than
`D` and starts with `D`.  `Data()` has a value receiver and assigns nothing: it
is a function of the encoder, so consecutive calls return equal bytes. -/
theorem data_layout (e : Encoder) :
    e.Data = some (e.data ++ uvarint (ChecksumIEEE e.data) ++
      [byte (uvarint (ChecksumIEEE e.data)).length]) ∧
    1 ≤ (uvarint (ChecksumIEEE e.data)).length ∧
    (uvarint (ChecksumIEEE e.data)).length ≤ 5 ∧
    (∃ bytes, e.Data = some bytes ∧ e.data.length + 2 ≤ bytes.length ∧
      bytes.length ≤ e.data.length + 6 ∧ bytes.take e.data.length = e.data) := by
  obtain ⟨out, n, hp, hlen, h1, h16, hD⟩ := Data_eq e
  have hV := putUvarint_take_eq_uvarint _ _ _ _ hp
  have hn : (uvarint (ChecksumIEEE e.data)).length = n := by
    rw [← hV, List.length_take]; omega
  have hb := uvarint_length_uint32 _ (checksumIEEE_lt e.data)
  have hfirst : e.Data = some (e.data ++ uvarint (ChecksumIEEE e.data) ++
      [byte (uvarint (ChecksumIEEE e.data)).length]) := by
    rw [hD, hn, ← hV, List.append_assoc]
  refine ⟨hfirst, hb.1, hb.2, _, hfirst, ?_, ?_, ?_⟩
  · simp only [List.length_append, List.length_singleton]; omega
  · simp only [List.length_append, List.length_singleton]; omega
  · rw [List.append_assoc, List.take_left]

/-- C14: for every encoder state, after `Flush()` the internal buffer is empty
and the encoder is a fresh one: `Data()` after `Flush()` equals `Data()` of
`NewEncoder()`, and every sequence of encodes after `Flush()` gives what it
gives on a new encoder. -/
theorem flush_is_fresh (e : Encoder) :
    e.Flush.data = [] ∧ e.Flush = NewEncoder ∧ e.Flush.Data = NewEncoder.Data ∧
    ∀ vs : List Value, e.Flush.EncodeAll vs = NewEncoder.EncodeAll vs :=
  ⟨rfl, rfl, rfl, fun _ => rfl⟩

/-- C15 (the claim fails as stated).  `DecodeFloat64` over `[0x0B, 0x00]` (a
float whose length byte is 0) returns `io.EOF`, and `DecodeInt8` over
`[0x05, 0x80]` (a window that ends inside a varint) returns
`io.ErrUnexpectedEOF`: neither is `ErrEOB` or `ErrType`. -/
theorem decode_error_kinds_counterexample :
    (NewDecoder [0x0B, 0x00]).DecodeFloat64 = some ((0, some Err.EOF), ⟨[0x0B, 0x00], 2⟩) ∧
    (NewDecoder [0x05, 0x80]).DecodeInt8 =
      some ((0, some Err.ErrUnexpectedEOF), ⟨[0x05, 0x80], 2⟩) := by
  decide

/-- C19 (the code departs from the claim).  The claim: `DecodeString` and
`DecodeData` either return a value or an error for every decoded length,
negative ones included.  On the code, over the 9 bytes
`[tag, 0x01, 0, 0, 0, 0, 0, 0, 0]` the length window decodes to -1,
`checkLength(-1)` holds, and the slice `d.data[9:8]` panics, for both kinds; a
length larger than the remaining bytes (window `0x02`, length 1, nothing left)
does give `ErrEOB`. -/
theorem decode_negative_length_panics :
    (NewDecoder [0x0D, 0x01, 0, 0, 0, 0, 0, 0, 0]).DecodeString = none ∧
    (NewDecoder [0x0E, 0x01, 0, 0, 0, 0, 0, 0, 0]).DecodeData = none ∧
    (NewDecoder [0x0D, 0x02, 0, 0, 0, 0, 0, 0, 0]).DecodeString =
      some (([], some Err.ErrEOB), ⟨[0x0D, 0x02, 0, 0, 0, 0, 0, 0, 0], 9⟩) := by
  decide

/-! ## What a returning decode step guarantees -/

/-- When `getByte` returns. -/
theorem getByte_result (d d1 : Decoder) (b : Byte) (h : d.getByte = some (b, d1)) :
    0 ≤ d.offset ∧ d.offset < (d.data.length : Int) ∧ d.data[d.offset.toNat]? = some b ∧
      d1 = ⟨d.data, d.offset + 1⟩ := by
  unfold getByte at h
  split at h
  · rename_i h0
    split at h
    · exact Option.noConfusion h
    · rename_i b1 hb
      simp only [Option.some.injEq, Prod.mk.injEq] at h
      have hlt := getElem?_lt_length _ _ _ hb
      refine ⟨h0, by omega, by rw [hb, h.1], ?_⟩
      rw [← h.2]; simp [incrementOffset]
  · exact Option.noConfusion h

/-- When `getBytes` returns. -/
theorem getBytes_result (d d1 : Decoder) (n : Int) (bs : List Byte)
    (h : d.getBytes n = some (bs, d1)) :
    0 ≤ d.offset ∧ 0 ≤ n ∧ d.offset + n ≤ (d.data.length : Int) ∧
      bs = (d.data.drop d.offset.toNat).take n.toNat ∧ d1 = ⟨d.data, d.offset + n⟩ := by
  unfold getBytes at h
  split at h
  · rename_i hb
    simp only [Option.some.injEq, Prod.mk.injEq] at h
    refine ⟨hb.1, hb.2.1, hb.2.2, h.1.symm, ?_⟩
    rw [← h.2]; simp [incrementOffset]
  · exact Option.noConfusion h

/-- The three ways `checkType` returns. -/
theorem checkType_result (d d1 : Decoder) (t : Byte) (r : Option Err)
    (h : d.checkType t = some (r, d1)) :
    (r = some Err.ErrEOB ∧ d1 = d ∧ (d.data.length : Int) ≤ d.offset) ∨
    (r = some Err.ErrType ∧ d1 = d ∧ 0 ≤ d.offset ∧ d.offset < (d.data.length : Int) ∧
      d.data[d.offset.toNat]? ≠ some t) ∨
    (r = none ∧ d1 = ⟨d.data, d.offset + 1⟩ ∧ 0 ≤ d.offset ∧
      d.offset < (d.data.length : Int) ∧ d.data[d.offset.toNat]? = some t) := by
  unfold checkType at h
  split at h
  · rename_i hcl
    simp only [checkLength, Bool.not_eq_true', decide_eq_false_iff_not] at hcl
    simp only [Option.some.injEq, Prod.mk.injEq] at h
    exact Or.inl ⟨h.1.symm, h.2.symm, by omega⟩
  · split at h
    · exact Option.noConfusion h
    · rename_i tb d2 hg
      obtain ⟨h0, hlt, hb, hd2⟩ := getByte_result _ _ _ hg
      split at h
      · rename_i hbt
        simp only [Option.some.injEq, Prod.mk.injEq] at h
        exact Or.inr (Or.inr ⟨h.1.symm, by rw [← h.2, hd2], h0, hlt, by rw [hb, hbt]⟩)
      · rename_i hbt
        simp only [Option.some.injEq, Prod.mk.injEq] at h
        refine Or.inr (Or.inl ⟨h.1.symm, ?_, h0, hlt, ?_⟩)
        · rw [← h.2, hd2]; simp [decrementOffset]
        · rw [hb]; intro hc; exact hbt (Option.some.inj hc)

/-- The two ways `getIntByteReader` returns. -/
theorem getIntByteReader_result (d d1 : Decoder) (n : Int) (r : List Byte × Option Err)
    (h : d.getIntByteReader n = some (r, d1)) :
    (r = ([], some Err.ErrEOB) ∧ d1 = d ∧ (d.data.length : Int) ≤ d.offset + n - 1) ∨
    (r = ((d.data.drop d.offset.toNat).take n.toNat, none) ∧ d1 = ⟨d.data, d.offset + n⟩ ∧
      0 ≤ d.offset ∧ 0 ≤ n ∧ d.offset + n ≤ (d.data.length : Int)) := by
  unfold getIntByteReader at h
  split at h
  · rename_i hcl
    simp only [checkLength, Bool.not_eq_true', decide_eq_false_iff_not] at hcl
    simp only [Option.some.injEq, Prod.mk.injEq] at h
    exact Or.inl ⟨h.1.symm, h.2.symm, by omega⟩
  · split at h
    · exact Option.noConfusion h
    · rename_i ib d2 hg
      obtain ⟨h0, hn, hlen, hib, hd2⟩ := getBytes_result _ _ _ _ hg
      simp only [Option.some.injEq, Prod.mk.injEq] at h
      exact Or.inr ⟨by rw [← h.1, hib], by rw [← h.2, hd2], h0, hn, hlen⟩

/-- The errors of `ReadVarint` are those of `ReadUvarint`. -/
theorem readVarint_err (bs : List Byte) (v : Int) (err : Err)
    (h : ReadVarint bs = (v, some err)) :
    err = Err.EOF ∨ err = Err.ErrUnexpectedEOF ∨ err = Err.errOverflow := by
  unfold ReadVarint at h
  rcases hr : ReadUvarint bs with ⟨ux, e⟩
  rw [hr] at h
  simp only [Prod.mk.injEq] at h
  rw [h.2] at hr
  exact readUvarint_loop_err bs 0 0 0 ux err hr

/-- The ways `decodeInt64` returns: `ErrEOB` in place, or past the window with
the result of the varint reader. -/
theorem decodeInt64_result (d d1 : Decoder) (n : Int) (v : Int) (err : Option Err)
    (h : d.decodeInt64 n = some ((v, err), d1)) :
    (err = some Err.ErrEOB ∧ v = 0 ∧ d1 = d ∧ (d.data.length : Int) ≤ d.offset + n - 1) ∨
    (d1 = ⟨d.data, d.offset + n⟩ ∧ 0 ≤ d.offset ∧ 0 ≤ n ∧
      d.offset + n ≤ (d.data.length : Int) ∧
      ReadVarint ((d.data.drop d.offset.toNat).take n.toNat) = (v, err) ∧
      (err = none ∨ err = some Err.EOF ∨ err = some Err.ErrUnexpectedEOF ∨
        err = some Err.errOverflow)) := by
  unfold decodeInt64 at h
  split at h
  · exact Option.noConfusion h
  · rename_i r e d2 hg
    rcases getIntByteReader_result _ _ _ _ hg with ⟨hr, hd, hlen⟩ | ⟨hr, _⟩
    · simp only [Prod.mk.injEq, Option.some.injEq] at hr h
      exact Or.inl ⟨by rw [← h.1.2, hr.2], h.1.1.symm, by rw [← h.2, hd], hlen⟩
    · simp only [Prod.mk.injEq] at hr
      exact Option.noConfusion hr.2
  · rename_i r d2 hg
    rcases getIntByteReader_result _ _ _ _ hg with ⟨hr, _⟩ | ⟨hr, hd, h0, hn, hlen⟩
    · simp only [Prod.mk.injEq] at hr
      exact Option.noConfusion hr.2
    · simp only [Prod.mk.injEq, and_true] at hr
      simp only [Option.some.injEq, Prod.mk.injEq] at h
      refine Or.inr ⟨by rw [← h.2, hd], h0, hn, hlen, by rw [← hr, h.1], ?_⟩
      cases err with
      | none => exact Or.inl rfl
      | some e =>
        have := readVarint_err r v e h.1
        rcases this with h1 | h1 | h1 <;> simp [h1]

/-- The ways `decodeUint64` returns. -/
theorem decodeUint64_result (d d1 : Decoder) (n : Int) (v : Nat) (err : Option Err)
    (h : d.decodeUint64 n = some ((v, err), d1)) :
    (err = some Err.ErrEOB ∧ v = 0 ∧ d1 = d ∧ (d.data.length : Int) ≤ d.offset + n - 1) ∨
    (d1 = ⟨d.data, d.offset + n⟩ ∧ 0 ≤ d.offset ∧ 0 ≤ n ∧
      d.offset + n ≤ (d.data.length : Int) ∧
      ReadUvarint ((d.data.drop d.offset.toNat).take n.toNat) = (v, err) ∧
      (err = none ∨ err = some Err.EOF ∨ err = some Err.ErrUnexpectedEOF ∨
        err = some Err.errOverflow)) := by
  unfold decodeUint64 at h
  split at h
  · exact Option.noConfusion h
  · rename_i r e d2 hg
    rcases getIntByteReader_result _ _ _ _ hg with ⟨hr, hd, hlen⟩ | ⟨hr, _⟩
    · simp only [Prod.mk.injEq, Option.some.injEq] at hr h
      exact Or.inl ⟨by rw [← h.1.2, hr.2], h.1.1.symm, by rw [← h.2, hd], hlen⟩
    · simp only [Prod.mk.injEq] at hr
      exact Option.noConfusion hr.2
  · rename_i r d2 hg
    rcases getIntByteReader_result _ _ _ _ hg with ⟨hr, _⟩ | ⟨hr, hd, h0, hn, hlen⟩
    · simp only [Prod.mk.injEq] at hr
      exact Option.noConfusion hr.2
    · simp only [Prod.mk.injEq, and_true] at hr
      simp only [Option.some.injEq, Prod.mk.injEq] at h
      refine Or.inr ⟨by rw [← h.2, hd], h0, hn, hlen, by rw [← hr, h.1], ?_⟩
      cases err with
      | none => exact Or.inl rfl
      | some e =>
        have := readUvarint_loop_err r 0 0 0 v e h.1
        rcases this with h1 | h1 | h1 <;> simp [h1]

/-! ### Every `Decode<Kind>` that returns -/

/-- When `DecodeInt` returns: the data is untouched, the cursor invariant is
kept, the error is `nil`, `ErrEOB`, `ErrType` or one of the varint reader, and an
error comes with the zero value. -/
theorem DecodeInt_result (d d1 : Decoder) (v : Int) (err : Option Err)
    (h : d.DecodeInt = some ((v, err), d1)) :
    d1.data = d.data ∧ (d.Inv → d1.Inv) ∧
    (err = none ∨ err = some Err.ErrEOB ∨ err = some Err.ErrType ∨ err = some Err.EOF ∨
      err = some Err.ErrUnexpectedEOF ∨ err = some Err.errOverflow) ∧
    (err ≠ none → v = 0) := by
  unfold DecodeInt at h
  split at h
  · exact Option.noConfusion h
  · rename_i e d2 hct
    simp only [Option.some.injEq, Prod.mk.injEq] at h
    obtain ⟨⟨hv, he⟩, hd⟩ := h
    subst hv he hd
    rcases checkType_result _ _ _ _ hct with ⟨hr, hd, _⟩ | ⟨hr, hd, _⟩ | ⟨hr, _⟩
    · subst hd; simp [hr]
    · subst hd; simp [hr]
    · exact Option.noConfusion hr
  · rename_i d2 hct
    rcases checkType_result _ _ _ _ hct with ⟨hr, _⟩ | ⟨hr, _⟩ | ⟨_, hd2, h0, hlt, _⟩
    · exact Option.noConfusion hr
    · exact Option.noConfusion hr
    · subst hd2
      split at h
      · exact Option.noConfusion h
      · rename_i x e d3 hdi
        simp only [Option.some.injEq, Prod.mk.injEq] at h
        obtain ⟨⟨hv, he⟩, hd⟩ := h
        subst hv he hd
        rcases decodeInt64_result _ _ _ _ _ hdi with ⟨hr, _, hd, _⟩ | ⟨hd, _, _, hlen, _, hr⟩
        · subst hd
          refine ⟨rfl, fun _ => ⟨?_, ?_⟩, by simp [hr], fun _ => rfl⟩ <;>
            (dsimp only at *; omega)
        · subst hd
          refine ⟨rfl, fun _ => ⟨?_, ?_⟩, ?_, fun _ => rfl⟩
          · dsimp only at *; omega
          · dsimp only at *; omega
          · rcases hr with hr | hr | hr | hr <;> simp [hr]
      · rename_i i d3 hdi
        simp only [Option.some.injEq, Prod.mk.injEq] at h
        obtain ⟨⟨hv, he⟩, hd⟩ := h
        subst hv he hd
        rcases decodeInt64_result _ _ _ _ _ hdi with ⟨hr, _⟩ | ⟨hd, _, _, hlen, _, _⟩
        · exact Option.noConfusion hr
        · subst hd
          refine ⟨rfl, fun _ => ⟨?_, ?_⟩, Or.inl rfl, fun hc => absurd rfl hc⟩ <;>
            (dsimp only at *; omega)

/-- When `DecodeInt64` returns: the data is untouched, the cursor invariant is
kept, the error is `nil`, `ErrEOB`, `ErrType` or one of the varint reader, and an
error comes with the zero value. -/
theorem DecodeInt64_result (d d1 : Decoder) (v : Int) (err : Option Err)
    (h : d.DecodeInt64 = some ((v, err), d1)) :
    d1.data = d.data ∧ (d.Inv → d1.Inv) ∧
    (err = none ∨ err = some Err.ErrEOB ∨ err = some Err.ErrType ∨ err = some Err.EOF ∨
      err = some Err.ErrUnexpectedEOF ∨ err = some Err.errOverflow) ∧
    (err ≠ none → v = 0) := by
  unfold DecodeInt64 at h
  split at h
  · exact Option.noConfusion h
  · rename_i e d2 hct
    simp only [Option.some.injEq, Prod.mk.injEq] at h
    obtain ⟨⟨hv, he⟩, hd⟩ := h
    subst hv he hd
    rcases checkType_result _ _ _ _ hct with ⟨hr, hd, _⟩ | ⟨hr, hd, _⟩ | ⟨hr, _⟩
    · subst hd; simp [hr]
    · subst hd; simp [hr]
    · exact Option.noConfusion hr
  · rename_i d2 hct
    rcases checkType_result _ _ _ _ hct with ⟨hr, _⟩ | ⟨hr, _⟩ | ⟨_, hd2, h0, hlt, _⟩
    · exact Option.noConfusion hr
    · exact Option.noConfusion hr
    · subst hd2
      split at h
      · exact Option.noConfusion h
      · rename_i x e d3 hdi
        simp only [Option.some.injEq, Prod.mk.injEq] at h
        obtain ⟨⟨hv, he⟩, hd⟩ := h
        subst hv he hd
        rcases decodeInt64_result _ _ _ _ _ hdi with ⟨hr, _, hd, _⟩ | ⟨hd, _, _, hlen, _, hr⟩
        · subst hd
          refine ⟨rfl, fun _ => ⟨?_, ?_⟩, by simp [hr], fun _ => rfl⟩ <;>
            (dsimp only at *; omega)
        · subst hd
          refine ⟨rfl, fun _ => ⟨?_, ?_⟩, ?_, fun _ => rfl⟩
          · dsimp only at *; omega
          · dsimp only at *; omega
          · rcases hr with hr | hr | hr | hr <;> simp [hr]
      · rename_i i d3 hdi
        simp only [Option.some.injEq, Prod.mk.injEq] at h
        obtain ⟨⟨hv, he⟩, hd⟩ := h
        subst hv he hd
        rcases decodeInt64_result _ _ _ _ _ hdi with ⟨hr, _⟩ | ⟨hd, _, _, hlen, _, _⟩
        · exact Option.noConfusion hr
        · subst hd
          refine ⟨rfl, fun _ => ⟨?_, ?_⟩, Or.inl rfl, fun hc => absurd rfl hc⟩ <;>
            (dsimp only at *; omega)

/-- When `DecodeInt32` returns: the data is untouched, the cursor invariant is
kept, the error is `nil`, `ErrEOB`, `ErrType` or one of the varint reader, and an
error comes with the zero value. -/
theorem DecodeInt32_result (d d1 : Decoder) (v : Int) (err : Option Err)
    (h : d.DecodeInt32 = some ((v, err), d1)) :
    d1.data = d.data ∧ (d.Inv → d1.Inv) ∧
    (err = none ∨ err = some Err.ErrEOB ∨ err = some Err.ErrType ∨ err = some Err.EOF ∨
      err = some Err.ErrUnexpectedEOF ∨ err = some Err.errOverflow) ∧
    (err ≠ none → v = 0) := by
  unfold DecodeInt32 at h
  split at h
  · exact Option.noConfusion h
  · rename_i e d2 hct
    simp only [Option.some.injEq, Prod.mk.injEq] at h
    obtain ⟨⟨hv, he⟩, hd⟩ := h
    subst hv he hd
    rcases checkType_result _ _ _ _ hct with ⟨hr, hd, _⟩ | ⟨hr, hd, _⟩ | ⟨hr, _⟩
    · subst hd; simp [hr]
    · subst hd; simp [hr]
    · exact Option.noConfusion hr
  · rename_i d2 hct
    rcases checkType_result _ _ _ _ hct with ⟨hr, _⟩ | ⟨hr, _⟩ | ⟨_, hd2, h0, hlt, _⟩
    · exact Option.noConfusion hr
    · exact Option.noConfusion hr
    · subst hd2
      split at h
      · exact Option.noConfusion h
      · rename_i x e d3 hdi
        simp only [Option.some.injEq, Prod.mk.injEq] at h
        obtain ⟨⟨hv, he⟩, hd⟩ := h
        subst hv he hd
        rcases decodeInt64_result _ _ _ _ _ hdi with ⟨hr, _, hd, _⟩ | ⟨hd, _, _, hlen, _, hr⟩
        · subst hd
          refine ⟨rfl, fun _ => ⟨?_, ?_⟩, by simp [hr], fun _ => rfl⟩ <;>
            (dsimp only at *; omega)
        · subst hd
          refine ⟨rfl, fun _ => ⟨?_, ?_⟩, ?_, fun _ => rfl⟩
          · dsimp only at *; omega
          · dsimp only at *; omega
          · rcases hr with hr | hr | hr | hr <;> simp [hr]
      · rename_i i d3 hdi
        simp only [Option.some.injEq, Prod.mk.injEq] at h
        obtain ⟨⟨hv, he⟩, hd⟩ := h
        subst hv he hd
        rcases decodeInt64_result _ _ _ _ _ hdi with ⟨hr, _⟩ | ⟨hd, _, _, hlen, _, _⟩
        · exact Option.noConfusion hr
        · subst hd
          refine ⟨rfl, fun _ => ⟨?_, ?_⟩, Or.inl rfl, fun hc => absurd rfl hc⟩ <;>
            (dsimp only at *; omega)

/-- When `DecodeInt16` returns: the data is untouched, the cursor invariant is
kept, the error is `nil`, `ErrEOB`, `ErrType` or one of the varint reader, and an
error comes with the zero value. -/
theorem DecodeInt16_result (d d1 : Decoder) (v : Int) (err : Option Err)
    (h : d.DecodeInt16 = some ((v, err), d1)) :
    d1.data = d.data ∧ (d.Inv → d1.Inv) ∧
    (err = none ∨ err = some Err.ErrEOB ∨ err = some Err.ErrType ∨ err = some Err.EOF ∨
      err = some Err.ErrUnexpectedEOF ∨ err = some Err.errOverflow) ∧
    (err ≠ none → v = 0) := by
  unfold DecodeInt16 at h
  split at h
  · exact Option.noConfusion h
  · rename_i e d2 hct
    simp only [Option.some.injEq, Prod.mk.injEq] at h
    obtain ⟨⟨hv, he⟩, hd⟩ := h
    subst hv he hd
    rcases checkType_result _ _ _ _ hct with ⟨hr, hd, _⟩ | ⟨hr, hd, _⟩ | ⟨hr, _⟩
    · subst hd; simp [hr]
    · subst hd; simp [hr]
    · exact Option.noConfusion hr
  · rename_i d2 hct
    rcases checkType_result _ _ _ _ hct with ⟨hr, _⟩ | ⟨hr, _⟩ | ⟨_, hd2, h0, hlt, _⟩
    · exact Option.noConfusion hr
    · exact Option.noConfusion hr
    · subst hd2
      split at h
      · exact Option.noConfusion h
      · rename_i x e d3 hdi
        simp only [Option.some.injEq, Prod.mk.injEq] at h
        obtain ⟨⟨hv, he⟩, hd⟩ := h
        subst hv he hd
        rcases decodeInt64_result _ _ _ _ _ hdi with ⟨hr, _, hd, _⟩ | ⟨hd, _, _, hlen, _, hr⟩
        · subst hd
          refine ⟨rfl, fun _ => ⟨?_, ?_⟩, by simp [hr], fun _ => rfl⟩ <;>
            (dsimp only at *; omega)
        · subst hd
          refine ⟨rfl, fun _ => ⟨?_, ?_⟩, ?_, fun _ => rfl⟩
          · dsimp only at *; omega
          · dsimp only at *; omega
          · rcases hr with hr | hr | hr | hr <;> simp [hr]
      · rename_i i d3 hdi
        simp only [Option.some.injEq, Prod.mk.injEq] at h
        obtain ⟨⟨hv, he⟩, hd⟩ := h
        subst hv he hd
        rcases decodeInt64_result _ _ _ _ _ hdi with ⟨hr, _⟩ | ⟨hd, _, _, hlen, _, _⟩
        · exact Option.noConfusion hr
        · subst hd
          refine ⟨rfl, fun _ => ⟨?_, ?_⟩, Or.inl rfl, fun hc => absurd rfl hc⟩ <;>
            (dsimp only at *; omega)

/-- When `DecodeInt8` returns: the data is untouched, the cursor invariant is
kept, the error is `nil`, `ErrEOB`, `ErrType` or one of the varint reader, and an
error comes with the zero value. -/
theorem DecodeInt8_result (d d1 : Decoder) (v : Int) (err : Option Err)
    (h : d.DecodeInt8 = some ((v, err), d1)) :
    d1.data = d.data ∧ (d.Inv → d1.Inv) ∧
    (err = none ∨ err = some Err.ErrEOB ∨ err = some Err.ErrType ∨ err = some Err.EOF ∨
      err = some Err.ErrUnexpectedEOF ∨ err = some Err.errOverflow) ∧
    (err ≠ none → v = 0) := by
  unfold DecodeInt8 at h
  split at h
  · exact Option.noConfusion h
  · rename_i e d2 hct
    simp only [Option.some.injEq, Prod.mk.injEq] at h
    obtain ⟨⟨hv, he⟩, hd⟩ := h
    subst hv he hd
    rcases checkType_result _ _ _ _ hct with ⟨hr, hd, _⟩ | ⟨hr, hd, _⟩ | ⟨hr, _⟩
    · subst hd; simp [hr]
    · subst hd; simp [hr]
    · exact Option.noConfusion hr
  · rename_i d2 hct
    rcases checkType_result _ _ _ _ hct with ⟨hr, _⟩ | ⟨hr, _⟩ | ⟨_, hd2, h0, hlt, _⟩
    · exact Option.noConfusion hr
    · exact Option.noConfusion hr
    · subst hd2
      split at h
      · exact Option.noConfusion h
      · rename_i x e d3 hdi
        simp only [Option.some.injEq, Prod.mk.injEq] at h
        obtain ⟨⟨hv, he⟩, hd⟩ := h
        subst hv he hd
        rcases decodeInt64_result _ _ _ _ _ hdi with ⟨hr, _, hd, _⟩ | ⟨hd, _, _, hlen, _, hr⟩
        · subst hd
          refine ⟨rfl, fun _ => ⟨?_, ?_⟩, by simp [hr], fun _ => rfl⟩ <;>
            (dsimp only at *; omega)
        · subst hd
          refine ⟨rfl, fun _ => ⟨?_, ?_⟩, ?_, fun _ => rfl⟩
          · dsimp only at *; omega
          · dsimp only at *; omega
          · rcases hr with hr | hr | hr | hr <;> simp [hr]
      · rename_i i d3 hdi
        simp only [Option.some.injEq, Prod.mk.injEq] at h
        obtain ⟨⟨hv, he⟩, hd⟩ := h
        subst hv he hd
        rcases decodeInt64_result _ _ _ _ _ hdi with ⟨hr, _⟩ | ⟨hd, _, _, hlen, _, _⟩
        · exact Option.noConfusion hr
        · subst hd
          refine ⟨rfl, fun _ => ⟨?_, ?_⟩, Or.inl rfl, fun hc => absurd rfl hc⟩ <;>
            (dsimp only at *; omega)

/-- When `DecodeUint` returns: the data is untouched, the cursor invariant is
kept, the error is `nil`, `ErrEOB`, `ErrType` or one of the varint reader, and an
error comes with the zero value. -/
theorem DecodeUint_result (d d1 : Decoder) (v : Nat) (err : Option Err)
    (h : d.DecodeUint = some ((v, err), d1)) :
    d1.data = d.data ∧ (d.Inv → d1.Inv) ∧
    (err = none ∨ err = some Err.ErrEOB ∨ err = some Err.ErrType ∨ err = some Err.EOF ∨
      err = some Err.ErrUnexpectedEOF ∨ err = some Err.errOverflow) ∧
    (err ≠ none → v = 0) := by
  unfold DecodeUint at h
  split at h
  · exact Option.noConfusion h
  · rename_i e d2 hct
    simp only [Option.some.injEq, Prod.mk.injEq] at h
    obtain ⟨⟨hv, he⟩, hd⟩ := h
    subst hv he hd
    rcases checkType_result _ _ _ _ hct with ⟨hr, hd, _⟩ | ⟨hr, hd, _⟩ | ⟨hr, _⟩
    · subst hd; simp [hr]
    · subst hd; simp [hr]
    · exact Option.noConfusion hr
  · rename_i d2 hct
    rcases checkType_result _ _ _ _ hct with ⟨hr, _⟩ | ⟨hr, _⟩ | ⟨_, hd2, h0, hlt, _⟩
    · exact Option.noConfusion hr
    · exact Option.noConfusion hr
    · subst hd2
      split at h
      · exact Option.noConfusion h
      · rename_i x e d3 hdi
        simp only [Option.some.injEq, Prod.mk.injEq] at h
        obtain ⟨⟨hv, he⟩, hd⟩ := h
        subst hv he hd
        rcases decodeUint64_result _ _ _ _ _ hdi with ⟨hr, _, hd, _⟩ | ⟨hd, _, _, hlen, _, hr⟩
        · subst hd
          refine ⟨rfl, fun _ => ⟨?_, ?_⟩, by simp [hr], fun _ => rfl⟩ <;>
            (dsimp only at *; omega)
        · subst hd
          refine ⟨rfl, fun _ => ⟨?_, ?_⟩, ?_, fun _ => rfl⟩
          · dsimp only at *; omega
          · dsimp only at *; omega
          · rcases hr with hr | hr | hr | hr <;> simp [hr]
      · rename_i i d3 hdi
        simp only [Option.some.injEq, Prod.mk.injEq] at h
        obtain ⟨⟨hv, he⟩, hd⟩ := h
        subst hv he hd
        rcases decodeUint64_result _ _ _ _ _ hdi with ⟨hr, _⟩ | ⟨hd, _, _, hlen, _, _⟩
        · exact Option.noConfusion hr
        · subst hd
          refine ⟨rfl, fun _ => ⟨?_, ?_⟩, Or.inl rfl, fun hc => absurd rfl hc⟩ <;>
            (dsimp only at *; omega)

/-- When `DecodeUint64` returns: the data is untouched, the cursor invariant is
kept, the error is `nil`, `ErrEOB`, `ErrType` or one of the varint reader, and an
error comes with the zero value. -/
theorem DecodeUint64_result (d d1 : Decoder) (v : Nat) (err : Option Err)
    (h : d.DecodeUint64 = some ((v, err), d1)) :
    d1.data = d.data ∧ (d.Inv → d1.Inv) ∧
    (err = none ∨ err = some Err.ErrEOB ∨ err = some Err.ErrType ∨ err = some Err.EOF ∨
      err = some Err.ErrUnexpectedEOF ∨ err = some Err.errOverflow) ∧
    (err ≠ none → v = 0) := by
  unfold DecodeUint64 at h
  split at h
  · exact Option.noConfusion h
  · rename_i e d2 hct
    simp only [Option.some.injEq, Prod.mk.injEq] at h
    obtain ⟨⟨hv, he⟩, hd⟩ := h
    subst hv he hd
    rcases checkType_result _ _ _ _ hct with ⟨hr, hd, _⟩ | ⟨hr, hd, _⟩ | ⟨hr, _⟩
    · subst hd; simp [hr]
    · subst hd; simp [hr]
    · exact Option.noConfusion hr
  · rename_i d2 hct
    rcases checkType_result _ _ _ _ hct with ⟨hr, _⟩ | ⟨hr, _⟩ | ⟨_, hd2, h0, hlt, _⟩
    · exact Option.noConfusion hr
    · exact Option.noConfusion hr
    · subst hd2
      split at h
      · exact Option.noConfusion h
      · rename_i x e d3 hdi
        simp only [Option.some.injEq, Prod.mk.injEq] at h
        obtain ⟨⟨hv, he⟩, hd⟩ := h
        subst hv he hd
        rcases decodeUint64_result _ _ _ _ _ hdi with ⟨hr, _, hd, _⟩ | ⟨hd, _, _, hlen, _, hr⟩
        · subst hd
          refine ⟨rfl, fun _ => ⟨?_, ?_⟩, by simp [hr], fun _ => rfl⟩ <;>
            (dsimp only at *; omega)
        · subst hd
          refine ⟨rfl, fun _ => ⟨?_, ?_⟩, ?_, fun _ => rfl⟩
          · dsimp only at *; omega
          · dsimp only at *; omega
          · rcases hr with hr | hr | hr | hr <;> simp [hr]
      · rename_i i d3 hdi
        simp only [Option.some.injEq, Prod.mk.injEq] at h
        obtain ⟨⟨hv, he⟩, hd⟩ := h
        subst hv he hd
        rcases decodeUint64_result _ _ _ _ _ hdi with ⟨hr, _⟩ | ⟨hd, _, _, hlen, _, _⟩
        · exact Option.noConfusion hr
        · subst hd
          refine ⟨rfl, fun _ => ⟨?_, ?_⟩, Or.inl rfl, fun hc => absurd rfl hc⟩ <;>
            (dsimp only at *; omega)

/-- When `DecodeUint32` returns: the data is untouched, the cursor invariant is
kept, the error is `nil`, `ErrEOB`, `ErrType` or one of the varint reader, and an
error comes with the zero value. -/
theorem DecodeUint32_result (d d1 : Decoder) (v : Nat) (err : Option Err)
    (h : d.DecodeUint32 = some ((v, err), d1)) :
    d1.data = d.data ∧ (d.Inv → d1.Inv) ∧
    (err = none ∨ err = some Err.ErrEOB ∨ err = some Err.ErrType ∨ err = some Err.EOF ∨
      err = some Err.ErrUnexpectedEOF ∨ err = some Err.errOverflow) ∧
    (err ≠ none → v = 0) := by
  unfold DecodeUint32 at h
  split at h
  · exact Option.noConfusion h
  · rename_i e d2 hct
    simp only [Option.some.injEq, Prod.mk.injEq] at h
    obtain ⟨⟨hv, he⟩, hd⟩ := h
    subst hv he hd
    rcases checkType_result _ _ _ _ hct with ⟨hr, hd, _⟩ | ⟨hr, hd, _⟩ | ⟨hr, _⟩
    · subst hd; simp [hr]
    · subst hd; simp [hr]
    · exact Option.noConfusion hr
  · rename_i d2 hct
    rcases checkType_result _ _ _ _ hct with ⟨hr, _⟩ | ⟨hr, _⟩ | ⟨_, hd2, h0, hlt, _⟩
    · exact Option.noConfusion hr
    · exact Option.noConfusion hr
    · subst hd2
      split at h
      · exact Option.noConfusion h
      · rename_i x e d3 hdi
        simp only [Option.some.injEq, Prod.mk.injEq] at h
        obtain ⟨⟨hv, he⟩, hd⟩ := h
        subst hv he hd
        rcases decodeUint64_result _ _ _ _ _ hdi with ⟨hr, _, hd, _⟩ | ⟨hd, _, _, hlen, _, hr⟩
        · subst hd
          refine ⟨rfl, fun _ => ⟨?_, ?_⟩, by simp [hr], fun _ => rfl⟩ <;>
            (dsimp only at *; omega)
        · subst hd
          refine ⟨rfl, fun _ => ⟨?_, ?_⟩, ?_, fun _ => rfl⟩
          · dsimp only at *; omega
          · dsimp only at *; omega
          · rcases hr with hr | hr | hr | hr <;> simp [hr]
      · rename_i i d3 hdi
        simp only [Option.some.injEq, Prod.mk.injEq] at h
        obtain ⟨⟨hv, he⟩, hd⟩ := h
        subst hv he hd
        rcases decodeUint64_result _ _ _ _ _ hdi with ⟨hr, _⟩ | ⟨hd, _, _, hlen, _, _⟩
        · exact Option.noConfusion hr
        · subst hd
          refine ⟨rfl, fun _ => ⟨?_, ?_⟩, Or.inl rfl, fun hc => absurd rfl hc⟩ <;>
            (dsimp only at *; omega)

/-- When `DecodeUint16` returns: the data is untouched, the cursor invariant is
kept, the error is `nil`, `ErrEOB`, `ErrType` or one of the varint reader, and an
error comes with the zero value. -/
theorem DecodeUint16_result (d d1 : Decoder) (v : Nat) (err : Option Err)
    (h : d.DecodeUint16 = some ((v, err), d1)) :
    d1.data = d.data ∧ (d.Inv → d1.Inv) ∧
    (err = none ∨ err = some Err.ErrEOB ∨ err = some Err.ErrType ∨ err = some Err.EOF ∨
      err = some Err.ErrUnexpectedEOF ∨ err = some Err.errOverflow) ∧
    (err ≠ none → v = 0) := by
  unfold DecodeUint16 at h
  split at h
  · exact Option.noConfusion h
  · rename_i e d2 hct
    simp only [Option.some.injEq, Prod.mk.injEq] at h
    obtain ⟨⟨hv, he⟩, hd⟩ := h
    subst hv he hd
    rcases checkType_result _ _ _ _ hct with ⟨hr, hd, _⟩ | ⟨hr, hd, _⟩ | ⟨hr, _⟩
    · subst hd; simp [hr]
    · subst hd; simp [hr]
    · exact Option.noConfusion hr
  · rename_i d2 hct
    rcases checkType_result _ _ _ _ hct with ⟨hr, _⟩ | ⟨hr, _⟩ | ⟨_, hd2, h0, hlt, _⟩
    · exact Option.noConfusion hr
    · exact Option.noConfusion hr
    · subst hd2
      split at h
      · exact Option.noConfusion h
      · rename_i x e d3 hdi
        simp only [Option.some.injEq, Prod.mk.injEq] at h
        obtain ⟨⟨hv, he⟩, hd⟩ := h
        subst hv he hd
        rcases decodeUint64_result _ _ _ _ _ hdi with ⟨hr, _, hd, _⟩ | ⟨hd, _, _, hlen, _, hr⟩
        · subst hd
          refine ⟨rfl, fun _ => ⟨?_, ?_⟩, by simp [hr], fun _ => rfl⟩ <;>
            (dsimp only at *; omega)
        · subst hd
          refine ⟨rfl, fun _ => ⟨?_, ?_⟩, ?_, fun _ => rfl⟩
          · dsimp only at *; omega
          · dsimp only at *; omega
          · rcases hr with hr | hr | hr | hr <;> simp [hr]
      · rename_i i d3 hdi
        simp only [Option.some.injEq, Prod.mk.injEq] at h
        obtain ⟨⟨hv, he⟩, hd⟩ := h
        subst hv he hd
        rcases decodeUint64_result _ _ _ _ _ hdi with ⟨hr, _⟩ | ⟨hd, _, _, hlen, _, _⟩
        · exact Option.noConfusion hr
        · subst hd
          refine ⟨rfl, fun _ => ⟨?_, ?_⟩, Or.inl rfl, fun hc => absurd rfl hc⟩ <;>
            (dsimp only at *; omega)

/-- When `DecodeUint8` returns: the data is untouched, the cursor invariant is
kept, the error is `nil`, `ErrEOB`, `ErrType` or one of the varint reader, and an
error comes with the zero value. -/
theorem DecodeUint8_result (d d1 : Decoder) (v : Nat) (err : Option Err)
    (h : d.DecodeUint8 = some ((v, err), d1)) :
    d1.data = d.data ∧ (d.Inv → d1.Inv) ∧
    (err = none ∨ err = some Err.ErrEOB ∨ err = some Err.ErrType ∨ err = some Err.EOF ∨
      err = some Err.ErrUnexpectedEOF ∨ err = some Err.errOverflow) ∧
    (err ≠ none → v = 0) := by
  unfold DecodeUint8 at h
  split at h
  · exact Option.noConfusion h
  · rename_i e d2 hct
    simp only [Option.some.injEq, Prod.mk.injEq] at h
    obtain ⟨⟨hv, he⟩, hd⟩ := h
    subst hv he hd
    rcases checkType_result _ _ _ _ hct with ⟨hr, hd, _⟩ | ⟨hr, hd, _⟩ | ⟨hr, _⟩
    · subst hd; simp [hr]
    · subst hd; simp [hr]
    · exact Option.noConfusion hr
  · rename_i d2 hct
    rcases checkType_result _ _ _ _ hct with ⟨hr, _⟩ | ⟨hr, _⟩ | ⟨_, hd2, h0, hlt, _⟩
    · exact Option.noConfusion hr
    · exact Option.noConfusion hr
    · subst hd2
      split at h
      · exact Option.noConfusion h
      · rename_i x e d3 hdi
        simp only [Option.some.injEq, Prod.mk.injEq] at h
        obtain ⟨⟨hv, he⟩, hd⟩ := h
        subst hv he hd
        rcases decodeUint64_result _ _ _ _ _ hdi with ⟨hr, _, hd, _⟩ | ⟨hd, _, _, hlen, _, hr⟩
        · subst hd
          refine ⟨rfl, fun _ => ⟨?_, ?_⟩, by simp [hr], fun _ => rfl⟩ <;>
            (dsimp only at *; omega)
        · subst hd
          refine ⟨rfl, fun _ => ⟨?_, ?_⟩, ?_, fun _ => rfl⟩
          · dsimp only at *; omega
          · dsimp only at *; omega
          · rcases hr with hr | hr | hr | hr <;> simp [hr]
      · rename_i i d3 hdi
        simp only [Option.some.injEq, Prod.mk.injEq] at h
        obtain ⟨⟨hv, he⟩, hd⟩ := h
        subst hv he hd
        rcases decodeUint64_result _ _ _ _ _ hdi with ⟨hr, _⟩ | ⟨hd, _, _, hlen, _, _⟩
        · exact Option.noConfusion hr
        · subst hd
          refine ⟨rfl, fun _ => ⟨?_, ?_⟩, Or.inl rfl, fun hc => absurd rfl hc⟩ <;>
            (dsimp only at *; omega)

/-- When `DecodeBool` returns: the data is untouched, the cursor invariant is
kept, the error is `nil`, `ErrEOB`, `ErrType` or one of the varint reader, and an
error comes with the zero value. -/
theorem DecodeBool_result (d d1 : Decoder) (v : Bool) (err : Option Err)
    (h : d.DecodeBool = some ((v, err), d1)) :
    d1.data = d.data ∧ (d.Inv → d1.Inv) ∧
    (err = none ∨ err = some Err.ErrEOB ∨ err = some Err.ErrType ∨ err = some Err.EOF ∨
      err = some Err.ErrUnexpectedEOF ∨ err = some Err.errOverflow) ∧
    (err ≠ none → v = false) := by
  unfold DecodeBool at h
  split at h
  · exact Option.noConfusion h
  · rename_i e d2 hct
    simp only [Option.some.injEq, Prod.mk.injEq] at h
    obtain ⟨⟨hv, he⟩, hd⟩ := h
    subst hv he hd
    rcases checkType_result _ _ _ _ hct with ⟨hr, hd, _⟩ | ⟨hr, hd, _⟩ | ⟨hr, _⟩
    · subst hd; simp [hr]
    · subst hd; simp [hr]
    · exact Option.noConfusion hr
  · rename_i d2 hct
    rcases checkType_result _ _ _ _ hct with ⟨hr, _⟩ | ⟨hr, _⟩ | ⟨_, hd2, h0, hlt, _⟩
    · exact Option.noConfusion hr
    · exact Option.noConfusion hr
    · subst hd2
      split at h
      · simp only [Option.some.injEq, Prod.mk.injEq] at h
        obtain ⟨⟨hv, he⟩, hd⟩ := h
        subst hv he hd
        refine ⟨rfl, fun _ => ⟨?_, ?_⟩, by simp, fun _ => rfl⟩ <;>
          (dsimp only at *; omega)
      · split at h
        · exact Option.noConfusion h
        · rename_i bb d3 hg
          obtain ⟨_, hlt2, _, hd3⟩ := getByte_result _ _ _ hg
          simp only [Option.some.injEq, Prod.mk.injEq] at h
          obtain ⟨⟨hv, he⟩, hd⟩ := h
          subst hv he hd hd3
          refine ⟨rfl, fun _ => ⟨?_, ?_⟩, Or.inl rfl, fun hc => absurd rfl hc⟩ <;>
            (dsimp only at *; omega)

/-- When `DecodeFloat64` returns: the data is untouched, the cursor invariant is
kept, the error is `nil`, `ErrEOB`, `ErrType` or one of the varint reader, and an
error comes with the zero value. -/
theorem DecodeFloat64_result (d d1 : Decoder) (v : Nat) (err : Option Err)
    (h : d.DecodeFloat64 = some ((v, err), d1)) :
    d1.data = d.data ∧ (d.Inv → d1.Inv) ∧
    (err = none ∨ err = some Err.ErrEOB ∨ err = some Err.ErrType ∨ err = some Err.EOF ∨
      err = some Err.ErrUnexpectedEOF ∨ err = some Err.errOverflow) ∧
    (err ≠ none → v = 0) := by
  unfold DecodeFloat64 at h
  split at h
  · exact Option.noConfusion h
  · rename_i e d2 hct
    simp only [Option.some.injEq, Prod.mk.injEq] at h
    obtain ⟨⟨hv, he⟩, hd⟩ := h
    subst hv he hd
    rcases checkType_result _ _ _ _ hct with ⟨hr, hd, _⟩ | ⟨hr, hd, _⟩ | ⟨hr, _⟩
    · subst hd; simp [hr]
    · subst hd; simp [hr]
    · exact Option.noConfusion hr
  · rename_i d2 hct
    rcases checkType_result _ _ _ _ hct with ⟨hr, _⟩ | ⟨hr, _⟩ | ⟨_, hd2, h0, hlt, _⟩
    · exact Option.noConfusion hr
    · exact Option.noConfusion hr
    · subst hd2
      split at h
      · simp only [Option.some.injEq, Prod.mk.injEq] at h
        obtain ⟨⟨hv, he⟩, hd⟩ := h
        subst hv he hd
        refine ⟨rfl, fun _ => ⟨?_, ?_⟩, by simp, fun _ => rfl⟩ <;>
          (dsimp only at *; omega)
      · split at h
        · exact Option.noConfusion h
        · rename_i x e d3 hdn
          simp only [Option.some.injEq, Prod.mk.injEq] at h
          obtain ⟨⟨hv, he⟩, hd⟩ := h
          subst hv he hd
          rcases decodeUint64_result _ _ _ _ _ hdn with ⟨hr, _, hd, _⟩ | ⟨hd, _, _, hlen, _, hr⟩
          · subst hd
            refine ⟨rfl, fun _ => ⟨?_, ?_⟩, by simp [hr], fun _ => rfl⟩ <;>
              (dsimp only at *; omega)
          · subst hd
            refine ⟨rfl, fun _ => ⟨?_, ?_⟩, ?_, fun _ => rfl⟩
            · dsimp only at *; omega
            · dsimp only at *; omega
            · rcases hr with hr | hr | hr | hr <;> simp [hr]
        · rename_i n d3 hdn
          rcases decodeUint64_result _ _ _ _ _ hdn with ⟨hr, _⟩ | ⟨hd3, _, _, hlen3, _, _⟩
          · exact Option.noConfusion hr
          · subst hd3
            split at h
            · exact Option.noConfusion h
            · rename_i x e d4 hdi
              simp only [Option.some.injEq, Prod.mk.injEq] at h
              obtain ⟨⟨hv, he⟩, hd⟩ := h
              subst hv he hd
              rcases decodeUint64_result _ _ _ _ _ hdi with
                ⟨hr, _, hd, _⟩ | ⟨hd, _, _, hlen, _, hr⟩
              · subst hd
                refine ⟨rfl, fun _ => ⟨?_, ?_⟩, by simp [hr], fun _ => rfl⟩ <;>
                  (dsimp only at *; omega)
              · subst hd
                refine ⟨rfl, fun _ => ⟨?_, ?_⟩, ?_, fun _ => rfl⟩
                · dsimp only at *; omega
                · dsimp only at *; omega
                · rcases hr with hr | hr | hr | hr <;> simp [hr]
            · rename_i i d4 hdi
              simp only [Option.some.injEq, Prod.mk.injEq] at h
              obtain ⟨⟨hv, he⟩, hd⟩ := h
              subst hv he hd
              rcases decodeUint64_result _ _ _ _ _ hdi with ⟨hr, _⟩ | ⟨hd, _, _, hlen, _, _⟩
              · exact Option.noConfusion hr
              · subst hd
                refine ⟨rfl, fun _ => ⟨?_, ?_⟩, Or.inl rfl, fun hc => absurd rfl hc⟩ <;>
                  (dsimp only at *; omega)

/-- When `DecodeFloat32` returns: the data is untouched, the cursor invariant is
kept, the error is `nil`, `ErrEOB`, `ErrType` or one of the varint reader, and an
error comes with the zero value. -/
theorem DecodeFloat32_result (d d1 : Decoder) (v : Nat) (err : Option Err)
    (h : d.DecodeFloat32 = some ((v, err), d1)) :
    d1.data = d.data ∧ (d.Inv → d1.Inv) ∧
    (err = none ∨ err = some Err.ErrEOB ∨ err = some Err.ErrType ∨ err = some Err.EOF ∨
      err = some Err.ErrUnexpectedEOF ∨ err = some Err.errOverflow) ∧
    (err ≠ none → v = 0) := by
  unfold DecodeFloat32 at h
  split at h
  · exact Option.noConfusion h
  · rename_i e d2 hct
    simp only [Option.some.injEq, Prod.mk.injEq] at h
    obtain ⟨⟨hv, he⟩, hd⟩ := h
    subst hv he hd
    rcases checkType_result _ _ _ _ hct with ⟨hr, hd, _⟩ | ⟨hr, hd, _⟩ | ⟨hr, _⟩
    · subst hd; simp [hr]
    · subst hd; simp [hr]
    · exact Option.noConfusion hr
  · rename_i d2 hct
    rcases checkType_result _ _ _ _ hct with ⟨hr, _⟩ | ⟨hr, _⟩ | ⟨_, hd2, h0, hlt, _⟩
    · exact Option.noConfusion hr
    · exact Option.noConfusion hr
    · subst hd2
      split at h
      · simp only [Option.some.injEq, Prod.mk.injEq] at h
        obtain ⟨⟨hv, he⟩, hd⟩ := h
        subst hv he hd
        refine ⟨rfl, fun _ => ⟨?_, ?_⟩, by simp, fun _ => rfl⟩ <;>
          (dsimp only at *; omega)
      · split at h
        · exact Option.noConfusion h
        · rename_i x e d3 hdn
          simp only [Option.some.injEq, Prod.mk.injEq] at h
          obtain ⟨⟨hv, he⟩, hd⟩ := h
          subst hv he hd
          rcases decodeUint64_result _ _ _ _ _ hdn with ⟨hr, _, hd, _⟩ | ⟨hd, _, _, hlen, _, hr⟩
          · subst hd
            refine ⟨rfl, fun _ => ⟨?_, ?_⟩, by simp [hr], fun _ => rfl⟩ <;>
              (dsimp only at *; omega)
          · subst hd
            refine ⟨rfl, fun _ => ⟨?_, ?_⟩, ?_, fun _ => rfl⟩
            · dsimp only at *; omega
            · dsimp only at *; omega
            · rcases hr with hr | hr | hr | hr <;> simp [hr]
        · rename_i n d3 hdn
          rcases decodeUint64_result _ _ _ _ _ hdn with ⟨hr, _⟩ | ⟨hd3, _, _, hlen3, _, _⟩
          · exact Option.noConfusion hr
          · subst hd3
            split at h
            · exact Option.noConfusion h
            · rename_i x e d4 hdi
              simp only [Option.some.injEq, Prod.mk.injEq] at h
              obtain ⟨⟨hv, he⟩, hd⟩ := h
              subst hv he hd
              rcases decodeUint64_result _ _ _ _ _ hdi with
                ⟨hr, _, hd, _⟩ | ⟨hd, _, _, hlen, _, hr⟩
              · subst hd
                refine ⟨rfl, fun _ => ⟨?_, ?_⟩, by simp [hr], fun _ => rfl⟩ <;>
                  (dsimp only at *; omega)
              · subst hd
                refine ⟨rfl, fun _ => ⟨?_, ?_⟩, ?_, fun _ => rfl⟩
                · dsimp only at *; omega
                · dsimp only at *; omega
                · rcases hr with hr | hr | hr | hr <;> simp [hr]
            · rename_i i d4 hdi
              simp only [Option.some.injEq, Prod.mk.injEq] at h
              obtain ⟨⟨hv, he⟩, hd⟩ := h
              subst hv he hd
              rcases decodeUint64_result _ _ _ _ _ hdi with ⟨hr, _⟩ | ⟨hd, _, _, hlen, _, _⟩
              · exact Option.noConfusion hr
              · subst hd
                refine ⟨rfl, fun _ => ⟨?_, ?_⟩, Or.inl rfl, fun hc => absurd rfl hc⟩ <;>
                  (dsimp only at *; omega)

/-- When `DecodeString` returns: the data is untouched, the cursor invariant is
kept, the error is `nil`, `ErrEOB`, `ErrType` or one of the varint reader, and an
error comes with the zero value. -/
theorem DecodeString_result (d d1 : Decoder) (v : List Byte) (err : Option Err)
    (h : d.DecodeString = some ((v, err), d1)) :
    d1.data = d.data ∧ (d.Inv → d1.Inv) ∧
    (err = none ∨ err = some Err.ErrEOB ∨ err = some Err.ErrType ∨ err = some Err.EOF ∨
      err = some Err.ErrUnexpectedEOF ∨ err = some Err.errOverflow) ∧
    (err ≠ none → v = []) := by
  unfold DecodeString at h
  split at h
  · exact Option.noConfusion h
  · rename_i e d2 hct
    simp only [Option.some.injEq, Prod.mk.injEq] at h
    obtain ⟨⟨hv, he⟩, hd⟩ := h
    subst hv he hd
    rcases checkType_result _ _ _ _ hct with ⟨hr, hd, _⟩ | ⟨hr, hd, _⟩ | ⟨hr, _⟩
    · subst hd; simp [hr]
    · subst hd; simp [hr]
    · exact Option.noConfusion hr
  · rename_i d2 hct
    rcases checkType_result _ _ _ _ hct with ⟨hr, _⟩ | ⟨hr, _⟩ | ⟨_, hd2, h0, hlt, _⟩
    · exact Option.noConfusion hr
    · exact Option.noConfusion hr
    · subst hd2
      split at h
      · simp only [Option.some.injEq, Prod.mk.injEq] at h
        obtain ⟨⟨hv, he⟩, hd⟩ := h
        subst hv he hd
        refine ⟨rfl, fun _ => ⟨?_, ?_⟩, by simp, fun _ => rfl⟩ <;>
          (dsimp only at *; omega)
      · split at h
        · exact Option.noConfusion h
        · rename_i x e d3 hdn
          simp only [Option.some.injEq, Prod.mk.injEq] at h
          obtain ⟨⟨hv, he⟩, hd⟩ := h
          subst hv he hd
          rcases decodeInt64_result _ _ _ _ _ hdn with ⟨hr, _, hd, _⟩ | ⟨hd, _, _, hlen, _, hr⟩
          · subst hd
            refine ⟨rfl, fun _ => ⟨?_, ?_⟩, by simp [hr], fun _ => rfl⟩ <;>
              (dsimp only at *; omega)
          · subst hd
            refine ⟨rfl, fun _ => ⟨?_, ?_⟩, ?_, fun _ => rfl⟩
            · dsimp only at *; omega
            · dsimp only at *; omega
            · rcases hr with hr | hr | hr | hr <;> simp [hr]
        · rename_i l d3 hdn
          rcases decodeInt64_result _ _ _ _ _ hdn with ⟨hr, _⟩ | ⟨hd3, _, _, hlen3, _, _⟩
          · exact Option.noConfusion hr
          · subst hd3
            split at h
            · simp only [Option.some.injEq, Prod.mk.injEq] at h
              obtain ⟨⟨hv, he⟩, hd⟩ := h
              subst hv he hd
              refine ⟨rfl, fun _ => ⟨?_, ?_⟩, by simp, fun _ => rfl⟩ <;>
                (dsimp only at *; omega)
            · split at h
              · simp only [Option.some.injEq, Prod.mk.injEq] at h
                obtain ⟨⟨hv, he⟩, hd⟩ := h
                subst hv he hd
                refine ⟨rfl, fun _ => ⟨?_, ?_⟩, Or.inl rfl, fun hc => absurd rfl hc⟩ <;>
                  (dsimp only at *; omega)
              · split at h
                · exact Option.noConfusion h
                · rename_i bs d4 hg
                  obtain ⟨_, _, hlen4, _, hd4⟩ := getBytes_result _ _ _ _ hg
                  simp only [Option.some.injEq, Prod.mk.injEq] at h
                  obtain ⟨⟨hv, he⟩, hd⟩ := h
                  subst hv he hd hd4
                  refine ⟨rfl, fun _ => ⟨?_, ?_⟩, Or.inl rfl, fun hc => absurd rfl hc⟩ <;>
                    (dsimp only at *; omega)

/-- When `DecodeData` returns: the data is untouched, the cursor invariant is
kept, the error is `nil`, `ErrEOB`, `ErrType` or one of the varint reader, and an
error comes with the zero value. -/
theorem DecodeData_result (d d1 : Decoder) (v : List Byte) (err : Option Err)
    (h : d.DecodeData = some ((v, err), d1)) :
    d1.data = d.data ∧ (d.Inv → d1.Inv) ∧
    (err = none ∨ err = some Err.ErrEOB ∨ err = some Err.ErrType ∨ err = some Err.EOF ∨
      err = some Err.ErrUnexpectedEOF ∨ err = some Err.errOverflow) ∧
    (err ≠ none → v = []) := by
  unfold DecodeData at h
  split at h
  · exact Option.noConfusion h
  · rename_i e d2 hct
    simp only [Option.some.injEq, Prod.mk.injEq] at h
    obtain ⟨⟨hv, he⟩, hd⟩ := h
    subst hv he hd
    rcases checkType_result _ _ _ _ hct with ⟨hr, hd, _⟩ | ⟨hr, hd, _⟩ | ⟨hr, _⟩
    · subst hd; simp [hr]
    · subst hd; simp [hr]
    · exact Option.noConfusion hr
  · rename_i d2 hct
    rcases checkType_result _ _ _ _ hct with ⟨hr, _⟩ | ⟨hr, _⟩ | ⟨_, hd2, h0, hlt, _⟩
    · exact Option.noConfusion hr
    · exact Option.noConfusion hr
    · subst hd2
      split at h
      · exact Option.noConfusion h
      · rename_i x e d3 hdn
        simp only [Option.some.injEq, Prod.mk.injEq] at h
        obtain ⟨⟨hv, he⟩, hd⟩ := h
        subst hv he hd
        rcases decodeInt64_result _ _ _ _ _ hdn with ⟨hr, _, hd, _⟩ | ⟨hd, _, _, hlen, _, hr⟩
        · subst hd
          refine ⟨rfl, fun _ => ⟨?_, ?_⟩, by simp [hr], fun _ => rfl⟩ <;>
            (dsimp only at *; omega)
        · subst hd
          refine ⟨rfl, fun _ => ⟨?_, ?_⟩, ?_, fun _ => rfl⟩
          · dsimp only at *; omega
          · dsimp only at *; omega
          · rcases hr with hr | hr | hr | hr <;> simp [hr]
      · rename_i l d3 hdn
        rcases decodeInt64_result _ _ _ _ _ hdn with ⟨hr, _⟩ | ⟨hd3, _, _, hlen3, _, _⟩
        · exact Option.noConfusion hr
        · subst hd3
          split at h
          · simp only [Option.some.injEq, Prod.mk.injEq] at h
            obtain ⟨⟨hv, he⟩, hd⟩ := h
            subst hv he hd
            refine ⟨rfl, fun _ => ⟨?_, ?_⟩, by simp, fun _ => rfl⟩ <;>
              (dsimp only at *; omega)
          · split at h
            · simp only [Option.some.injEq, Prod.mk.injEq] at h
              obtain ⟨⟨hv, he⟩, hd⟩ := h
              subst hv he hd
              refine ⟨rfl, fun _ => ⟨?_, ?_⟩, Or.inl rfl, fun hc => absurd rfl hc⟩ <;>
                (dsimp only at *; omega)
            · split at h
              · exact Option.noConfusion h
              · rename_i bs d4 hg
                obtain ⟨_, _, hlen4, _, hd4⟩ := getBytes_result _ _ _ _ hg
                simp only [Option.some.injEq, Prod.mk.injEq] at h
                obtain ⟨⟨hv, he⟩, hd⟩ := h
                subst hv he hd hd4
                refine ⟨rfl, fun _ => ⟨?_, ?_⟩, Or.inl rfl, fun hc => absurd rfl hc⟩ <;>
                  (dsimp only at *; omega)

/-- When `Decode` of any kind returns: the data is untouched, the cursor
invariant is kept, the error is `nil`, `ErrEOB`, `ErrType` or one of the varint
reader, and an error comes with the zero value of the kind. -/
theorem Decode_result (d d1 : Decoder) (k : Kind) (v : Value) (err : Option Err)
    (h : d.Decode k = some ((v, err), d1)) :
    d1.data = d.data ∧ (d.Inv → d1.Inv) ∧
    (err = none ∨ err = some Err.ErrEOB ∨ err = some Err.ErrType ∨ err = some Err.EOF ∨
      err = some Err.ErrUnexpectedEOF ∨ err = some Err.errOverflow) ∧
    (err ≠ none → v = k.zero) := by
  cases k with
  | bool =>
    simp only [Decode] at h
    unfold asValue at h
    split at h
    · exact Option.noConfusion h
    · rename_i a e d2 hdec
      simp only [Option.some.injEq, Prod.mk.injEq] at h
      obtain ⟨⟨hv, he⟩, hd⟩ := h
      subst hv he hd
      obtain ⟨h1, h2, h3, h4⟩ := DecodeBool_result _ _ _ _ hdec
      exact ⟨h1, h2, h3, fun hc => by rw [h4 hc]; rfl⟩
  | int =>
    simp only [Decode] at h
    unfold asValue at h
    split at h
    · exact Option.noConfusion h
    · rename_i a e d2 hdec
      simp only [Option.some.injEq, Prod.mk.injEq] at h
      obtain ⟨⟨hv, he⟩, hd⟩ := h
      subst hv he hd
      obtain ⟨h1, h2, h3, h4⟩ := DecodeInt_result _ _ _ _ hdec
      exact ⟨h1, h2, h3, fun hc => by rw [h4 hc]; rfl⟩
  | int64 =>
    simp only [Decode] at h
    unfold asValue at h
    split at h
    · exact Option.noConfusion h
    · rename_i a e d2 hdec
      simp only [Option.some.injEq, Prod.mk.injEq] at h
      obtain ⟨⟨hv, he⟩, hd⟩ := h
      subst hv he hd
      obtain ⟨h1, h2, h3, h4⟩ := DecodeInt64_result _ _ _ _ hdec
      exact ⟨h1, h2, h3, fun hc => by rw [h4 hc]; rfl⟩
  | int32 =>
    simp only [Decode] at h
    unfold asValue at h
    split at h
    · exact Option.noConfusion h
    · rename_i a e d2 hdec
      simp only [Option.some.injEq, Prod.mk.injEq] at h
      obtain ⟨⟨hv, he⟩, hd⟩ := h
      subst hv he hd
      obtain ⟨h1, h2, h3, h4⟩ := DecodeInt32_result _ _ _ _ hdec
      exact ⟨h1, h2, h3, fun hc => by rw [h4 hc]; rfl⟩
  | int16 =>
    simp only [Decode] at h
    unfold asValue at h
    split at h
    · exact Option.noConfusion h
    · rename_i a e d2 hdec
      simp only [Option.some.injEq, Prod.mk.injEq] at h
      obtain ⟨⟨hv, he⟩, hd⟩ := h
      subst hv he hd
      obtain ⟨h1, h2, h3, h4⟩ := DecodeInt16_result _ _ _ _ hdec
      exact ⟨h1, h2, h3, fun hc => by rw [h4 hc]; rfl⟩
  | int8 =>
    simp only [Decode] at h
    unfold asValue at h
    split at h
    · exact Option.noConfusion h
    · rename_i a e d2 hdec
      simp only [Option.some.injEq, Prod.mk.injEq] at h
      obtain ⟨⟨hv, he⟩, hd⟩ := h
      subst hv he hd
      obtain ⟨h1, h2, h3, h4⟩ := DecodeInt8_result _ _ _ _ hdec
      exact ⟨h1, h2, h3, fun hc => by rw [h4 hc]; rfl⟩
  | uint =>
    simp only [Decode] at h
    unfold asValue at h
    split at h
    · exact Option.noConfusion h
    · rename_i a e d2 hdec
      simp only [Option.some.injEq, Prod.mk.injEq] at h
      obtain ⟨⟨hv, he⟩, hd⟩ := h
      subst hv he hd
      obtain ⟨h1, h2, h3, h4⟩ := DecodeUint_result _ _ _ _ hdec
      exact ⟨h1, h2, h3, fun hc => by rw [h4 hc]; rfl⟩
  | uint64 =>
    simp only [Decode] at h
    unfold asValue at h
    split at h
    · exact Option.noConfusion h
    · rename_i a e d2 hdec
      simp only [Option.some.injEq, Prod.mk.injEq] at h
      obtain ⟨⟨hv, he⟩, hd⟩ := h
      subst hv he hd
      obtain ⟨h1, h2, h3, h4⟩ := DecodeUint64_result _ _ _ _ hdec
      exact ⟨h1, h2, h3, fun hc => by rw [h4 hc]; rfl⟩
  | uint32 =>
    simp only [Decode] at h
    unfold asValue at h
    split at h
    · exact Option.noConfusion h
    · rename_i a e d2 hdec
      simp only [Option.some.injEq, Prod.mk.injEq] at h
      obtain ⟨⟨hv, he⟩, hd⟩ := h
      subst hv he hd
      obtain ⟨h1, h2, h3, h4⟩ := DecodeUint32_result _ _ _ _ hdec
      exact ⟨h1, h2, h3, fun hc => by rw [h4 hc]; rfl⟩
  | uint16 =>
    simp only [Decode] at h
    unfold asValue at h
    split at h
    · exact Option.noConfusion h
    · rename_i a e d2 hdec
      simp only [Option.some.injEq, Prod.mk.injEq] at h
      obtain ⟨⟨hv, he⟩, hd⟩ := h
      subst hv he hd
      obtain ⟨h1, h2, h3, h4⟩ := DecodeUint16_result _ _ _ _ hdec
      exact ⟨h1, h2, h3, fun hc => by rw [h4 hc]; rfl⟩
  | uint8 =>
    simp only [Decode] at h
    unfold asValue at h
    split at h
    · exact Option.noConfusion h
    · rename_i a e d2 hdec
      simp only [Option.some.injEq, Prod.mk.injEq] at h
      obtain ⟨⟨hv, he⟩, hd⟩ := h
      subst hv he hd
      obtain ⟨h1, h2, h3, h4⟩ := DecodeUint8_result _ _ _ _ hdec
      exact ⟨h1, h2, h3, fun hc => by rw [h4 hc]; rfl⟩
  | float64 =>
    simp only [Decode] at h
    unfold asValue at h
    split at h
    · exact Option.noConfusion h
    · rename_i a e d2 hdec
      simp only [Option.some.injEq, Prod.mk.injEq] at h
      obtain ⟨⟨hv, he⟩, hd⟩ := h
      subst hv he hd
      obtain ⟨h1, h2, h3, h4⟩ := DecodeFloat64_result _ _ _ _ hdec
      exact ⟨h1, h2, h3, fun hc => by rw [h4 hc]; rfl⟩
  | float32 =>
    simp only [Decode] at h
    unfold asValue at h
    split at h
    · exact Option.noConfusion h
    · rename_i a e d2 hdec
      simp only [Option.some.injEq, Prod.mk.injEq] at h
      obtain ⟨⟨hv, he⟩, hd⟩ := h
      subst hv he hd
      obtain ⟨h1, h2, h3, h4⟩ := DecodeFloat32_result _ _ _ _ hdec
      exact ⟨h1, h2, h3, fun hc => by rw [h4 hc]; rfl⟩
  | string =>
    simp only [Decode] at h
    unfold asValue at h
    split at h
    · exact Option.noConfusion h
    · rename_i a e d2 hdec
      simp only [Option.some.injEq, Prod.mk.injEq] at h
      obtain ⟨⟨hv, he⟩, hd⟩ := h
      subst hv he hd
      obtain ⟨h1, h2, h3, h4⟩ := DecodeString_result _ _ _ _ hdec
      exact ⟨h1, h2, h3, fun hc => by rw [h4 hc]; rfl⟩
  | data =>
    simp only [Decode] at h
    unfold asValue at h
    split at h
    · exact Option.noConfusion h
    · rename_i a e d2 hdec
      simp only [Option.some.injEq, Prod.mk.injEq] at h
      obtain ⟨⟨hv, he⟩, hd⟩ := h
      subst hv he hd
      obtain ⟨h1, h2, h3, h4⟩ := DecodeData_result _ _ _ _ hdec
      exact ⟨h1, h2, h3, fun hc => by rw [h4 hc]; rfl⟩

/-- C15 (as amended).  For every byte buffer and every cursor position, every
error returned by any `Decode<Kind>` is `ErrEOB`, `ErrType`, or an error of the
varint reader of `encoding/binary` (`io.EOF`, `io.ErrUnexpectedEOF`, overflow),
and it comes with the zero value of the kind. -/
theorem decode_error_kinds (d d1 : Decoder) (k : Kind) (v : Value) (err : Err)
    (h : d.Decode k = some ((v, some err), d1)) :
    (err = Err.ErrEOB ∨ err = Err.ErrType ∨ err = Err.EOF ∨ err = Err.ErrUnexpectedEOF ∨
      err = Err.errOverflow) ∧ v = k.zero := by
  obtain ⟨_, _, h3, h4⟩ := Decode_result _ _ _ _ _ h
  refine ⟨?_, h4 (by simp)⟩
  rcases h3 with h3 | h3 | h3 | h3 | h3 | h3
  · exact Option.noConfusion h3
  · exact Or.inl (Option.some.inj h3)
  · exact Or.inr (Or.inl (Option.some.inj h3))
  · exact Or.inr (Or.inr (Or.inl (Option.some.inj h3)))
  · exact Or.inr (Or.inr (Or.inr (Or.inl (Option.some.inj h3))))
  · exact Or.inr (Or.inr (Or.inr (Or.inr (Option.some.inj h3))))

/-- The float whose length byte is 0: the error is `io.EOF`. -/
theorem decode_error_kinds_witness :
    (NewDecoder [0x0B, 0x00]).Decode Kind.float64 =
      some ((Value.float64 0, some Err.EOF), ⟨[0x0B, 0x00], 2⟩) ∧
    ((Err.EOF = Err.ErrEOB ∨ Err.EOF = Err.ErrType ∨ Err.EOF = Err.EOF ∨
      Err.EOF = Err.ErrUnexpectedEOF ∨ Err.EOF = Err.errOverflow) ∧
      Value.float64 0 = Kind.float64.zero) :=
  ⟨by decide,
    decode_error_kinds (NewDecoder [0x0B, 0x00]) ⟨[0x0B, 0x00], 2⟩ Kind.float64
      (Value.float64 0) Err.EOF (by decide)⟩

/-- The cursor invariant `0 <= offset <= len(data)` holds for a fresh decoder
over any buffer, and every `Decode<Kind>` that returns, with a value or with an
error, from a state that satisfies it leaves a state that satisfies it, over the
same data.  A decode that panics is not covered: see
`decode_panic_breaks_cursor_invariant`. -/
theorem cursor_invariant (data : List Byte) (d d1 : Decoder) (k : Kind)
    (r : Value × Option Err) (hinv : d.Inv) (h : d.Decode k = some (r, d1)) :
    (NewDecoder data).Inv ∧ d1.Inv ∧ d1.data = d.data := by
  obtain ⟨v, err⟩ := r
  obtain ⟨h1, h2, _, _⟩ := Decode_result _ _ _ _ _ h
  refine ⟨⟨le_refl _, ?_⟩, h2 hinv, h1⟩
  simp [NewDecoder]

/-- A string decode that stops with `ErrEOB` after the length window, from
offset 0 of a 10-byte buffer. -/
theorem cursor_invariant_witness :
    (Decoder.mk [0x0D, 0x04, 0, 0, 0, 0, 0, 0, 0, 0x41] 0).Inv ∧
    (Decoder.mk [0x0D, 0x04, 0, 0, 0, 0, 0, 0, 0, 0x41] 0).Decode Kind.string =
      some ((Value.string [], some Err.ErrEOB),
        Decoder.mk [0x0D, 0x04, 0, 0, 0, 0, 0, 0, 0, 0x41] 9) ∧
    ((NewDecoder [0x0D, 0x04, 0, 0, 0, 0, 0, 0, 0, 0x41]).Inv ∧
      (Decoder.mk [0x0D, 0x04, 0, 0, 0, 0, 0, 0, 0, 0x41] 9).Inv ∧
      (Decoder.mk [0x0D, 0x04, 0, 0, 0, 0, 0, 0, 0, 0x41] 9).data =
        (Decoder.mk [0x0D, 0x04, 0, 0, 0, 0, 0, 0, 0, 0x41] 0).data) :=
  ⟨by decide, by decide,
    cursor_invariant [0x0D, 0x04, 0, 0, 0, 0, 0, 0, 0, 0x41]
      (Decoder.mk [0x0D, 0x04, 0, 0, 0, 0, 0, 0, 0, 0x41] 0)
      (Decoder.mk [0x0D, 0x04, 0, 0, 0, 0, 0, 0, 0, 0x41] 9) Kind.string
      (Value.string [], some Err.ErrEOB) (by decide) (by decide)⟩

/-! ## Decoding forwards from a matching tag -/

/-- A matching tag at the cursor: no error, and the offset moves past it. -/
theorem checkType_ok (d : Decoder) (t : Byte) (h0 : 0 ≤ d.offset)
    (htag : d.data[d.offset.toNat]? = some t) :
    d.checkType t = some (none, ⟨d.data, d.offset + 1⟩) := by
  have hlt := getElem?_lt_length _ _ _ htag
  have hcl : d.checkLength 1 = true := by
    simp only [checkLength, decide_eq_true_eq]; omega
  unfold checkType
  simp only [hcl, Bool.not_true, Bool.false_eq_true, if_false, getByte, h0, if_true, htag]
  simp [incrementOffset]

theorem checkLength_eq_true (d : Decoder) (n : Int) (h : d.offset + n ≤ (d.data.length : Int)) :
    d.checkLength n = true := by
  simp only [checkLength, decide_eq_true_eq]; omega

theorem checkLength_eq_false (d : Decoder) (n : Int)
    (h : (d.data.length : Int) < d.offset + n) : d.checkLength n = false := by
  simp only [checkLength, decide_eq_false_iff_not]; omega

/-- With `n` bytes left, `decodeInt64(n)` reads them and moves past them. -/
theorem decodeInt64_ok (d : Decoder) (n : Int) (h0 : 0 ≤ d.offset) (hn : 0 ≤ n)
    (hle : d.offset + n ≤ (d.data.length : Int)) :
    d.decodeInt64 n =
      some (ReadVarint ((d.data.drop d.offset.toNat).take n.toNat), ⟨d.data, d.offset + n⟩) := by
  unfold decodeInt64 getIntByteReader getBytes
  simp only [checkLength_eq_true d n hle, Bool.not_true, Bool.false_eq_true, if_false]
  rw [if_pos ⟨h0, hn, hle⟩]
  simp [incrementOffset]

/-- With `n` bytes left, `decodeUint64(n)` reads them and moves past them. -/
theorem decodeUint64_ok (d : Decoder) (n : Int) (h0 : 0 ≤ d.offset) (hn : 0 ≤ n)
    (hle : d.offset + n ≤ (d.data.length : Int)) :
    d.decodeUint64 n =
      some (ReadUvarint ((d.data.drop d.offset.toNat).take n.toNat),
        ⟨d.data, d.offset + n⟩) := by
  unfold decodeUint64 getIntByteReader getBytes
  simp only [checkLength_eq_true d n hle, Bool.not_true, Bool.false_eq_true, if_false]
  rw [if_pos ⟨h0, hn, hle⟩]
  simp [incrementOffset]

/-- Too few bytes for the window: `ErrEOB`, offset unchanged. -/
theorem decodeUint64_short (d : Decoder) (n : Int)
    (h : (d.data.length : Int) < d.offset + n) :
    d.decodeUint64 n = some ((0, some Err.ErrEOB), d) := by
  simp [decodeUint64, getIntByteReader, checkLength_eq_false d n h]

/-- A reader over at most one byte that succeeds returns less than 128. -/
theorem readUvarint_short_lt (bs : List Byte) (n : Nat) (hlen : bs.length ≤ 1)
    (h : ReadUvarint bs = (n, none)) : n < 128 := by
  match bs, hlen with
  | [], _ => simp [ReadUvarint, ReadUvarint.loop] at h
  | [b], _ =>
    simp only [ReadUvarint, ReadUvarint.loop] at h
    rw [if_pos (by omega)] at h
    split at h
    · rw [if_neg (by omega)] at h
      simp only [Nat.shiftLeft_zero, Nat.zero_or, Prod.mk.injEq, and_true] at h
      omega
    · simp at h

/-- With the tag of `DecodeInt` at the cursor and 8 bytes after it, the decode
returns and leaves the cursor `1 + 8` further, whatever the window holds. -/
theorem DecodeInt_advances (d : Decoder) (h0 : 0 ≤ d.offset)
    (htag : d.data[d.offset.toNat]? = some codingTypeInt)
    (hroom : d.offset + 1 + 8 ≤ (d.data.length : Int)) :
    ∃ r, d.DecodeInt = some (r, ⟨d.data, d.offset + 1 + 8⟩) := by
  have h2 := decodeInt64_ok ⟨d.data, d.offset + 1⟩ 8 (by dsimp only; omega) (by omega)
    (by dsimp only; omega)
  unfold DecodeInt
  rw [checkType_ok d _ h0 htag]
  simp only [h2]
  rcases ReadVarint _ with ⟨v, _ | e⟩
  · exact ⟨_, rfl⟩
  · exact ⟨_, rfl⟩

/-- With the tag of `DecodeInt` at the cursor and fewer than 8 bytes after it:
`ErrEOB`, and the cursor stays just past the tag. -/
theorem DecodeInt_short (d : Decoder) (h0 : 0 ≤ d.offset)
    (htag : d.data[d.offset.toNat]? = some codingTypeInt)
    (hshort : (d.data.length : Int) < d.offset + 1 + 8) :
    d.DecodeInt = some ((0, some Err.ErrEOB), ⟨d.data, d.offset + 1⟩) := by
  have h2 := decodeInt64_short ⟨d.data, d.offset + 1⟩ 8 (by dsimp only; omega)
  unfold DecodeInt
  rw [checkType_ok d _ h0 htag]
  simp only [h2]

/-- With the tag of `DecodeInt64` at the cursor and 8 bytes after it, the decode
returns and leaves the cursor `1 + 8` further, whatever the window holds. -/
theorem DecodeInt64_advances (d : Decoder) (h0 : 0 ≤ d.offset)
    (htag : d.data[d.offset.toNat]? = some codingTypeInt64)
    (hroom : d.offset + 1 + 8 ≤ (d.data.length : Int)) :
    ∃ r, d.DecodeInt64 = some (r, ⟨d.data, d.offset + 1 + 8⟩) := by
  have h2 := decodeInt64_ok ⟨d.data, d.offset + 1⟩ 8 (by dsimp only; omega) (by omega)
    (by dsimp only; omega)
  unfold DecodeInt64
  rw [checkType_ok d _ h0 htag]
  simp only [h2]
  rcases ReadVarint _ with ⟨v, _ | e⟩
  · exact ⟨_, rfl⟩
  · exact ⟨_, rfl⟩

/-- With the tag of `DecodeInt64` at the cursor and fewer than 8 bytes after it:
`ErrEOB`, and the cursor stays just past the tag. -/
theorem DecodeInt64_short (d : Decoder) (h0 : 0 ≤ d.offset)
    (htag : d.data[d.offset.toNat]? = some codingTypeInt64)
    (hshort : (d.data.length : Int) < d.offset + 1 + 8) :
    d.DecodeInt64 = some ((0, some Err.ErrEOB), ⟨d.data, d.offset + 1⟩) := by
  have h2 := decodeInt64_short ⟨d.data, d.offset + 1⟩ 8 (by dsimp only; omega)
  unfold DecodeInt64
  rw [checkType_ok d _ h0 htag]
  simp only [h2]

/-- With the tag of `DecodeInt32` at the cursor and 4 bytes after it, the decode
returns and leaves the cursor `1 + 4` further, whatever the window holds. -/
theorem DecodeInt32_advances (d : Decoder) (h0 : 0 ≤ d.offset)
    (htag : d.data[d.offset.toNat]? = some codingTypeInt32)
    (hroom : d.offset + 1 + 4 ≤ (d.data.length : Int)) :
    ∃ r, d.DecodeInt32 = some (r, ⟨d.data, d.offset + 1 + 4⟩) := by
  have h2 := decodeInt64_ok ⟨d.data, d.offset + 1⟩ 4 (by dsimp only; omega) (by omega)
    (by dsimp only; omega)
  unfold DecodeInt32
  rw [checkType_ok d _ h0 htag]
  simp only [h2]
  rcases ReadVarint _ with ⟨v, _ | e⟩
  · exact ⟨_, rfl⟩
  · exact ⟨_, rfl⟩

/-- With the tag of `DecodeInt32` at the cursor and fewer than 4 bytes after it:
`ErrEOB`, and the cursor stays just past the tag. -/
theorem DecodeInt32_short (d : Decoder) (h0 : 0 ≤ d.offset)
    (htag : d.data[d.offset.toNat]? = some codingTypeInt32)
    (hshort : (d.data.length : Int) < d.offset + 1 + 4) :
    d.DecodeInt32 = some ((0, some Err.ErrEOB), ⟨d.data, d.offset + 1⟩) := by
  have h2 := decodeInt64_short ⟨d.data, d.offset + 1⟩ 4 (by dsimp only; omega)
  unfold DecodeInt32
  rw [checkType_ok d _ h0 htag]
  simp only [h2]

/-- With the tag of `DecodeInt16` at the cursor and 2 bytes after it, the decode
returns and leaves the cursor `1 + 2` further, whatever the window holds. -/
theorem DecodeInt16_advances (d : Decoder) (h0 : 0 ≤ d.offset)
    (htag : d.data[d.offset.toNat]? = some codingTypeInt16)
    (hroom : d.offset + 1 + 2 ≤ (d.data.length : Int)) :
    ∃ r, d.DecodeInt16 = some (r, ⟨d.data, d.offset + 1 + 2⟩) := by
  have h2 := decodeInt64_ok ⟨d.data, d.offset + 1⟩ 2 (by dsimp only; omega) (by omega)
    (by dsimp only; omega)
  unfold DecodeInt16
  rw [checkType_ok d _ h0 htag]
  simp only [h2]
  rcases ReadVarint _ with ⟨v, _ | e⟩
  · exact ⟨_, rfl⟩
  · exact ⟨_, rfl⟩

/-- With the tag of `DecodeInt16` at the cursor and fewer than 2 bytes after it:
`ErrEOB`, and the cursor stays just past the tag. -/
theorem DecodeInt16_short (d : Decoder) (h0 : 0 ≤ d.offset)
    (htag : d.data[d.offset.toNat]? = some codingTypeInt16)
    (hshort : (d.data.length : Int) < d.offset + 1 + 2) :
    d.DecodeInt16 = some ((0, some Err.ErrEOB), ⟨d.data, d.offset + 1⟩) := by
  have h2 := decodeInt64_short ⟨d.data, d.offset + 1⟩ 2 (by dsimp only; omega)
  unfold DecodeInt16
  rw [checkType_ok d _ h0 htag]
  simp only [h2]

/-- With the tag of `DecodeInt8` at the cursor and 1 bytes after it, the decode
returns and leaves the cursor `1 + 1` further, whatever the window holds. -/
theorem DecodeInt8_advances (d : Decoder) (h0 : 0 ≤ d.offset)
    (htag : d.data[d.offset.toNat]? = some codingTypeInt8)
    (hroom : d.offset + 1 + 1 ≤ (d.data.length : Int)) :
    ∃ r, d.DecodeInt8 = some (r, ⟨d.data, d.offset + 1 + 1⟩) := by
  have h2 := decodeInt64_ok ⟨d.data, d.offset + 1⟩ 1 (by dsimp only; omega) (by omega)
    (by dsimp only; omega)
  unfold DecodeInt8
  rw [checkType_ok d _ h0 htag]
  simp only [h2]
  rcases ReadVarint _ with ⟨v, _ | e⟩
  · exact ⟨_, rfl⟩
  · exact ⟨_, rfl⟩

/-- With the tag of `DecodeInt8` at the cursor and fewer than 1 bytes after it:
`ErrEOB`, and the cursor stays just past the tag. -/
theorem DecodeInt8_short (d : Decoder) (h0 : 0 ≤ d.offset)
    (htag : d.data[d.offset.toNat]? = some codingTypeInt8)
    (hshort : (d.data.length : Int) < d.offset + 1 + 1) :
    d.DecodeInt8 = some ((0, some Err.ErrEOB), ⟨d.data, d.offset + 1⟩) := by
  have h2 := decodeInt64_short ⟨d.data, d.offset + 1⟩ 1 (by dsimp only; omega)
  unfold DecodeInt8
  rw [checkType_ok d _ h0 htag]
  simp only [h2]

/-- With the tag of `DecodeUint` at the cursor and 8 bytes after it, the decode
returns and leaves the cursor `1 + 8` further, whatever the window holds. -/
theorem DecodeUint_advances (d : Decoder) (h0 : 0 ≤ d.offset)
    (htag : d.data[d.offset.toNat]? = some codingTypeUint)
    (hroom : d.offset + 1 + 8 ≤ (d.data.length : Int)) :
    ∃ r, d.DecodeUint = some (r, ⟨d.data, d.offset + 1 + 8⟩) := by
  have h2 := decodeUint64_ok ⟨d.data, d.offset + 1⟩ 8 (by dsimp only; omega) (by omega)
    (by dsimp only; omega)
  unfold DecodeUint
  rw [checkType_ok d _ h0 htag]
  simp only [h2]
  rcases ReadUvarint _ with ⟨v, _ | e⟩
  · exact ⟨_, rfl⟩
  · exact ⟨_, rfl⟩

/-- With the tag of `DecodeUint` at the cursor and fewer than 8 bytes after it:
`ErrEOB`, and the cursor stays just past the tag. -/
theorem DecodeUint_short (d : Decoder) (h0 : 0 ≤ d.offset)
    (htag : d.data[d.offset.toNat]? = some codingTypeUint)
    (hshort : (d.data.length : Int) < d.offset + 1 + 8) :
    d.DecodeUint = some ((0, some Err.ErrEOB), ⟨d.data, d.offset + 1⟩) := by
  have h2 := decodeUint64_short ⟨d.data, d.offset + 1⟩ 8 (by dsimp only; omega)
  unfold DecodeUint
  rw [checkType_ok d _ h0 htag]
  simp only [h2]

/-- With the tag of `DecodeUint64` at the cursor and 8 bytes after it, the decode
returns and leaves the cursor `1 + 8` further, whatever the window holds. -/
theorem DecodeUint64_advances (d : Decoder) (h0 : 0 ≤ d.offset)
    (htag : d.data[d.offset.toNat]? = some codingTypeUint64)
    (hroom : d.offset + 1 + 8 ≤ (d.data.length : Int)) :
    ∃ r, d.DecodeUint64 = some (r, ⟨d.data, d.offset + 1 + 8⟩) := by
  have h2 := decodeUint64_ok ⟨d.data, d.offset + 1⟩ 8 (by dsimp only; omega) (by omega)
    (by dsimp only; omega)
  unfold DecodeUint64
  rw [checkType_ok d _ h0 htag]
  simp only [h2]
  rcases ReadUvarint _ with ⟨v, _ | e⟩
  · exact ⟨_, rfl⟩
  · exact ⟨_, rfl⟩

/-- With the tag of `DecodeUint64` at the cursor and fewer than 8 bytes after it:
`ErrEOB`, and the cursor stays just past the tag. -/
theorem DecodeUint64_short (d : Decoder) (h0 : 0 ≤ d.offset)
    (htag : d.data[d.offset.toNat]? = some codingTypeUint64)
    (hshort : (d.data.length : Int) < d.offset + 1 + 8) :
    d.DecodeUint64 = some ((0, some Err.ErrEOB), ⟨d.data, d.offset + 1⟩) := by
  have h2 := decodeUint64_short ⟨d.data, d.offset + 1⟩ 8 (by dsimp only; omega)
  unfold DecodeUint64
  rw [checkType_ok d _ h0 htag]
  simp only [h2]

/-- With the tag of `DecodeUint32` at the cursor and 4 bytes after it, the decode
returns and leaves the cursor `1 + 4` further, whatever the window holds. -/
theorem DecodeUint32_advances (d : Decoder) (h0 : 0 ≤ d.offset)
    (htag : d.data[d.offset.toNat]? = some codingTypeUint32)
    (hroom : d.offset + 1 + 4 ≤ (d.data.length : Int)) :
    ∃ r, d.DecodeUint32 = some (r, ⟨d.data, d.offset + 1 + 4⟩) := by
  have h2 := decodeUint64_ok ⟨d.data, d.offset + 1⟩ 4 (by dsimp only; omega) (by omega)
    (by dsimp only; omega)
  unfold DecodeUint32
  rw [checkType_ok d _ h0 htag]
  simp only [h2]
  rcases ReadUvarint _ with ⟨v, _ | e⟩
  · exact ⟨_, rfl⟩
  · exact ⟨_, rfl⟩

/-- With the tag of `DecodeUint32` at the cursor and fewer than 4 bytes after it:
`ErrEOB`, and the cursor stays just past the tag. -/
theorem DecodeUint32_short (d : Decoder) (h0 : 0 ≤ d.offset)
    (htag : d.data[d.offset.toNat]? = some codingTypeUint32)
    (hshort : (d.data.length : Int) < d.offset + 1 + 4) :
    d.DecodeUint32 = some ((0, some Err.ErrEOB), ⟨d.data, d.offset + 1⟩) := by
  have h2 := decodeUint64_short ⟨d.data, d.offset + 1⟩ 4 (by dsimp only; omega)
  unfold DecodeUint32
  rw [checkType_ok d _ h0 htag]
  simp only [h2]

/-- With the tag of `DecodeUint16` at the cursor and 2 bytes after it, the decode
returns and leaves the cursor `1 + 2` further, whatever the window holds. -/
theorem DecodeUint16_advances (d : Decoder) (h0 : 0 ≤ d.offset)
    (htag : d.data[d.offset.toNat]? = some codingTypeUint16)
    (hroom : d.offset + 1 + 2 ≤ (d.data.length : Int)) :
    ∃ r, d.DecodeUint16 = some (r, ⟨d.data, d.offset + 1 + 2⟩) := by
  have h2 := decodeUint64_ok ⟨d.data, d.offset + 1⟩ 2 (by dsimp only; omega) (by omega)
    (by dsimp only; omega)
  unfold DecodeUint16
  rw [checkType_ok d _ h0 htag]
  simp only [h2]
  rcases ReadUvarint _ with ⟨v, _ | e⟩
  · exact ⟨_, rfl⟩
  · exact ⟨_, rfl⟩

/-- With the tag of `DecodeUint16` at the cursor and fewer than 2 bytes after it:
`ErrEOB`, and the cursor stays just past the tag. -/
theorem DecodeUint16_short (d : Decoder) (h0 : 0 ≤ d.offset)
    (htag : d.data[d.offset.toNat]? = some codingTypeUint16)
    (hshort : (d.data.length : Int) < d.offset + 1 + 2) :
    d.DecodeUint16 = some ((0, some Err.ErrEOB), ⟨d.data, d.offset + 1⟩) := by
  have h2 := decodeUint64_short ⟨d.data, d.offset + 1⟩ 2 (by dsimp only; omega)
  unfold DecodeUint16
  rw [checkType_ok d _ h0 htag]
  simp only [h2]

/-- With the tag of `DecodeUint8` at the cursor and 1 bytes after it, the decode
returns and leaves the cursor `1 + 1` further, whatever the window holds. -/
theorem DecodeUint8_advances (d : Decoder) (h0 : 0 ≤ d.offset)
    (htag : d.data[d.offset.toNat]? = some codingTypeUint8)
    (hroom : d.offset + 1 + 1 ≤ (d.data.length : Int)) :
    ∃ r, d.DecodeUint8 = some (r, ⟨d.data, d.offset + 1 + 1⟩) := by
  have h2 := decodeUint64_ok ⟨d.data, d.offset + 1⟩ 1 (by dsimp only; omega) (by omega)
    (by dsimp only; omega)
  unfold DecodeUint8
  rw [checkType_ok d _ h0 htag]
  simp only [h2]
  rcases ReadUvarint _ with ⟨v, _ | e⟩
  · exact ⟨_, rfl⟩
  · exact ⟨_, rfl⟩

/-- With the tag of `DecodeUint8` at the cursor and fewer than 1 bytes after it:
`ErrEOB`, and the cursor stays just past the tag. -/
theorem DecodeUint8_short (d : Decoder) (h0 : 0 ≤ d.offset)
    (htag : d.data[d.offset.toNat]? = some codingTypeUint8)
    (hshort : (d.data.length : Int) < d.offset + 1 + 1) :
    d.DecodeUint8 = some ((0, some Err.ErrEOB), ⟨d.data, d.offset + 1⟩) := by
  have h2 := decodeUint64_short ⟨d.data, d.offset + 1⟩ 1 (by dsimp only; omega)
  unfold DecodeUint8
  rw [checkType_ok d _ h0 htag]
  simp only [h2]

/-- With the tag of `DecodeBool` at the cursor and nothing after it: `ErrEOB`,
and the cursor stays just past the tag. -/
theorem DecodeBool_short (d : Decoder) (h0 : 0 ≤ d.offset)
    (htag : d.data[d.offset.toNat]? = some codingTypeBool)
    (hshort : (d.data.length : Int) < d.offset + 1 + 1) :
    d.DecodeBool = some ((false, some Err.ErrEOB), ⟨d.data, d.offset + 1⟩) := by
  have h2 := checkLength_eq_false ⟨d.data, d.offset + 1⟩ 1 (by dsimp only; omega)
  unfold DecodeBool
  rw [checkType_ok d _ h0 htag]
  simp only [h2, Bool.not_false, if_true]

/-- With the tag of `DecodeFloat64` at the cursor and no length byte after it:
`ErrEOB`, and the cursor stays just past the tag. -/
theorem DecodeFloat64_short (d : Decoder) (h0 : 0 ≤ d.offset)
    (htag : d.data[d.offset.toNat]? = some codingTypeFloat64)
    (hshort : (d.data.length : Int) < d.offset + 1 + 1) :
    d.DecodeFloat64 = some ((0, some Err.ErrEOB), ⟨d.data, d.offset + 1⟩) := by
  have h2 := checkLength_eq_false ⟨d.data, d.offset + 1⟩ 1 (by dsimp only; omega)
  unfold DecodeFloat64
  rw [checkType_ok d _ h0 htag]
  simp only [h2, Bool.not_false, if_true]

/-- With the tag of `DecodeFloat64` and a length byte that reads as `n`, but fewer
than `n` bytes after it: `ErrEOB`, and the cursor stays past the length byte. -/
theorem DecodeFloat64_short_bits (d : Decoder) (n : Nat) (h0 : 0 ≤ d.offset)
    (htag : d.data[d.offset.toNat]? = some codingTypeFloat64)
    (hroom : d.offset + 2 ≤ (d.data.length : Int))
    (hlen : ReadUvarint ((d.data.drop (d.offset + 1).toNat).take 1) = (n, none))
    (hshort : (d.data.length : Int) < d.offset + 2 + n) :
    d.DecodeFloat64 = some ((0, some Err.ErrEOB), ⟨d.data, d.offset + 1 + 1⟩) := by
  have hn : n < 128 := readUvarint_short_lt _ n (by rw [List.length_take]; omega) hlen
  have h2 := checkLength_eq_true ⟨d.data, d.offset + 1⟩ 1 (by dsimp only; omega)
  have h3 := decodeUint64_ok ⟨d.data, d.offset + 1⟩ 1 (by dsimp only; omega) (by omega)
    (by dsimp only; omega)
  simp only [show (1 : Int).toNat = 1 from rfl, hlen] at h3
  have h4 := decodeUint64_short ⟨d.data, d.offset + 1 + 1⟩ (int64 n)
    (by rw [int64_of_lt n (by omega)]; dsimp only; omega)
  unfold DecodeFloat64
  rw [checkType_ok d _ h0 htag]
  simp only [h2, h3, h4, Bool.not_true, Bool.false_eq_true, if_false]

/-- With the tag of `DecodeFloat32` at the cursor and no length byte after it:
`ErrEOB`, and the cursor stays just past the tag. -/
theorem DecodeFloat32_short (d : Decoder) (h0 : 0 ≤ d.offset)
    (htag : d.data[d.offset.toNat]? = some codingTypeFloat32)
    (hshort : (d.data.length : Int) < d.offset + 1 + 1) :
    d.DecodeFloat32 = some ((0, some Err.ErrEOB), ⟨d.data, d.offset + 1⟩) := by
  have h2 := checkLength_eq_false ⟨d.data, d.offset + 1⟩ 1 (by dsimp only; omega)
  unfold DecodeFloat32
  rw [checkType_ok d _ h0 htag]
  simp only [h2, Bool.not_false, if_true]

/-- With the tag of `DecodeFloat32` and a length byte that reads as `n`, but fewer
than `n` bytes after it: `ErrEOB`, and the cursor stays past the length byte. -/
theorem DecodeFloat32_short_bits (d : Decoder) (n : Nat) (h0 : 0 ≤ d.offset)
    (htag : d.data[d.offset.toNat]? = some codingTypeFloat32)
    (hroom : d.offset + 2 ≤ (d.data.length : Int))
    (hlen : ReadUvarint ((d.data.drop (d.offset + 1).toNat).take 1) = (n, none))
    (hshort : (d.data.length : Int) < d.offset + 2 + n) :
    d.DecodeFloat32 = some ((0, some Err.ErrEOB), ⟨d.data, d.offset + 1 + 1⟩) := by
  have hn : n < 128 := readUvarint_short_lt _ n (by rw [List.length_take]; omega) hlen
  have h2 := checkLength_eq_true ⟨d.data, d.offset + 1⟩ 1 (by dsimp only; omega)
  have h3 := decodeUint64_ok ⟨d.data, d.offset + 1⟩ 1 (by dsimp only; omega) (by omega)
    (by dsimp only; omega)
  simp only [show (1 : Int).toNat = 1 from rfl, hlen] at h3
  have h4 := decodeUint64_short ⟨d.data, d.offset + 1 + 1⟩ (int64 n)
    (by rw [int64_of_lt n (by omega)]; dsimp only; omega)
  unfold DecodeFloat32
  rw [checkType_ok d _ h0 htag]
  simp only [h2, h3, h4, Bool.not_true, Bool.false_eq_true, if_false]

/-- With the tag of `DecodeString` at the cursor and fewer than 8 bytes after
it: `ErrEOB`, and the cursor stays just past the tag. -/
theorem DecodeString_short (d : Decoder) (h0 : 0 ≤ d.offset)
    (htag : d.data[d.offset.toNat]? = some codingTypeString)
    (hshort : (d.data.length : Int) < d.offset + 1 + 8) :
    d.DecodeString = some (([], some Err.ErrEOB), ⟨d.data, d.offset + 1⟩) := by
  have h2 := checkLength_eq_false ⟨d.data, d.offset + 1⟩ 8 (by dsimp only; omega)
  unfold DecodeString
  rw [checkType_ok d _ h0 htag]
  simp only [h2, Bool.not_false, if_true]

/-- With the tag of `DecodeData` at the cursor and fewer than 8 bytes after it:
`ErrEOB`, and the cursor stays just past the tag. -/
theorem DecodeData_short (d : Decoder) (h0 : 0 ≤ d.offset)
    (htag : d.data[d.offset.toNat]? = some codingTypeData)
    (hshort : (d.data.length : Int) < d.offset + 1 + 8) :
    d.DecodeData = some (([], some Err.ErrEOB), ⟨d.data, d.offset + 1⟩) := by
  have h2 := decodeInt64_short ⟨d.data, d.offset + 1⟩ 8 (by dsimp only; omega)
  unfold DecodeData
  rw [checkType_ok d _ h0 htag]
  simp only [h2]

/-- With the tag of `DecodeString`, a length window that reads as `l`, but fewer
than `l` bytes after it: `ErrEOB`, and the cursor stays past the window. -/
theorem DecodeString_short_bytes (d : Decoder) (l : Int) (h0 : 0 ≤ d.offset)
    (htag : d.data[d.offset.toNat]? = some codingTypeString)
    (hroom : d.offset + 9 ≤ (d.data.length : Int))
    (hlen : ReadVarint ((d.data.drop (d.offset + 1).toNat).take 8) = (l, none))
    (hshort : (d.data.length : Int) < d.offset + 9 + l) :
    d.DecodeString = some (([], some Err.ErrEOB), ⟨d.data, d.offset + 1 + 8⟩) := by
  have h2 := checkLength_eq_true ⟨d.data, d.offset + 1⟩ 8 (by dsimp only; omega)
  have h3 := decodeInt64_ok ⟨d.data, d.offset + 1⟩ 8 (by dsimp only; omega) (by omega)
    (by dsimp only; omega)
  simp only [show (8 : Int).toNat = 8 from rfl, hlen] at h3
  have h4 := checkLength_eq_false ⟨d.data, d.offset + 1 + 8⟩ l (by dsimp only; omega)
  unfold DecodeString
  rw [checkType_ok d _ h0 htag]
  simp only [h2, h3, h4, Bool.not_true, Bool.false_eq_true, if_false, Bool.not_false, if_true]

/-- With the tag of `DecodeData`, a length window that reads as `l`, but fewer
than `l` bytes after it: `ErrEOB`, and the cursor stays past the window. -/
theorem DecodeData_short_bytes (d : Decoder) (l : Int) (h0 : 0 ≤ d.offset)
    (htag : d.data[d.offset.toNat]? = some codingTypeData)
    (hroom : d.offset + 9 ≤ (d.data.length : Int))
    (hlen : ReadVarint ((d.data.drop (d.offset + 1).toNat).take 8) = (l, none))
    (hshort : (d.data.length : Int) < d.offset + 9 + l) :
    d.DecodeData = some (([], some Err.ErrEOB), ⟨d.data, d.offset + 1 + 8⟩) := by
  have h3 := decodeInt64_ok ⟨d.data, d.offset + 1⟩ 8 (by dsimp only; omega) (by omega)
    (by dsimp only; omega)
  simp only [show (8 : Int).toNat = 8 from rfl, hlen] at h3
  have h4 := checkLength_eq_false ⟨d.data, d.offset + 1 + 8⟩ l (by dsimp only; omega)
  unfold DecodeData
  rw [checkType_ok d _ h0 htag]
  simp only [h3, h4, Bool.not_false, if_true]

/-- C17: for every fixed-width integer kind with window `w` (1, 2, 4, 8 bytes
for the 8/16/32/64-bit kinds, 8 for `int` and `uint`) and every decoder state
whose next byte is the tag of the kind with at least `w` bytes after it,
`Decode<Kind>` returns and leaves the cursor exactly `1 + w` further, whatever
the window holds: a short varint, a padded one, or a malformed one that makes
the decode return an error. -/
theorem decode_integer_advances (d : Decoder) (k : Kind) (hk : k.isInteger = true)
    (h0 : 0 ≤ d.offset) (htag : d.data[d.offset.toNat]? = some k.tag)
    (hroom : d.offset + 1 + (k.firstRead : Int) ≤ (d.data.length : Int)) :
    ∃ r, d.Decode k = some (r, ⟨d.data, d.offset + 1 + (k.firstRead : Int)⟩) := by
  cases k with
  | bool => exact absurd hk (by decide)
  | int =>
    simp only [Kind.tag, Kind.firstRead, Nat.cast_ofNat, Nat.cast_one] at htag hroom ⊢
    obtain ⟨r, hr⟩ := DecodeInt_advances d h0 htag hroom
    exact ⟨(Value.int r.1, r.2), by simp only [Decode, hr, asValue]⟩
  | int64 =>
    simp only [Kind.tag, Kind.firstRead, Nat.cast_ofNat, Nat.cast_one] at htag hroom ⊢
    obtain ⟨r, hr⟩ := DecodeInt64_advances d h0 htag hroom
    exact ⟨(Value.int64 r.1, r.2), by simp only [Decode, hr, asValue]⟩
  | int32 =>
    simp only [Kind.tag, Kind.firstRead, Nat.cast_ofNat, Nat.cast_one] at htag hroom ⊢
    obtain ⟨r, hr⟩ := DecodeInt32_advances d h0 htag hroom
    exact ⟨(Value.int32 r.1, r.2), by simp only [Decode, hr, asValue]⟩
  | int16 =>
    simp only [Kind.tag, Kind.firstRead, Nat.cast_ofNat, Nat.cast_one] at htag hroom ⊢
    obtain ⟨r, hr⟩ := DecodeInt16_advances d h0 htag hroom
    exact ⟨(Value.int16 r.1, r.2), by simp only [Decode, hr, asValue]⟩
  | int8 =>
    simp only [Kind.tag, Kind.firstRead, Nat.cast_ofNat, Nat.cast_one] at htag hroom ⊢
    obtain ⟨r, hr⟩ := DecodeInt8_advances d h0 htag hroom
    exact ⟨(Value.int8 r.1, r.2), by simp only [Decode, hr, asValue]⟩
  | uint =>
    simp only [Kind.tag, Kind.firstRead, Nat.cast_ofNat, Nat.cast_one] at htag hroom ⊢
    obtain ⟨r, hr⟩ := DecodeUint_advances d h0 htag hroom
    exact ⟨(Value.uint r.1, r.2), by simp only [Decode, hr, asValue]⟩
  | uint64 =>
    simp only [Kind.tag, Kind.firstRead, Nat.cast_ofNat, Nat.cast_one] at htag hroom ⊢
    obtain ⟨r, hr⟩ := DecodeUint64_advances d h0 htag hroom
    exact ⟨(Value.uint64 r.1, r.2), by simp only [Decode, hr, asValue]⟩
  | uint32 =>
    simp only [Kind.tag, Kind.firstRead, Nat.cast_ofNat, Nat.cast_one] at htag hroom ⊢
    obtain ⟨r, hr⟩ := DecodeUint32_advances d h0 htag hroom
    exact ⟨(Value.uint32 r.1, r.2), by simp only [Decode, hr, asValue]⟩
  | uint16 =>
    simp only [Kind.tag, Kind.firstRead, Nat.cast_ofNat, Nat.cast_one] at htag hroom ⊢
    obtain ⟨r, hr⟩ := DecodeUint16_advances d h0 htag hroom
    exact ⟨(Value.uint16 r.1, r.2), by simp only [Decode, hr, asValue]⟩
  | uint8 =>
    simp only [Kind.tag, Kind.firstRead, Nat.cast_ofNat, Nat.cast_one] at htag hroom ⊢
    obtain ⟨r, hr⟩ := DecodeUint8_advances d h0 htag hroom
    exact ⟨(Value.uint8 r.1, r.2), by simp only [Decode, hr, asValue]⟩
  | float64 => exact absurd hk (by decide)
  | float32 => exact absurd hk (by decide)
  | string => exact absurd hk (by decide)
  | data => exact absurd hk (by decide)

/-- The window `[0x80]` of an `int8`, a varint that does not end: the decode
fails with `io.ErrUnexpectedEOF` and the cursor is 2 further. -/
theorem decode_integer_advances_witness :
    Kind.int8.isInteger = true ∧ (0 : Int) ≤ (Decoder.mk [0x05, 0x80, 0x01] 0).offset ∧
    (Decoder.mk [0x05, 0x80, 0x01] 0).data[(Decoder.mk [0x05, 0x80, 0x01] 0).offset.toNat]? =
      some Kind.int8.tag ∧
    (Decoder.mk [0x05, 0x80, 0x01] 0).Decode Kind.int8 =
      some ((Value.int8 0, some Err.ErrUnexpectedEOF), Decoder.mk [0x05, 0x80, 0x01] 2) ∧
    ∃ r, (Decoder.mk [0x05, 0x80, 0x01] 0).Decode Kind.int8 =
      some (r, ⟨(Decoder.mk [0x05, 0x80, 0x01] 0).data,
        (Decoder.mk [0x05, 0x80, 0x01] 0).offset + 1 + (Kind.int8.firstRead : Int)⟩) :=
  ⟨by decide, by decide, by decide, by decide,
    decode_integer_advances (Decoder.mk [0x05, 0x80, 0x01] 0) Kind.int8 (by decide) (by decide)
      (by decide) (by decide)⟩

/-- C20: for every decoder state whose next byte is the tag of kind `K` but
where fewer bytes remain after the tag than the payload of `K` needs,
`Decode<K>` returns `ErrEOB` with the zero value and does not roll the cursor
back.  When the first read after the tag does not fit (the byte of a bool, the
window of an integer kind, the length byte of a float, the 8-byte length window
of a string or byte slice) the cursor is left at `offset + 1`; for a string or
byte slice whose length window is present and reads as `l` but whose `l` raw
bytes are short it is left at `offset + 9`; for a float whose length byte is
present and reads as `n` but whose `n` bytes are short it is left at
`offset + 2`. -/
theorem payload_short_eob (d : Decoder) (k : Kind) (h0 : 0 ≤ d.offset)
    (htag : d.data[d.offset.toNat]? = some k.tag) :
    ((d.data.length : Int) < d.offset + 1 + (k.firstRead : Int) →
      d.Decode k = some ((k.zero, some Err.ErrEOB), ⟨d.data, d.offset + 1⟩)) ∧
    (∀ l : Int, (k = Kind.string ∨ k = Kind.data) → d.offset + 9 ≤ (d.data.length : Int) →
      ReadVarint ((d.data.drop (d.offset + 1).toNat).take 8) = (l, none) →
      (d.data.length : Int) < d.offset + 9 + l →
      d.Decode k = some ((k.zero, some Err.ErrEOB), ⟨d.data, d.offset + 9⟩)) ∧
    (∀ n : Nat, (k = Kind.float64 ∨ k = Kind.float32) →
      d.offset + 2 ≤ (d.data.length : Int) →
      ReadUvarint ((d.data.drop (d.offset + 1).toNat).take 1) = (n, none) →
      (d.data.length : Int) < d.offset + 2 + n →
      d.Decode k = some ((k.zero, some Err.ErrEOB), ⟨d.data, d.offset + 2⟩)) := by
  have e9 : d.offset + 1 + 8 = d.offset + 9 := by ring
  have e2 : d.offset + 1 + 1 = d.offset + 2 := by ring
  refine ⟨?_, ?_, ?_⟩
  · intro hshort
    cases k with
    | bool =>
      simp only [Kind.tag, Kind.firstRead, Nat.cast_ofNat, Nat.cast_one] at htag hshort
      simp only [Decode, DecodeBool_short d h0 htag hshort, asValue, Kind.zero]
    | int =>
      simp only [Kind.tag, Kind.firstRead, Nat.cast_ofNat, Nat.cast_one] at htag hshort
      simp only [Decode, DecodeInt_short d h0 htag hshort, asValue, Kind.zero]
    | int64 =>
      simp only [Kind.tag, Kind.firstRead, Nat.cast_ofNat, Nat.cast_one] at htag hshort
      simp only [Decode, DecodeInt64_short d h0 htag hshort, asValue, Kind.zero]
    | int32 =>
      simp only [Kind.tag, Kind.firstRead, Nat.cast_ofNat, Nat.cast_one] at htag hshort
      simp only [Decode, DecodeInt32_short d h0 htag hshort, asValue, Kind.zero]
    | int16 =>
      simp only [Kind.tag, Kind.firstRead, Nat.cast_ofNat, Nat.cast_one] at htag hshort
      simp only [Decode, DecodeInt16_short d h0 htag hshort, asValue, Kind.zero]
    | int8 =>
      simp only [Kind.tag, Kind.firstRead, Nat.cast_ofNat, Nat.cast_one] at htag hshort
      simp only [Decode, DecodeInt8_short d h0 htag hshort, asValue, Kind.zero]
    | uint =>
      simp only [Kind.tag, Kind.firstRead, Nat.cast_ofNat, Nat.cast_one] at htag hshort
      simp only [Decode, DecodeUint_short d h0 htag hshort, asValue, Kind.zero]
    | uint64 =>
      simp only [Kind.tag, Kind.firstRead, Nat.cast_ofNat, Nat.cast_one] at htag hshort
      simp only [Decode, DecodeUint64_short d h0 htag hshort, asValue, Kind.zero]
    | uint32 =>
      simp only [Kind.tag, Kind.firstRead, Nat.cast_ofNat, Nat.cast_one] at htag hshort
      simp only [Decode, DecodeUint32_short d h0 htag hshort, asValue, Kind.zero]
    | uint16 =>
      simp only [Kind.tag, Kind.firstRead, Nat.cast_ofNat, Nat.cast_one] at htag hshort
      simp only [Decode, DecodeUint16_short d h0 htag hshort, asValue, Kind.zero]
    | uint8 =>
      simp only [Kind.tag, Kind.firstRead, Nat.cast_ofNat, Nat.cast_one] at htag hshort
      simp only [Decode, DecodeUint8_short d h0 htag hshort, asValue, Kind.zero]
    | float64 =>
      simp only [Kind.tag, Kind.firstRead, Nat.cast_ofNat, Nat.cast_one] at htag hshort
      simp only [Decode, DecodeFloat64_short d h0 htag hshort, asValue, Kind.zero]
    | float32 =>
      simp only [Kind.tag, Kind.firstRead, Nat.cast_ofNat, Nat.cast_one] at htag hshort
      simp only [Decode, DecodeFloat32_short d h0 htag hshort, asValue, Kind.zero]
    | string =>
      simp only [Kind.tag, Kind.firstRead, Nat.cast_ofNat, Nat.cast_one] at htag hshort
      simp only [Decode, DecodeString_short d h0 htag hshort, asValue, Kind.zero]
    | data =>
      simp only [Kind.tag, Kind.firstRead, Nat.cast_ofNat, Nat.cast_one] at htag hshort
      simp only [Decode, DecodeData_short d h0 htag hshort, asValue, Kind.zero]
  · intro l hk hroom hlen hshort
    rcases hk with hk | hk
    · subst hk
      simp only [Kind.tag] at htag
      simp only [Decode, DecodeString_short_bytes d l h0 htag hroom hlen hshort, asValue,
        Kind.zero, e9]
    · subst hk
      simp only [Kind.tag] at htag
      simp only [Decode, DecodeData_short_bytes d l h0 htag hroom hlen hshort, asValue,
        Kind.zero, e9]
  · intro n hk hroom hlen hshort
    rcases hk with hk | hk
    · subst hk
      simp only [Kind.tag] at htag
      simp only [Decode, DecodeFloat64_short_bits d n h0 htag hroom hlen hshort, asValue,
        Kind.zero, e2]
    · subst hk
      simp only [Kind.tag] at htag
      simp only [Decode, DecodeFloat32_short_bits d n h0 htag hroom hlen hshort, asValue,
        Kind.zero, e2]

/-- An `int32` with 2 of its 4 window bytes, a string of length 3 with 1 byte,
and a `float64` of 3 varint bytes with 1 byte. -/
theorem payload_short_eob_witness :
    (Decoder.mk [0x03, 0, 0] 0).Decode Kind.int32 =
      some ((Kind.int32.zero, some Err.ErrEOB), ⟨[0x03, 0, 0], 0 + 1⟩) ∧
    (Decoder.mk [0x0D, 0x06, 0, 0, 0, 0, 0, 0, 0, 0x41] 0).Decode Kind.string =
      some ((Kind.string.zero, some Err.ErrEOB),
        ⟨[0x0D, 0x06, 0, 0, 0, 0, 0, 0, 0, 0x41], 0 + 9⟩) ∧
    (Decoder.mk [0x0B, 0x03, 0x01] 0).Decode Kind.float64 =
      some ((Kind.float64.zero, some Err.ErrEOB), ⟨[0x0B, 0x03, 0x01], 0 + 2⟩) :=
  ⟨(payload_short_eob (Decoder.mk [0x03, 0, 0] 0) Kind.int32 (by decide) (by decide)).1
      (by decide),
    (payload_short_eob (Decoder.mk [0x0D, 0x06, 0, 0, 0, 0, 0, 0, 0, 0x41] 0) Kind.string
      (by decide) (by decide)).2.1 3 (Or.inl rfl) (by decide) (by decide) (by decide),
    (payload_short_eob (Decoder.mk [0x0B, 0x03, 0x01] 0) Kind.float64
      (by decide) (by decide)).2.2 3 (Or.inl rfl) (by decide) (by decide) (by decide)⟩

/-! ## The window of an integer kind -/

/-- The exclusive or with all ones is the complement. -/
theorem xor_allOnes (y n : Nat) (h : y < 2 ^ n) : y ^^^ (2 ^ n - 1) = 2 ^ n - 1 - y := by
  apply Nat.eq_of_testBit_eq
  intro i
  rw [show 2 ^ n - 1 - y = 2 ^ n - (y + 1) by omega, Nat.testBit_two_pow_sub_succ h,
    Nat.testBit_xor, Nat.testBit_two_pow_sub_one]
  by_cases hi : i < n
  · simp [hi]
  · have : y.testBit i = false :=
      Nat.testBit_lt_two_pow (lt_of_lt_of_le h (Nat.pow_le_pow_right (by decide) (by omega)))
    simp [hi, this]

/-- The zigzag value of the specification is what `PutVarint` hands to
`PutUvarint`. -/
theorem putVarint_eq_zigzag (buf : List Byte) (x : Int) :
    PutVarint buf x = PutUvarint buf (zigzag x) := by
  unfold PutVarint zigzag
  simp only
  congr 1
  split
  · rw [xor_allOnes _ 64 (Nat.mod_lt _ (by norm_num))]
  · rw [Nat.xor_zero]

/-- The zigzag value in arithmetic: `2v` for `v >= 0`, `-2v - 1` for `v < 0`. -/
theorem zigzag_eq (x : Int) (hlo : -2 ^ 63 ≤ x) (hhi : x < 2 ^ 63) :
    zigzag x = if x < 0 then (-2 * x - 1).toNat else (2 * x).toNat := by
  unfold zigzag
  split
  · rw [xor_allOnes _ 64 (Nat.mod_lt _ (by norm_num))]
    unfold uint64
    rw [Nat.shiftLeft_eq]
    omega
  · rw [Nat.xor_zero]
    unfold uint64
    rw [Nat.shiftLeft_eq]
    omega

/-- The function `PutUvarint` leaves the bytes after the `n` written as they
were. -/
theorem putUvarint_drop (buf : List Byte) :
    ∀ (x : Nat) (out : List Byte) (n : Nat), PutUvarint buf x = some (out, n) →
      out.drop n = buf.drop n := by
  induction buf with
  | nil => intro x out n h; simp [PutUvarint] at h
  | cons b rest ih =>
    intro x out n h
    unfold PutUvarint at h
    split at h
    · cases hrec : PutUvarint rest (x >>> 7) with
      | none => simp [hrec] at h
      | some p =>
        obtain ⟨out1, n1⟩ := p
        simp only [hrec, Option.some.injEq, Prod.mk.injEq] at h
        obtain ⟨rfl, rfl⟩ := h
        simp only [List.drop_succ_cons]
        exact ih _ _ _ hrec
    · simp only [Option.some.injEq, Prod.mk.injEq] at h
      obtain ⟨rfl, rfl⟩ := h
      simp

/-- The function `PutUvarint` completes only when the value fits the buffer. -/
theorem putUvarint_lt (buf : List Byte) :
    ∀ (x : Nat) (out : List Byte) (n : Nat), PutUvarint buf x = some (out, n) →
      x < 2 ^ (7 * buf.length) := by
  induction buf with
  | nil => intro x out n h; simp [PutUvarint] at h
  | cons b rest ih =>
    intro x out n h
    have hpow : (2:Nat) ^ (7 * (rest.length + 1)) = 128 * 2 ^ (7 * rest.length) := by
      rw [show 7 * (rest.length + 1) = 7 + 7 * rest.length by ring, pow_add]; norm_num
    have hpos : 0 < (2:Nat) ^ (7 * rest.length) := by positivity
    rw [List.length_cons, hpow]
    unfold PutUvarint at h
    split at h
    · cases hrec : PutUvarint rest (x >>> 7) with
      | none => simp [hrec] at h
      | some p =>
        have := ih _ _ _ hrec
        rw [Nat.shiftRight_eq_div_pow] at this
        have h2 := Nat.div_add_mod x 128
        have h3 : x % 128 < 128 := Nat.mod_lt _ (by decide)
        norm_num at this
        omega
    · rename_i hlt
      nlinarith

/-- A window of `w` zero bytes after `PutUvarint`: the varint of the
specification, then zero bytes up to `w`. -/
theorem putUvarint_replicate (w x : Nat) (out : List Byte) (n : Nat)
    (h : PutUvarint (List.replicate w 0) x = some (out, n)) :
    out = uvarint x ++ List.replicate (w - (uvarint x).length) 0 ∧
      (uvarint x).length = n ∧ n ≤ w ∧ x < 2 ^ (7 * w) := by
  have hl := putUvarint_length _ _ _ _ h
  rw [List.length_replicate] at hl
  have ht := putUvarint_take_eq_uvarint _ _ _ _ h
  have hd := putUvarint_drop _ _ _ _ h
  have hlt := putUvarint_lt _ _ _ _ h
  rw [List.length_replicate] at hlt
  have hn : (uvarint x).length = n := by rw [← ht, List.length_take]; omega
  refine ⟨?_, hn, hl.2.2, hlt⟩
  rw [hn, ← ht, ← List.drop_replicate, ← hd, List.take_append_drop]

/-- The varint of the specification fits `w` bytes exactly when the value is
below `2^(7w)`. -/
theorem uvarint_length_le_iff (w x : Nat) (hw : 1 ≤ w) :
    (uvarint x).length ≤ w ↔ x < 2 ^ (7 * w) := by
  constructor
  · intro h
    induction w generalizing x with
    | zero => omega
    | succ w ih =>
      have hpow : (2:Nat) ^ (7 * (w + 1)) = 128 * 2 ^ (7 * w) := by
        rw [show 7 * (w + 1) = 7 + 7 * w by ring, pow_add]; norm_num
      have hpos : 0 < (2:Nat) ^ (7 * w) := by positivity
      rw [hpow]
      rw [uvarint] at h
      split at h
      · nlinarith
      · rename_i hge
        simp only [List.length_cons] at h
        have hw1 : 1 ≤ w := by
          by_contra hc
          have : w = 0 := by omega
          subst this
          have : 1 ≤ (uvarint (x / 128)).length := by
            rw [uvarint]; split <;> simp
          omega
        have := ih (x / 128) hw1 (by omega)
        have h2 := Nat.div_add_mod x 128
        omega
  · intro h
    obtain ⟨out, n, hp⟩ := putUvarint_isSome (List.replicate w 0) x
      (by rw [List.length_replicate]; exact h) (by rw [List.length_replicate]; exact hw)
    obtain ⟨_, hn, hle, _⟩ := putUvarint_replicate w x out n hp
    omega

/-- What the varint reader returns without error over at most `9 - i` bytes,
entered at iteration `i`, has 7 bits per byte read. -/
theorem readLoop_lt (bs : List Byte) :
    ∀ (acc i x : Nat), ReadUvarint.loop bs acc (7 * i) i = (x, none) → acc < 2 ^ (7 * i) →
      i + bs.length ≤ 9 → x < 2 ^ (7 * (i + bs.length)) := by
  induction bs with
  | nil =>
    intro acc i x h
    unfold ReadUvarint.loop at h
    split at h <;> simp at h
  | cons b rest ih =>
    intro acc i x h hacc hlen
    simp only [List.length_cons] at hlen ⊢
    have hpow : (2:Nat) ^ (7 * (i + 1)) = 128 * 2 ^ (7 * i) := by
      rw [show 7 * (i + 1) = 7 + 7 * i by ring, pow_add]; norm_num
    have hmono : (2:Nat) ^ (7 * (i + 1)) ≤ 2 ^ (7 * (i + (rest.length + 1))) :=
      Nat.pow_le_pow_right (by decide) (by omega)
    have h56 : (2:Nat) ^ (7 * i) ≤ 2 ^ 56 := Nat.pow_le_pow_right (by decide) (by omega)
    have hfit : ∀ v, v < 128 → v * 2 ^ (7 * i) < 2 ^ 64 := by
      intro v hv
      calc v * 2 ^ (7 * i) < 128 * 2 ^ 56 :=
            Nat.mul_lt_mul_of_lt_of_le hv h56 (by positivity)
        _ ≤ 2 ^ 64 := by norm_num
    unfold ReadUvarint.loop at h
    rw [if_pos (by omega)] at h
    split at h
    · rename_i hb
      rw [if_neg (by omega)] at h
      rw [lor_shiftLeft_mod_eq_add _ _ _ hacc (hfit _ hb)] at h
      simp only [Prod.mk.injEq, and_true] at h
      have : b.val * 2 ^ (7 * i) ≤ 127 * 2 ^ (7 * i) := Nat.mul_le_mul_right _ (by omega)
      omega
    · rename_i hb
      have hm : b.val % 128 < 128 := Nat.mod_lt _ (by decide)
      rw [land_0x7f, lor_shiftLeft_mod_eq_add _ _ _ hacc (hfit _ hm),
        show 7 * i + 7 = 7 * (i + 1) by ring] at h
      have hacc2 : acc + b.val % 128 * 2 ^ (7 * i) < 2 ^ (7 * (i + 1)) := by
        have : b.val % 128 * 2 ^ (7 * i) ≤ 127 * 2 ^ (7 * i) :=
          Nat.mul_le_mul_right _ (by omega)
        omega
      have := ih _ (i + 1) x h hacc2 (by omega)
      rw [show i + 1 + rest.length = i + (rest.length + 1) by omega] at this
      exact this

/-- What `ReadUvarint` returns without error over `w <= 9` bytes is below
`2^(7w)`. -/
theorem readUvarint_lt (bs : List Byte) (x : Nat) (hlen : bs.length ≤ 9)
    (h : ReadUvarint bs = (x, none)) : x < 2 ^ (7 * bs.length) := by
  have := readLoop_lt bs 0 0 x (by simpa [ReadUvarint] using h) (by simp) (by omega)
  simpa using this

/-- What `ReadVarint` returns without error over `w <= 8` bytes lies in
`-2^(7w-1) <= v < 2^(7w-1)`. -/
theorem readVarint_range (bs : List Byte) (v : Int) (w : Nat) (hw : 1 ≤ w) (hw8 : w ≤ 8)
    (hlen : bs.length = w) (h : ReadVarint bs = (v, none)) :
    -2 ^ (7 * w - 1) ≤ v ∧ v < 2 ^ (7 * w - 1) := by
  unfold ReadVarint at h
  rcases hr : ReadUvarint bs with ⟨ux, e⟩
  rw [hr] at h
  simp only [Prod.mk.injEq] at h
  obtain ⟨hv, he⟩ := h
  subst he
  have hlt := readUvarint_lt bs ux (by omega) hr
  rw [hlen] at hlt
  have hle : (2:Nat) ^ (7 * w) ≤ 2 ^ 56 := Nat.pow_le_pow_right (by decide) (by omega)
  have hpow : (2:Nat) ^ (7 * w) = 2 * 2 ^ (7 * w - 1) := by
    rw [← pow_succ']; congr 1; omega
  have hcast : ((2 ^ (7 * w - 1) : Nat) : Int) = 2 ^ (7 * w - 1) := by push_cast; rfl
  have hhalf : ux / 2 < 2 ^ (7 * w - 1) := by omega
  have h64 : int64 (ux >>> 1) = ((ux / 2 : Nat) : Int) := by
    rw [Nat.shiftRight_eq_div_pow, pow_one]
    exact int64_of_lt _ (by omega)
  rw [h64, Nat.and_one_is_mod] at hv
  rw [← hcast]
  split at hv <;> omega

/-! ### The integer kinds, one by one -/

/-- What `EncodeInt` appends when the varint fits its window of 8. -/
theorem EncodeInt_layout (e : Encoder) (x : Int)
    (hfit : (uvarint (zigzag x)).length ≤ 8) :
    e.EncodeInt x = some ⟨e.data ++ codingTypeInt ::
      (uvarint (zigzag x) ++ List.replicate (8 - (uvarint (zigzag x)).length) 0)⟩ := by
  have hlt := (uvarint_length_le_iff 8 (zigzag x) (by decide)).mp hfit
  obtain ⟨out, n, hp⟩ := putUvarint_isSome (List.replicate 8 0) (zigzag x)
    (by rw [List.length_replicate]; exact hlt) (by simp)
  obtain ⟨hout, _⟩ := putUvarint_replicate 8 (zigzag x) out n hp
  unfold EncodeInt
  simp only [putVarint_eq_zigzag, hp, appendBytes, appendByte, List.append_assoc,
    List.singleton_append, hout]

/-- The values for which `EncodeInt` completes. -/
theorem EncodeInt_isSome_iff (e : Encoder) (x : Int) (hlo : -2 ^ 63 ≤ x) (hhi : x < 2 ^ 63) :
    (∃ e1, e.EncodeInt x = some e1) ↔ (-2 ^ (7 * 8 - 1) ≤ x ∧ x < 2 ^ (7 * 8 - 1)) := by
  have hz := zigzag_eq x (by omega) (by omega)
  constructor
  · rintro ⟨e1, h⟩
    obtain ⟨b, n, hp, _⟩ := EncodeInt_data e e1 x h
    rw [putVarint_eq_zigzag] at hp
    have hlt := putUvarint_lt _ _ _ _ hp
    rw [List.length_replicate, hz] at hlt
    norm_num at hlt ⊢
    split at hlt <;> omega
  · intro hr
    have hlt : zigzag x < 2 ^ (7 * 8) := by
      rw [hz]
      norm_num at hr ⊢
      split <;> omega
    exact ⟨_, EncodeInt_layout e x ((uvarint_length_le_iff 8 _ (by decide)).mpr hlt)⟩

/-- What `DecodeInt` returns without error is the varint of its window of 8,
and it lies in the range of that window. -/
theorem DecodeInt_range (d d1 : Decoder) (v : Int)
    (h : d.DecodeInt = some ((v, none), d1)) :
    (-2 ^ (7 * 8 - 1) ≤ v ∧ v < 2 ^ (7 * 8 - 1)) ∧
      (ReadVarint ((d.data.drop (d.offset + 1).toNat).take 8)).1 = v := by
  unfold DecodeInt at h
  split at h
  · exact Option.noConfusion h
  · simp only [Option.some.injEq, Prod.mk.injEq] at h
    exact Option.noConfusion h.1.2
  · rename_i d2 hct
    rcases checkType_result _ _ _ _ hct with ⟨hr, _⟩ | ⟨hr, _⟩ | ⟨_, hd2, h0, hlt, _⟩
    · exact Option.noConfusion hr
    · exact Option.noConfusion hr
    · subst hd2
      split at h
      · exact Option.noConfusion h
      · simp only [Option.some.injEq, Prod.mk.injEq] at h
        exact Option.noConfusion h.1.2
      · rename_i i d3 hdi
        simp only [Option.some.injEq, Prod.mk.injEq, and_true] at h
        rcases decodeInt64_result _ _ _ _ _ hdi with ⟨hr, _⟩ | ⟨_, _, _, hlen, hrd, _⟩
        · exact Option.noConfusion hr
        · dsimp only at hlen hrd
          rw [show (8 : Int).toNat = 8 from rfl] at hrd
          have hwin : ((d.data.drop (d.offset + 1).toNat).take 8).length = 8 := by
            rw [List.length_take, List.length_drop]; omega
          have hrange := readVarint_range _ i 8 (by decide) (by decide) hwin hrd
          have hvi : v = i := by
            rw [← h.1]
          subst hvi
          exact ⟨hrange, by rw [hrd]⟩

/-- What `EncodeInt64` appends when the varint fits its window of 8. -/
theorem EncodeInt64_layout (e : Encoder) (x : Int)
    (hfit : (uvarint (zigzag x)).length ≤ 8) :
    e.EncodeInt64 x = some ⟨e.data ++ codingTypeInt64 ::
      (uvarint (zigzag x) ++ List.replicate (8 - (uvarint (zigzag x)).length) 0)⟩ := by
  have hlt := (uvarint_length_le_iff 8 (zigzag x) (by decide)).mp hfit
  obtain ⟨out, n, hp⟩ := putUvarint_isSome (List.replicate 8 0) (zigzag x)
    (by rw [List.length_replicate]; exact hlt) (by simp)
  obtain ⟨hout, _⟩ := putUvarint_replicate 8 (zigzag x) out n hp
  unfold EncodeInt64
  simp only [putVarint_eq_zigzag, hp, appendBytes, appendByte, List.append_assoc,
    List.singleton_append, hout]

/-- The values for which `EncodeInt64` completes. -/
theorem EncodeInt64_isSome_iff (e : Encoder) (x : Int) (hlo : -2 ^ 63 ≤ x) (hhi : x < 2 ^ 63) :
    (∃ e1, e.EncodeInt64 x = some e1) ↔ (-2 ^ (7 * 8 - 1) ≤ x ∧ x < 2 ^ (7 * 8 - 1)) := by
  have hz := zigzag_eq x (by omega) (by omega)
  constructor
  · rintro ⟨e1, h⟩
    obtain ⟨b, n, hp, _⟩ := EncodeInt64_data e e1 x h
    rw [putVarint_eq_zigzag] at hp
    have hlt := putUvarint_lt _ _ _ _ hp
    rw [List.length_replicate, hz] at hlt
    norm_num at hlt ⊢
    split at hlt <;> omega
  · intro hr
    have hlt : zigzag x < 2 ^ (7 * 8) := by
      rw [hz]
      norm_num at hr ⊢
      split <;> omega
    exact ⟨_, EncodeInt64_layout e x ((uvarint_length_le_iff 8 _ (by decide)).mpr hlt)⟩

/-- What `DecodeInt64` returns without error is the varint of its window of 8,
and it lies in the range of that window. -/
theorem DecodeInt64_range (d d1 : Decoder) (v : Int)
    (h : d.DecodeInt64 = some ((v, none), d1)) :
    (-2 ^ (7 * 8 - 1) ≤ v ∧ v < 2 ^ (7 * 8 - 1)) ∧
      (ReadVarint ((d.data.drop (d.offset + 1).toNat).take 8)).1 = v := by
  unfold DecodeInt64 at h
  split at h
  · exact Option.noConfusion h
  · simp only [Option.some.injEq, Prod.mk.injEq] at h
    exact Option.noConfusion h.1.2
  · rename_i d2 hct
    rcases checkType_result _ _ _ _ hct with ⟨hr, _⟩ | ⟨hr, _⟩ | ⟨_, hd2, h0, hlt, _⟩
    · exact Option.noConfusion hr
    · exact Option.noConfusion hr
    · subst hd2
      split at h
      · exact Option.noConfusion h
      · simp only [Option.some.injEq, Prod.mk.injEq] at h
        exact Option.noConfusion h.1.2
      · rename_i i d3 hdi
        simp only [Option.some.injEq, Prod.mk.injEq, and_true] at h
        rcases decodeInt64_result _ _ _ _ _ hdi with ⟨hr, _⟩ | ⟨_, _, _, hlen, hrd, _⟩
        · exact Option.noConfusion hr
        · dsimp only at hlen hrd
          rw [show (8 : Int).toNat = 8 from rfl] at hrd
          have hwin : ((d.data.drop (d.offset + 1).toNat).take 8).length = 8 := by
            rw [List.length_take, List.length_drop]; omega
          have hrange := readVarint_range _ i 8 (by decide) (by decide) hwin hrd
          have hvi : v = i := by
            rw [← h.1]
          subst hvi
          exact ⟨hrange, by rw [hrd]⟩

/-- What `EncodeInt32` appends when the varint fits its window of 4. -/
theorem EncodeInt32_layout (e : Encoder) (x : Int)
    (hfit : (uvarint (zigzag x)).length ≤ 4) :
    e.EncodeInt32 x = some ⟨e.data ++ codingTypeInt32 ::
      (uvarint (zigzag x) ++ List.replicate (4 - (uvarint (zigzag x)).length) 0)⟩ := by
  have hlt := (uvarint_length_le_iff 4 (zigzag x) (by decide)).mp hfit
  obtain ⟨out, n, hp⟩ := putUvarint_isSome (List.replicate 4 0) (zigzag x)
    (by rw [List.length_replicate]; exact hlt) (by simp)
  obtain ⟨hout, _⟩ := putUvarint_replicate 4 (zigzag x) out n hp
  unfold EncodeInt32
  simp only [putVarint_eq_zigzag, hp, appendBytes, appendByte, List.append_assoc,
    List.singleton_append, hout]

/-- The values for which `EncodeInt32` completes. -/
theorem EncodeInt32_isSome_iff (e : Encoder) (x : Int) (hlo : -2 ^ 31 ≤ x) (hhi : x < 2 ^ 31) :
    (∃ e1, e.EncodeInt32 x = some e1) ↔ (-2 ^ (7 * 4 - 1) ≤ x ∧ x < 2 ^ (7 * 4 - 1)) := by
  have hz := zigzag_eq x (by omega) (by omega)
  constructor
  · rintro ⟨e1, h⟩
    obtain ⟨b, n, hp, _⟩ := EncodeInt32_data e e1 x h
    rw [putVarint_eq_zigzag] at hp
    have hlt := putUvarint_lt _ _ _ _ hp
    rw [List.length_replicate, hz] at hlt
    norm_num at hlt ⊢
    split at hlt <;> omega
  · intro hr
    have hlt : zigzag x < 2 ^ (7 * 4) := by
      rw [hz]
      norm_num at hr ⊢
      split <;> omega
    exact ⟨_, EncodeInt32_layout e x ((uvarint_length_le_iff 4 _ (by decide)).mpr hlt)⟩

/-- What `DecodeInt32` returns without error is the varint of its window of 4,
and it lies in the range of that window. -/
theorem DecodeInt32_range (d d1 : Decoder) (v : Int)
    (h : d.DecodeInt32 = some ((v, none), d1)) :
    (-2 ^ (7 * 4 - 1) ≤ v ∧ v < 2 ^ (7 * 4 - 1)) ∧
      (ReadVarint ((d.data.drop (d.offset + 1).toNat).take 4)).1 = v := by
  unfold DecodeInt32 at h
  split at h
  · exact Option.noConfusion h
  · simp only [Option.some.injEq, Prod.mk.injEq] at h
    exact Option.noConfusion h.1.2
  · rename_i d2 hct
    rcases checkType_result _ _ _ _ hct with ⟨hr, _⟩ | ⟨hr, _⟩ | ⟨_, hd2, h0, hlt, _⟩
    · exact Option.noConfusion hr
    · exact Option.noConfusion hr
    · subst hd2
      split at h
      · exact Option.noConfusion h
      · simp only [Option.some.injEq, Prod.mk.injEq] at h
        exact Option.noConfusion h.1.2
      · rename_i i d3 hdi
        simp only [Option.some.injEq, Prod.mk.injEq, and_true] at h
        rcases decodeInt64_result _ _ _ _ _ hdi with ⟨hr, _⟩ | ⟨_, _, _, hlen, hrd, _⟩
        · exact Option.noConfusion hr
        · dsimp only at hlen hrd
          rw [show (4 : Int).toNat = 4 from rfl] at hrd
          have hwin : ((d.data.drop (d.offset + 1).toNat).take 4).length = 4 := by
            rw [List.length_take, List.length_drop]; omega
          have hrange := readVarint_range _ i 4 (by decide) (by decide) hwin hrd
          have hvi : v = i := by
            rw [← h.1]
            norm_num at hrange
            unfold int32
            omega
          subst hvi
          exact ⟨hrange, by rw [hrd]⟩

/-- What `EncodeInt16` appends when the varint fits its window of 2. -/
theorem EncodeInt16_layout (e : Encoder) (x : Int)
    (hfit : (uvarint (zigzag x)).length ≤ 2) :
    e.EncodeInt16 x = some ⟨e.data ++ codingTypeInt16 ::
      (uvarint (zigzag x) ++ List.replicate (2 - (uvarint (zigzag x)).length) 0)⟩ := by
  have hlt := (uvarint_length_le_iff 2 (zigzag x) (by decide)).mp hfit
  obtain ⟨out, n, hp⟩ := putUvarint_isSome (List.replicate 2 0) (zigzag x)
    (by rw [List.length_replicate]; exact hlt) (by simp)
  obtain ⟨hout, _⟩ := putUvarint_replicate 2 (zigzag x) out n hp
  unfold EncodeInt16
  simp only [putVarint_eq_zigzag, hp, appendBytes, appendByte, List.append_assoc,
    List.singleton_append, hout]

/-- The values for which `EncodeInt16` completes. -/
theorem EncodeInt16_isSome_iff (e : Encoder) (x : Int) (hlo : -2 ^ 15 ≤ x) (hhi : x < 2 ^ 15) :
    (∃ e1, e.EncodeInt16 x = some e1) ↔ (-2 ^ (7 * 2 - 1) ≤ x ∧ x < 2 ^ (7 * 2 - 1)) := by
  have hz := zigzag_eq x (by omega) (by omega)
  constructor
  · rintro ⟨e1, h⟩
    obtain ⟨b, n, hp, _⟩ := EncodeInt16_data e e1 x h
    rw [putVarint_eq_zigzag] at hp
    have hlt := putUvarint_lt _ _ _ _ hp
    rw [List.length_replicate, hz] at hlt
    norm_num at hlt ⊢
    split at hlt <;> omega
  · intro hr
    have hlt : zigzag x < 2 ^ (7 * 2) := by
      rw [hz]
      norm_num at hr ⊢
      split <;> omega
    exact ⟨_, EncodeInt16_layout e x ((uvarint_length_le_iff 2 _ (by decide)).mpr hlt)⟩

/-- What `DecodeInt16` returns without error is the varint of its window of 2,
and it lies in the range of that window. -/
theorem DecodeInt16_range (d d1 : Decoder) (v : Int)
    (h : d.DecodeInt16 = some ((v, none), d1)) :
    (-2 ^ (7 * 2 - 1) ≤ v ∧ v < 2 ^ (7 * 2 - 1)) ∧
      (ReadVarint ((d.data.drop (d.offset + 1).toNat).take 2)).1 = v := by
  unfold DecodeInt16 at h
  split at h
  · exact Option.noConfusion h
  · simp only [Option.some.injEq, Prod.mk.injEq] at h
    exact Option.noConfusion h.1.2
  · rename_i d2 hct
    rcases checkType_result _ _ _ _ hct with ⟨hr, _⟩ | ⟨hr, _⟩ | ⟨_, hd2, h0, hlt, _⟩
    · exact Option.noConfusion hr
    · exact Option.noConfusion hr
    · subst hd2
      split at h
      · exact Option.noConfusion h
      · simp only [Option.some.injEq, Prod.mk.injEq] at h
        exact Option.noConfusion h.1.2
      · rename_i i d3 hdi
        simp only [Option.some.injEq, Prod.mk.injEq, and_true] at h
        rcases decodeInt64_result _ _ _ _ _ hdi with ⟨hr, _⟩ | ⟨_, _, _, hlen, hrd, _⟩
        · exact Option.noConfusion hr
        · dsimp only at hlen hrd
          rw [show (2 : Int).toNat = 2 from rfl] at hrd
          have hwin : ((d.data.drop (d.offset + 1).toNat).take 2).length = 2 := by
            rw [List.length_take, List.length_drop]; omega
          have hrange := readVarint_range _ i 2 (by decide) (by decide) hwin hrd
          have hvi : v = i := by
            rw [← h.1]
            norm_num at hrange
            unfold int16
            omega
          subst hvi
          exact ⟨hrange, by rw [hrd]⟩

/-- What `EncodeInt8` appends when the varint fits its window of 1. -/
theorem EncodeInt8_layout (e : Encoder) (x : Int)
    (hfit : (uvarint (zigzag x)).length ≤ 1) :
    e.EncodeInt8 x = some ⟨e.data ++ codingTypeInt8 ::
      (uvarint (zigzag x) ++ List.replicate (1 - (uvarint (zigzag x)).length) 0)⟩ := by
  have hlt := (uvarint_length_le_iff 1 (zigzag x) (by decide)).mp hfit
  obtain ⟨out, n, hp⟩ := putUvarint_isSome (List.replicate 1 0) (zigzag x)
    (by rw [List.length_replicate]; exact hlt) (by simp)
  obtain ⟨hout, _⟩ := putUvarint_replicate 1 (zigzag x) out n hp
  unfold EncodeInt8
  simp only [putVarint_eq_zigzag, hp, appendBytes, appendByte, List.append_assoc,
    List.singleton_append, hout]

/-- The values for which `EncodeInt8` completes. -/
theorem EncodeInt8_isSome_iff (e : Encoder) (x : Int) (hlo : -2 ^ 7 ≤ x) (hhi : x < 2 ^ 7) :
    (∃ e1, e.EncodeInt8 x = some e1) ↔ (-2 ^ (7 * 1 - 1) ≤ x ∧ x < 2 ^ (7 * 1 - 1)) := by
  have hz := zigzag_eq x (by omega) (by omega)
  constructor
  · rintro ⟨e1, h⟩
    obtain ⟨b, n, hp, _⟩ := EncodeInt8_data e e1 x h
    rw [putVarint_eq_zigzag] at hp
    have hlt := putUvarint_lt _ _ _ _ hp
    rw [List.length_replicate, hz] at hlt
    norm_num at hlt ⊢
    split at hlt <;> omega
  · intro hr
    have hlt : zigzag x < 2 ^ (7 * 1) := by
      rw [hz]
      norm_num at hr ⊢
      split <;> omega
    exact ⟨_, EncodeInt8_layout e x ((uvarint_length_le_iff 1 _ (by decide)).mpr hlt)⟩

/-- What `DecodeInt8` returns without error is the varint of its window of 1,
and it lies in the range of that window. -/
theorem DecodeInt8_range (d d1 : Decoder) (v : Int)
    (h : d.DecodeInt8 = some ((v, none), d1)) :
    (-2 ^ (7 * 1 - 1) ≤ v ∧ v < 2 ^ (7 * 1 - 1)) ∧
      (ReadVarint ((d.data.drop (d.offset + 1).toNat).take 1)).1 = v := by
  unfold DecodeInt8 at h
  split at h
  · exact Option.noConfusion h
  · simp only [Option.some.injEq, Prod.mk.injEq] at h
    exact Option.noConfusion h.1.2
  · rename_i d2 hct
    rcases checkType_result _ _ _ _ hct with ⟨hr, _⟩ | ⟨hr, _⟩ | ⟨_, hd2, h0, hlt, _⟩
    · exact Option.noConfusion hr
    · exact Option.noConfusion hr
    · subst hd2
      split at h
      · exact Option.noConfusion h
      · simp only [Option.some.injEq, Prod.mk.injEq] at h
        exact Option.noConfusion h.1.2
      · rename_i i d3 hdi
        simp only [Option.some.injEq, Prod.mk.injEq, and_true] at h
        rcases decodeInt64_result _ _ _ _ _ hdi with ⟨hr, _⟩ | ⟨_, _, _, hlen, hrd, _⟩
        · exact Option.noConfusion hr
        · dsimp only at hlen hrd
          rw [show (1 : Int).toNat = 1 from rfl] at hrd
          have hwin : ((d.data.drop (d.offset + 1).toNat).take 1).length = 1 := by
            rw [List.length_take, List.length_drop]; omega
          have hrange := readVarint_range _ i 1 (by decide) (by decide) hwin hrd
          have hvi : v = i := by
            rw [← h.1]
            norm_num at hrange
            unfold int8
            omega
          subst hvi
          exact ⟨hrange, by rw [hrd]⟩

/-- What `EncodeUint` appends when the varint fits its window of 8. -/
theorem EncodeUint_layout (e : Encoder) (x : Nat) (hfit : (uvarint x).length ≤ 8) :
    e.EncodeUint x = some ⟨e.data ++ codingTypeUint ::
      (uvarint x ++ List.replicate (8 - (uvarint x).length) 0)⟩ := by
  have hlt := (uvarint_length_le_iff 8 x (by decide)).mp hfit
  obtain ⟨out, n, hp⟩ := putUvarint_isSome (List.replicate 8 0) x
    (by rw [List.length_replicate]; exact hlt) (by simp)
  obtain ⟨hout, _⟩ := putUvarint_replicate 8 x out n hp
  unfold EncodeUint
  simp only [hp, appendBytes, appendByte, List.append_assoc, List.singleton_append, hout]

/-- The values for which `EncodeUint` completes. -/
theorem EncodeUint_isSome_iff (e : Encoder) (x : Nat) :
    (∃ e1, e.EncodeUint x = some e1) ↔ x < 2 ^ (7 * 8) := by
  constructor
  · rintro ⟨e1, h⟩
    obtain ⟨b, n, hp, _⟩ := EncodeUint_data e e1 x h
    have hlt := putUvarint_lt _ _ _ _ hp
    rw [List.length_replicate] at hlt
    exact hlt
  · intro hlt
    exact ⟨_, EncodeUint_layout e x ((uvarint_length_le_iff 8 _ (by decide)).mpr hlt)⟩

/-- What `DecodeUint` returns without error is the varint of its window of 8,
and it is below `2^(7*8)`. -/
theorem DecodeUint_range (d d1 : Decoder) (v : Nat)
    (h : d.DecodeUint = some ((v, none), d1)) :
    v < 2 ^ (7 * 8) ∧
      (ReadUvarint ((d.data.drop (d.offset + 1).toNat).take 8)).1 = v := by
  unfold DecodeUint at h
  split at h
  · exact Option.noConfusion h
  · simp only [Option.some.injEq, Prod.mk.injEq] at h
    exact Option.noConfusion h.1.2
  · rename_i d2 hct
    rcases checkType_result _ _ _ _ hct with ⟨hr, _⟩ | ⟨hr, _⟩ | ⟨_, hd2, h0, hlt, _⟩
    · exact Option.noConfusion hr
    · exact Option.noConfusion hr
    · subst hd2
      split at h
      · exact Option.noConfusion h
      · simp only [Option.some.injEq, Prod.mk.injEq] at h
        exact Option.noConfusion h.1.2
      · rename_i i d3 hdi
        simp only [Option.some.injEq, Prod.mk.injEq, and_true] at h
        rcases decodeUint64_result _ _ _ _ _ hdi with ⟨hr, _⟩ | ⟨_, _, _, hlen, hrd, _⟩
        · exact Option.noConfusion hr
        · dsimp only at hlen hrd
          rw [show (8 : Int).toNat = 8 from rfl] at hrd
          have hwin : ((d.data.drop (d.offset + 1).toNat).take 8).length = 8 := by
            rw [List.length_take, List.length_drop]; omega
          have hrange := readUvarint_lt _ i (by omega) hrd
          rw [hwin] at hrange
          have hvi : v = i := by
            rw [← h.1]
          subst hvi
          exact ⟨hrange, by rw [hrd]⟩

/-- What `EncodeUint64` appends when the varint fits its window of 8. -/
theorem EncodeUint64_layout (e : Encoder) (x : Nat) (hfit : (uvarint x).length ≤ 8) :
    e.EncodeUint64 x = some ⟨e.data ++ codingTypeUint64 ::
      (uvarint x ++ List.replicate (8 - (uvarint x).length) 0)⟩ := by
  have hlt := (uvarint_length_le_iff 8 x (by decide)).mp hfit
  obtain ⟨out, n, hp⟩ := putUvarint_isSome (List.replicate 8 0) x
    (by rw [List.length_replicate]; exact hlt) (by simp)
  obtain ⟨hout, _⟩ := putUvarint_replicate 8 x out n hp
  unfold EncodeUint64
  simp only [hp, appendBytes, appendByte, List.append_assoc, List.singleton_append, hout]

/-- The values for which `EncodeUint64` completes. -/
theorem EncodeUint64_isSome_iff (e : Encoder) (x : Nat) :
    (∃ e1, e.EncodeUint64 x = some e1) ↔ x < 2 ^ (7 * 8) := by
  constructor
  · rintro ⟨e1, h⟩
    obtain ⟨b, n, hp, _⟩ := EncodeUint64_data e e1 x h
    have hlt := putUvarint_lt _ _ _ _ hp
    rw [List.length_replicate] at hlt
    exact hlt
  · intro hlt
    exact ⟨_, EncodeUint64_layout e x ((uvarint_length_le_iff 8 _ (by decide)).mpr hlt)⟩

/-- What `DecodeUint64` returns without error is the varint of its window of 8,
and it is below `2^(7*8)`. -/
theorem DecodeUint64_range (d d1 : Decoder) (v : Nat)
    (h : d.DecodeUint64 = some ((v, none), d1)) :
    v < 2 ^ (7 * 8) ∧
      (ReadUvarint ((d.data.drop (d.offset + 1).toNat).take 8)).1 = v := by
  unfold DecodeUint64 at h
  split at h
  · exact Option.noConfusion h
  · simp only [Option.some.injEq, Prod.mk.injEq] at h
    exact Option.noConfusion h.1.2
  · rename_i d2 hct
    rcases checkType_result _ _ _ _ hct with ⟨hr, _⟩ | ⟨hr, _⟩ | ⟨_, hd2, h0, hlt, _⟩
    · exact Option.noConfusion hr
    · exact Option.noConfusion hr
    · subst hd2
      split at h
      · exact Option.noConfusion h
      · simp only [Option.some.injEq, Prod.mk.injEq] at h
        exact Option.noConfusion h.1.2
      · rename_i i d3 hdi
        simp only [Option.some.injEq, Prod.mk.injEq, and_true] at h
        rcases decodeUint64_result _ _ _ _ _ hdi with ⟨hr, _⟩ | ⟨_, _, _, hlen, hrd, _⟩
        · exact Option.noConfusion hr
        · dsimp only at hlen hrd
          rw [show (8 : Int).toNat = 8 from rfl] at hrd
          have hwin : ((d.data.drop (d.offset + 1).toNat).take 8).length = 8 := by
            rw [List.length_take, List.length_drop]; omega
          have hrange := readUvarint_lt _ i (by omega) hrd
          rw [hwin] at hrange
          have hvi : v = i := by
            rw [← h.1]
          subst hvi
          exact ⟨hrange, by rw [hrd]⟩

/-- What `EncodeUint32` appends when the varint fits its window of 4. -/
theorem EncodeUint32_layout (e : Encoder) (x : Nat) (hfit : (uvarint x).length ≤ 4) :
    e.EncodeUint32 x = some ⟨e.data ++ codingTypeUint32 ::
      (uvarint x ++ List.replicate (4 - (uvarint x).length) 0)⟩ := by
  have hlt := (uvarint_length_le_iff 4 x (by decide)).mp hfit
  obtain ⟨out, n, hp⟩ := putUvarint_isSome (List.replicate 4 0) x
    (by rw [List.length_replicate]; exact hlt) (by simp)
  obtain ⟨hout, _⟩ := putUvarint_replicate 4 x out n hp
  unfold EncodeUint32
  simp only [hp, appendBytes, appendByte, List.append_assoc, List.singleton_append, hout]

/-- The values for which `EncodeUint32` completes. -/
theorem EncodeUint32_isSome_iff (e : Encoder) (x : Nat) :
    (∃ e1, e.EncodeUint32 x = some e1) ↔ x < 2 ^ (7 * 4) := by
  constructor
  · rintro ⟨e1, h⟩
    obtain ⟨b, n, hp, _⟩ := EncodeUint32_data e e1 x h
    have hlt := putUvarint_lt _ _ _ _ hp
    rw [List.length_replicate] at hlt
    exact hlt
  · intro hlt
    exact ⟨_, EncodeUint32_layout e x ((uvarint_length_le_iff 4 _ (by decide)).mpr hlt)⟩

/-- What `DecodeUint32` returns without error is the varint of its window of 4,
and it is below `2^(7*4)`. -/
theorem DecodeUint32_range (d d1 : Decoder) (v : Nat)
    (h : d.DecodeUint32 = some ((v, none), d1)) :
    v < 2 ^ (7 * 4) ∧
      (ReadUvarint ((d.data.drop (d.offset + 1).toNat).take 4)).1 = v := by
  unfold DecodeUint32 at h
  split at h
  · exact Option.noConfusion h
  · simp only [Option.some.injEq, Prod.mk.injEq] at h
    exact Option.noConfusion h.1.2
  · rename_i d2 hct
    rcases checkType_result _ _ _ _ hct with ⟨hr, _⟩ | ⟨hr, _⟩ | ⟨_, hd2, h0, hlt, _⟩
    · exact Option.noConfusion hr
    · exact Option.noConfusion hr
    · subst hd2
      split at h
      · exact Option.noConfusion h
      · simp only [Option.some.injEq, Prod.mk.injEq] at h
        exact Option.noConfusion h.1.2
      · rename_i i d3 hdi
        simp only [Option.some.injEq, Prod.mk.injEq, and_true] at h
        rcases decodeUint64_result _ _ _ _ _ hdi with ⟨hr, _⟩ | ⟨_, _, _, hlen, hrd, _⟩
        · exact Option.noConfusion hr
        · dsimp only at hlen hrd
          rw [show (4 : Int).toNat = 4 from rfl] at hrd
          have hwin : ((d.data.drop (d.offset + 1).toNat).take 4).length = 4 := by
            rw [List.length_take, List.length_drop]; omega
          have hrange := readUvarint_lt _ i (by omega) hrd
          rw [hwin] at hrange
          have hvi : v = i := by
            rw [← h.1]
            norm_num at hrange
            unfold uint32
            omega
          subst hvi
          exact ⟨hrange, by rw [hrd]⟩

/-- What `EncodeUint16` appends when the varint fits its window of 2. -/
theorem EncodeUint16_layout (e : Encoder) (x : Nat) (hfit : (uvarint x).length ≤ 2) :
    e.EncodeUint16 x = some ⟨e.data ++ codingTypeUint16 ::
      (uvarint x ++ List.replicate (2 - (uvarint x).length) 0)⟩ := by
  have hlt := (uvarint_length_le_iff 2 x (by decide)).mp hfit
  obtain ⟨out, n, hp⟩ := putUvarint_isSome (List.replicate 2 0) x
    (by rw [List.length_replicate]; exact hlt) (by simp)
  obtain ⟨hout, _⟩ := putUvarint_replicate 2 x out n hp
  unfold EncodeUint16
  simp only [hp, appendBytes, appendByte, List.append_assoc, List.singleton_append, hout]

/-- The values for which `EncodeUint16` completes. -/
theorem EncodeUint16_isSome_iff (e : Encoder) (x : Nat) :
    (∃ e1, e.EncodeUint16 x = some e1) ↔ x < 2 ^ (7 * 2) := by
  constructor
  · rintro ⟨e1, h⟩
    obtain ⟨b, n, hp, _⟩ := EncodeUint16_data e e1 x h
    have hlt := putUvarint_lt _ _ _ _ hp
    rw [List.length_replicate] at hlt
    exact hlt
  · intro hlt
    exact ⟨_, EncodeUint16_layout e x ((uvarint_length_le_iff 2 _ (by decide)).mpr hlt)⟩

/-- What `DecodeUint16` returns without error is the varint of its window of 2,
and it is below `2^(7*2)`. -/
theorem DecodeUint16_range (d d1 : Decoder) (v : Nat)
    (h : d.DecodeUint16 = some ((v, none), d1)) :
    v < 2 ^ (7 * 2) ∧
      (ReadUvarint ((d.data.drop (d.offset + 1).toNat).take 2)).1 = v := by
  unfold DecodeUint16 at h
  split at h
  · exact Option.noConfusion h
  · simp only [Option.some.injEq, Prod.mk.injEq] at h
    exact Option.noConfusion h.1.2
  · rename_i d2 hct
    rcases checkType_result _ _ _ _ hct with ⟨hr, _⟩ | ⟨hr, _⟩ | ⟨_, hd2, h0, hlt, _⟩
    · exact Option.noConfusion hr
    · exact Option.noConfusion hr
    · subst hd2
      split at h
      · exact Option.noConfusion h
      · simp only [Option.some.injEq, Prod.mk.injEq] at h
        exact Option.noConfusion h.1.2
      · rename_i i d3 hdi
        simp only [Option.some.injEq, Prod.mk.injEq, and_true] at h
        rcases decodeUint64_result _ _ _ _ _ hdi with ⟨hr, _⟩ | ⟨_, _, _, hlen, hrd, _⟩
        · exact Option.noConfusion hr
        · dsimp only at hlen hrd
          rw [show (2 : Int).toNat = 2 from rfl] at hrd
          have hwin : ((d.data.drop (d.offset + 1).toNat).take 2).length = 2 := by
            rw [List.length_take, List.length_drop]; omega
          have hrange := readUvarint_lt _ i (by omega) hrd
          rw [hwin] at hrange
          have hvi : v = i := by
            rw [← h.1]
            norm_num at hrange
            unfold uint16
            omega
          subst hvi
          exact ⟨hrange, by rw [hrd]⟩

/-- What `EncodeUint8` appends when the varint fits its window of 1. -/
theorem EncodeUint8_layout (e : Encoder) (x : Nat) (hfit : (uvarint x).length ≤ 1) :
    e.EncodeUint8 x = some ⟨e.data ++ codingTypeUint8 ::
      (uvarint x ++ List.replicate (1 - (uvarint x).length) 0)⟩ := by
  have hlt := (uvarint_length_le_iff 1 x (by decide)).mp hfit
  obtain ⟨out, n, hp⟩ := putUvarint_isSome (List.replicate 1 0) x
    (by rw [List.length_replicate]; exact hlt) (by simp)
  obtain ⟨hout, _⟩ := putUvarint_replicate 1 x out n hp
  unfold EncodeUint8
  simp only [hp, appendBytes, appendByte, List.append_assoc, List.singleton_append, hout]

/-- The values for which `EncodeUint8` completes. -/
theorem EncodeUint8_isSome_iff (e : Encoder) (x : Nat) :
    (∃ e1, e.EncodeUint8 x = some e1) ↔ x < 2 ^ (7 * 1) := by
  constructor
  · rintro ⟨e1, h⟩
    obtain ⟨b, n, hp, _⟩ := EncodeUint8_data e e1 x h
    have hlt := putUvarint_lt _ _ _ _ hp
    rw [List.length_replicate] at hlt
    exact hlt
  · intro hlt
    exact ⟨_, EncodeUint8_layout e x ((uvarint_length_le_iff 1 _ (by decide)).mpr hlt)⟩

/-- What `DecodeUint8` returns without error is the varint of its window of 1,
and it is below `2^(7*1)`. -/
theorem DecodeUint8_range (d d1 : Decoder) (v : Nat)
    (h : d.DecodeUint8 = some ((v, none), d1)) :
    v < 2 ^ (7 * 1) ∧
      (ReadUvarint ((d.data.drop (d.offset + 1).toNat).take 1)).1 = v := by
  unfold DecodeUint8 at h
  split at h
  · exact Option.noConfusion h
  · simp only [Option.some.injEq, Prod.mk.injEq] at h
    exact Option.noConfusion h.1.2
  · rename_i d2 hct
    rcases checkType_result _ _ _ _ hct with ⟨hr, _⟩ | ⟨hr, _⟩ | ⟨_, hd2, h0, hlt, _⟩
    · exact Option.noConfusion hr
    · exact Option.noConfusion hr
    · subst hd2
      split at h
      · exact Option.noConfusion h
      · simp only [Option.some.injEq, Prod.mk.injEq] at h
        exact Option.noConfusion h.1.2
      · rename_i i d3 hdi
        simp only [Option.some.injEq, Prod.mk.injEq, and_true] at h
        rcases decodeUint64_result _ _ _ _ _ hdi with ⟨hr, _⟩ | ⟨_, _, _, hlen, hrd, _⟩
        · exact Option.noConfusion hr
        · dsimp only at hlen hrd
          rw [show (1 : Int).toNat = 1 from rfl] at hrd
          have hwin : ((d.data.drop (d.offset + 1).toNat).take 1).length = 1 := by
            rw [List.length_take, List.length_drop]; omega
          have hrange := readUvarint_lt _ i (by omega) hrd
          rw [hwin] at hrange
          have hvi : v = i := by
            rw [← h.1]
            norm_num at hrange
            unfold uint8
            omega
          subst hvi
          exact ⟨hrange, by rw [hrd]⟩

/-! ### The integer kinds through the type switch -/

/-- The values of an integer kind for which the encode completes are those of
the window range. -/
theorem encode_isSome_iff (e : Encoder) (v : Value) (hk : v.kind.isInteger = true)
    (hwt : v.WellTyped) : (∃ e1, e.Encode v = some e1) ↔ v.InWindow := by
  cases v with
  | bool x => exact absurd hk (by simp [Value.kind, Kind.isInteger])
  | int x =>
    simp only [Value.WellTyped] at hwt
    simp only [Encode, Value.InWindow]
    exact EncodeInt_isSome_iff e x hwt.1 hwt.2
  | int64 x =>
    simp only [Value.WellTyped] at hwt
    simp only [Encode, Value.InWindow]
    exact EncodeInt64_isSome_iff e x hwt.1 hwt.2
  | int32 x =>
    simp only [Value.WellTyped] at hwt
    simp only [Encode, Value.InWindow]
    exact EncodeInt32_isSome_iff e x hwt.1 hwt.2
  | int16 x =>
    simp only [Value.WellTyped] at hwt
    simp only [Encode, Value.InWindow]
    exact EncodeInt16_isSome_iff e x hwt.1 hwt.2
  | int8 x =>
    simp only [Value.WellTyped] at hwt
    simp only [Encode, Value.InWindow]
    exact EncodeInt8_isSome_iff e x hwt.1 hwt.2
  | uint x =>
    simp only [Encode, Value.InWindow]
    exact EncodeUint_isSome_iff e x
  | uint64 x =>
    simp only [Encode, Value.InWindow]
    exact EncodeUint64_isSome_iff e x
  | uint32 x =>
    simp only [Encode, Value.InWindow]
    exact EncodeUint32_isSome_iff e x
  | uint16 x =>
    simp only [Encode, Value.InWindow]
    exact EncodeUint16_isSome_iff e x
  | uint8 x =>
    simp only [Encode, Value.InWindow]
    exact EncodeUint8_isSome_iff e x
  | float64 x => exact absurd hk (by simp [Value.kind, Kind.isInteger])
  | float32 x => exact absurd hk (by simp [Value.kind, Kind.isInteger])
  | string x => exact absurd hk (by simp [Value.kind, Kind.isInteger])
  | data x => exact absurd hk (by simp [Value.kind, Kind.isInteger])

/-- A value in the window range is a value of its type. -/
theorem wellTyped_of_inWindow (v : Value) (h : v.InWindow) : v.WellTyped := by
  cases v <;> simp only [Value.InWindow] at h <;> simp only [Value.WellTyped] <;>
    norm_num at h ⊢ <;> omega

/-- The tags of the integer kinds are `0x01`..`0x0A`. -/
theorem kind_tag_bounds (k : Kind) (hk : k.isInteger = true) :
    1 ≤ k.tag.val ∧ k.tag.val ≤ 10 := by
  cases k <;> first | exact absurd hk (by decide) | exact ⟨by decide, by decide⟩

/-- C21: for every fixed-width integer kind with window `w` and every value `v`
whose varint fits in `w` bytes, `Encode<Kind>(v)` leaves the buffer as it was,
followed by exactly `1 + w` bytes: the tag byte of the kind (`0x01`..`0x0A`),
then the base-128 little-endian varint of `v` (of
`zigzag(v) = (v << 1) xor (v >> 63)` for the signed kinds), then zero bytes
padding the payload up to exactly `w` bytes. -/
theorem encode_integer_layout (e : Encoder) (v : Value) (hk : v.kind.isInteger = true)
    (hfit : v.varint.length ≤ v.kind.firstRead) :
    e.Encode v = some ⟨e.data ++ v.kind.tag ::
      (v.varint ++ List.replicate (v.kind.firstRead - v.varint.length) 0)⟩ ∧
    (v.varint ++ List.replicate (v.kind.firstRead - v.varint.length) 0).length =
      v.kind.firstRead ∧
    1 ≤ v.kind.tag.val ∧ v.kind.tag.val ≤ 10 := by
  have hlen : (v.varint ++ List.replicate (v.kind.firstRead - v.varint.length) 0).length =
      v.kind.firstRead := by
    rw [List.length_append, List.length_replicate]; omega
  refine ⟨?_, hlen, ?_, ?_⟩
  · cases v with
    | bool x => exact absurd hk (by simp [Value.kind, Kind.isInteger])
    | int x =>
      simp only [Value.varint, Value.kind, Kind.firstRead] at hfit
      simp only [Encode, Value.varint, Value.kind, Kind.firstRead, Kind.tag,
        EncodeInt_layout e x hfit]
    | int64 x =>
      simp only [Value.varint, Value.kind, Kind.firstRead] at hfit
      simp only [Encode, Value.varint, Value.kind, Kind.firstRead, Kind.tag,
        EncodeInt64_layout e x hfit]
    | int32 x =>
      simp only [Value.varint, Value.kind, Kind.firstRead] at hfit
      simp only [Encode, Value.varint, Value.kind, Kind.firstRead, Kind.tag,
        EncodeInt32_layout e x hfit]
    | int16 x =>
      simp only [Value.varint, Value.kind, Kind.firstRead] at hfit
      simp only [Encode, Value.varint, Value.kind, Kind.firstRead, Kind.tag,
        EncodeInt16_layout e x hfit]
    | int8 x =>
      simp only [Value.varint, Value.kind, Kind.firstRead] at hfit
      simp only [Encode, Value.varint, Value.kind, Kind.firstRead, Kind.tag,
        EncodeInt8_layout e x hfit]
    | uint x =>
      simp only [Value.varint, Value.kind, Kind.firstRead] at hfit
      simp only [Encode, Value.varint, Value.kind, Kind.firstRead, Kind.tag,
        EncodeUint_layout e x hfit]
    | uint64 x =>
      simp only [Value.varint, Value.kind, Kind.firstRead] at hfit
      simp only [Encode, Value.varint, Value.kind, Kind.firstRead, Kind.tag,
        EncodeUint64_layout e x hfit]
    | uint32 x =>
      simp only [Value.varint, Value.kind, Kind.firstRead] at hfit
      simp only [Encode, Value.varint, Value.kind, Kind.firstRead, Kind.tag,
        EncodeUint32_layout e x hfit]
    | uint16 x =>
      simp only [Value.varint, Value.kind, Kind.firstRead] at hfit
      simp only [Encode, Value.varint, Value.kind, Kind.firstRead, Kind.tag,
        EncodeUint16_layout e x hfit]
    | uint8 x =>
      simp only [Value.varint, Value.kind, Kind.firstRead] at hfit
      simp only [Encode, Value.varint, Value.kind, Kind.firstRead, Kind.tag,
        EncodeUint8_layout e x hfit]
    | float64 x => exact absurd hk (by simp [Value.kind, Kind.isInteger])
    | float32 x => exact absurd hk (by simp [Value.kind, Kind.isInteger])
    | string x => exact absurd hk (by simp [Value.kind, Kind.isInteger])
    | data x => exact absurd hk (by simp [Value.kind, Kind.isInteger])
  · exact (kind_tag_bounds v.kind hk).1
  · exact (kind_tag_bounds v.kind hk).2

/-- The `int16` -3: zigzag 5, one varint byte, one byte of padding. -/
theorem encode_integer_layout_witness :
    (Value.int16 (-3)).kind.isInteger = true ∧
    (Value.int16 (-3)).varint.length ≤ (Value.int16 (-3)).kind.firstRead ∧
    NewEncoder.Encode (Value.int16 (-3)) = some ⟨[0x04, 0x05, 0x00]⟩ ∧
    (NewEncoder.Encode (Value.int16 (-3)) = some ⟨NewEncoder.data ++ (Value.int16 (-3)).kind.tag ::
      ((Value.int16 (-3)).varint ++ List.replicate
        ((Value.int16 (-3)).kind.firstRead - (Value.int16 (-3)).varint.length) 0)⟩ ∧
    ((Value.int16 (-3)).varint ++ List.replicate
        ((Value.int16 (-3)).kind.firstRead - (Value.int16 (-3)).varint.length) 0).length =
      (Value.int16 (-3)).kind.firstRead ∧
    1 ≤ (Value.int16 (-3)).kind.tag.val ∧ (Value.int16 (-3)).kind.tag.val ≤ 10) :=
  ⟨by decide, (uvarint_length_le_iff 2 (zigzag (-3)) (by decide)).mpr (by decide), by decide,
    encode_integer_layout NewEncoder (Value.int16 (-3)) (by decide)
      ((uvarint_length_le_iff 2 (zigzag (-3)) (by decide)).mpr (by decide))⟩

/-- C22: for each fixed-width integer kind with window `w` (int8/uint8: 1,
int16/uint16: 2, int32/uint32: 4, int64/uint64/int/uint: 8), the values of the
kind for which the encode step completes, from any encoder state, are exactly
those of the window range (`-2^(7w-1) <= v < 2^(7w-1)` for the signed kinds,
`v < 2^(7w)` for the unsigned kinds), and for every such value `Encode<Kind>(v)`
on a fresh encoder followed by `Decode<Kind>` over `Data()` returns `v` with no
error. -/
theorem window_round_trip (v : Value) (hk : v.kind.isInteger = true) (hwt : v.WellTyped) :
    (∀ e : Encoder, (∃ e1, e.Encode v = some e1) ↔ v.InWindow) ∧
    (v.InWindow → ∃ e1 bytes, NewEncoder.Encode v = some e1 ∧ e1.Data = some bytes ∧
      (NewDecoder bytes).Decode v.kind = some ((v, none), ⟨bytes, e1.data.length⟩)) := by
  refine ⟨fun e => encode_isSome_iff e v hk hwt, fun hin => ?_⟩
  obtain ⟨e1, he⟩ := (encode_isSome_iff NewEncoder v hk hwt).mpr hin
  obtain ⟨out, n, _, _, _, _, hD⟩ := Data_eq e1
  refine ⟨e1, _, he, hD, ?_⟩
  have := decode_encode NewEncoder e1 v hwt he (out.take n ++ [byte n])
  simpa [NewDecoder, NewEncoder] using this

/-- The `int8` 63 round-trips; the `int8` 64 is not encoded. -/
theorem window_round_trip_witness :
    (Value.int8 63).kind.isInteger = true ∧ (Value.int8 63).WellTyped ∧
    (Value.int8 63).InWindow ∧ (Value.int8 64).WellTyped ∧ ¬ (Value.int8 64).InWindow ∧
    (∃ e1 bytes, NewEncoder.Encode (Value.int8 63) = some e1 ∧ e1.Data = some bytes ∧
      (NewDecoder bytes).Decode (Value.int8 63).kind =
        some ((Value.int8 63, none), ⟨bytes, e1.data.length⟩)) ∧
    ¬ ∃ e1, NewEncoder.Encode (Value.int8 64) = some e1 :=
  ⟨by decide, by decide, by decide, by decide, by decide,
    (window_round_trip (Value.int8 63) (by decide) (by decide)).2 (by decide),
    fun h => absurd (((window_round_trip (Value.int8 64) (by decide) (by decide)).1
      NewEncoder).mp h) (by decide)⟩

/-- C23: for every byte buffer and every cursor, whenever `Decode<Kind>` of a
fixed-width integer kind with window `w` returns without error, the returned
value is of that kind, lies in the varint range of the window
(`-2^(7w-1) <= v < 2^(7w-1)` for the signed kinds, `v < 2^(7w)` for the unsigned
kinds), and equals the 64-bit integer the varint reader read from the `w` bytes
after the tag: the narrowing conversion did not change it. -/
theorem decode_integer_range (d d1 : Decoder) (k : Kind) (v : Value)
    (hk : k.isInteger = true) (h : d.Decode k = some ((v, none), d1)) :
    v.kind = k ∧ v.InWindow ∧
    v.toInt =
      (if k.isSigned then
        (ReadVarint ((d.data.drop (d.offset + 1).toNat).take k.firstRead)).1
      else ((ReadUvarint ((d.data.drop (d.offset + 1).toNat).take k.firstRead)).1 : Int)) := by
  cases k with
  | bool => exact absurd hk (by decide)
  | int =>
    simp only [Decode] at h
    unfold asValue at h
    split at h
    · exact Option.noConfusion h
    · rename_i a e d2 hdec
      simp only [Option.some.injEq, Prod.mk.injEq] at h
      obtain ⟨⟨hv, he⟩, hd⟩ := h
      subst hv he hd
      have hr := DecodeInt_range _ _ _ hdec
      exact ⟨rfl, hr.1, hr.2.symm⟩
  | int64 =>
    simp only [Decode] at h
    unfold asValue at h
    split at h
    · exact Option.noConfusion h
    · rename_i a e d2 hdec
      simp only [Option.some.injEq, Prod.mk.injEq] at h
      obtain ⟨⟨hv, he⟩, hd⟩ := h
      subst hv he hd
      have hr := DecodeInt64_range _ _ _ hdec
      exact ⟨rfl, hr.1, hr.2.symm⟩
  | int32 =>
    simp only [Decode] at h
    unfold asValue at h
    split at h
    · exact Option.noConfusion h
    · rename_i a e d2 hdec
      simp only [Option.some.injEq, Prod.mk.injEq] at h
      obtain ⟨⟨hv, he⟩, hd⟩ := h
      subst hv he hd
      have hr := DecodeInt32_range _ _ _ hdec
      exact ⟨rfl, hr.1, hr.2.symm⟩
  | int16 =>
    simp only [Decode] at h
    unfold asValue at h
    split at h
    · exact Option.noConfusion h
    · rename_i a e d2 hdec
      simp only [Option.some.injEq, Prod.mk.injEq] at h
      obtain ⟨⟨hv, he⟩, hd⟩ := h
      subst hv he hd
      have hr := DecodeInt16_range _ _ _ hdec
      exact ⟨rfl, hr.1, hr.2.symm⟩
  | int8 =>
    simp only [Decode] at h
    unfold asValue at h
    split at h
    · exact Option.noConfusion h
    · rename_i a e d2 hdec
      simp only [Option.some.injEq, Prod.mk.injEq] at h
      obtain ⟨⟨hv, he⟩, hd⟩ := h
      subst hv he hd
      have hr := DecodeInt8_range _ _ _ hdec
      exact ⟨rfl, hr.1, hr.2.symm⟩
  | uint =>
    simp only [Decode] at h
    unfold asValue at h
    split at h
    · exact Option.noConfusion h
    · rename_i a e d2 hdec
      simp only [Option.some.injEq, Prod.mk.injEq] at h
      obtain ⟨⟨hv, he⟩, hd⟩ := h
      subst hv he hd
      have hr := DecodeUint_range _ _ _ hdec
      exact ⟨rfl, hr.1, by
        simp only [Kind.isSigned, Kind.firstRead, Value.toInt, hr.2, Bool.false_eq_true,
          if_false]⟩
  | uint64 =>
    simp only [Decode] at h
    unfold asValue at h
    split at h
    · exact Option.noConfusion h
    · rename_i a e d2 hdec
      simp only [Option.some.injEq, Prod.mk.injEq] at h
      obtain ⟨⟨hv, he⟩, hd⟩ := h
      subst hv he hd
      have hr := DecodeUint64_range _ _ _ hdec
      exact ⟨rfl, hr.1, by
        simp only [Kind.isSigned, Kind.firstRead, Value.toInt, hr.2, Bool.false_eq_true,
          if_false]⟩
  | uint32 =>
    simp only [Decode] at h
    unfold asValue at h
    split at h
    · exact Option.noConfusion h
    · rename_i a e d2 hdec
      simp only [Option.some.injEq, Prod.mk.injEq] at h
      obtain ⟨⟨hv, he⟩, hd⟩ := h
      subst hv he hd
      have hr := DecodeUint32_range _ _ _ hdec
      exact ⟨rfl, hr.1, by
        simp only [Kind.isSigned, Kind.firstRead, Value.toInt, hr.2, Bool.false_eq_true,
          if_false]⟩
  | uint16 =>
    simp only [Decode] at h
    unfold asValue at h
    split at h
    · exact Option.noConfusion h
    · rename_i a e d2 hdec
      simp only [Option.some.injEq, Prod.mk.injEq] at h
      obtain ⟨⟨hv, he⟩, hd⟩ := h
      subst hv he hd
      have hr := DecodeUint16_range _ _ _ hdec
      exact ⟨rfl, hr.1, by
        simp only [Kind.isSigned, Kind.firstRead, Value.toInt, hr.2, Bool.false_eq_true,
          if_false]⟩
  | uint8 =>
    simp only [Decode] at h
    unfold asValue at h
    split at h
    · exact Option.noConfusion h
    · rename_i a e d2 hdec
      simp only [Option.some.injEq, Prod.mk.injEq] at h
      obtain ⟨⟨hv, he⟩, hd⟩ := h
      subst hv he hd
      have hr := DecodeUint8_range _ _ _ hdec
      exact ⟨rfl, hr.1, by
        simp only [Kind.isSigned, Kind.firstRead, Value.toInt, hr.2, Bool.false_eq_true,
          if_false]⟩
  | float64 => exact absurd hk (by decide)
  | float32 => exact absurd hk (by decide)
  | string => exact absurd hk (by decide)
  | data => exact absurd hk (by decide)

/-- The window `[0x7F]` of an `int8` decodes to -64, the lower end of its range. -/
theorem decode_integer_range_witness :
    Kind.int8.isInteger = true ∧
    (NewDecoder [0x05, 0x7F]).Decode Kind.int8 =
      some ((Value.int8 (-64), none), ⟨[0x05, 0x7F], 2⟩) ∧
    ((Value.int8 (-64)).kind = Kind.int8 ∧ (Value.int8 (-64)).InWindow ∧
      (Value.int8 (-64)).toInt =
        (if Kind.int8.isSigned then
          (ReadVarint (((NewDecoder [0x05, 0x7F]).data.drop
            ((NewDecoder [0x05, 0x7F]).offset + 1).toNat).take Kind.int8.firstRead)).1
        else ((ReadUvarint (((NewDecoder [0x05, 0x7F]).data.drop
            ((NewDecoder [0x05, 0x7F]).offset + 1).toNat).take
              Kind.int8.firstRead)).1 : Int))) :=
  ⟨by decide, by decide,
    decode_integer_range (NewDecoder [0x05, 0x7F]) ⟨[0x05, 0x7F], 2⟩ Kind.int8
      (Value.int8 (-64)) (by decide) (by decide)⟩

/-! ## The cursor after a panic -/

/-- Whenever `DecodeString` returns, `DecodeStringState` is the state it
returns. -/
theorem DecodeStringState_of_returns (d d1 : Decoder) (r : List Byte × Option Err)
    (h : d.DecodeString = some (r, d1)) : d.DecodeStringState = some d1 := by
  unfold DecodeString at h
  unfold DecodeStringState
  split at h
  · exact Option.noConfusion h
  · rename_i e d2 hct
    try simp only [hct]
    simp only [Option.some.injEq, Prod.mk.injEq] at h
    simp [h.2]
  · rename_i d2 hct
    try simp only [hct]
    split at h
    · rename_i hcl
      simp only [hcl, if_true]
      simp only [Option.some.injEq, Prod.mk.injEq] at h
      simp [h.2]
    · rename_i hcl
      simp only [hcl, if_false]
      split at h
      · exact Option.noConfusion h
      · rename_i x e d3 hdi
        try simp only [hdi]
        simp only [Option.some.injEq, Prod.mk.injEq] at h
        simp [h.2]
      · rename_i l d3 hdi
        try simp only [hdi]
        split at h
        · rename_i hcl2
          simp only [hcl2, if_true]
          simp only [Option.some.injEq, Prod.mk.injEq] at h
          simp [h.2]
        · rename_i hcl2
          simp only [hcl2, if_false]
          split at h
          · rename_i hl
            simp only [hl, if_true]
            simp only [Option.some.injEq, Prod.mk.injEq] at h
            simp [h.2]
          · rename_i hl
            simp only [hl, if_false]
            split at h
            · exact Option.noConfusion h
            · rename_i bs d4 hg
              obtain ⟨_, _, _, _, hd4⟩ := getBytes_result _ _ _ _ hg
              simp only [Option.some.injEq, Prod.mk.injEq] at h
              rw [← h.2, hd4]
              simp [incrementOffset]

/-- Whenever `DecodeData` returns, `DecodeDataState` is the state it returns. -/
theorem DecodeDataState_of_returns (d d1 : Decoder) (r : List Byte × Option Err)
    (h : d.DecodeData = some (r, d1)) : d.DecodeDataState = some d1 := by
  unfold DecodeData at h
  unfold DecodeDataState
  split at h
  · exact Option.noConfusion h
  · rename_i e d2 hct
    try simp only [hct]
    simp only [Option.some.injEq, Prod.mk.injEq] at h
    simp [h.2]
  · rename_i d2 hct
    try simp only [hct]
    split at h
    · exact Option.noConfusion h
    · rename_i x e d3 hdi
      try simp only [hdi]
      simp only [Option.some.injEq, Prod.mk.injEq] at h
      simp [h.2]
    · rename_i l d3 hdi
      try simp only [hdi]
      split at h
      · rename_i hcl2
        simp only [hcl2, if_true]
        simp only [Option.some.injEq, Prod.mk.injEq] at h
        simp [h.2]
      · rename_i hcl2
        simp only [hcl2, if_false]
        split at h
        · rename_i hl
          simp only [hl, if_true]
          simp only [Option.some.injEq, Prod.mk.injEq] at h
          simp [h.2]
        · rename_i hl
          simp only [hl, if_false]
          split at h
          · exact Option.noConfusion h
          · rename_i bs d4 hg
            obtain ⟨_, _, _, _, hd4⟩ := getBytes_result _ _ _ _ hg
            simp only [Option.some.injEq, Prod.mk.injEq] at h
            rw [← h.2, hd4]
            simp [incrementOffset]

/-- C18 (the code departs from the claim).  The claim: the cursor invariant
`0 <= offset <= len(data)` is preserved by every `Decode<Kind>` on every byte
buffer, whether the operation succeeds or fails.  On the code, a fresh decoder
over the 9 bytes `[tag, 0x13, 0, 0, 0, 0, 0, 0, 0]` satisfies the invariant, the
length window decodes to -10, `checkLength(-10)` holds, the slice
`d.data[9:-1]` panics, and the deferred `incrementOffset(-10)` leaves the offset
at -1, for `DecodeString` and for `DecodeData`. -/
theorem decode_panic_breaks_cursor_invariant :
    (NewDecoder [0x0D, 0x13, 0, 0, 0, 0, 0, 0, 0]).Inv ∧
    (NewDecoder [0x0D, 0x13, 0, 0, 0, 0, 0, 0, 0]).DecodeString = none ∧
    (NewDecoder [0x0D, 0x13, 0, 0, 0, 0, 0, 0, 0]).DecodeStringState =
      some ⟨[0x0D, 0x13, 0, 0, 0, 0, 0, 0, 0], -1⟩ ∧
    ¬ (Decoder.mk [0x0D, 0x13, 0, 0, 0, 0, 0, 0, 0] (-1)).Inv ∧
    (NewDecoder [0x0E, 0x13, 0, 0, 0, 0, 0, 0, 0]).Inv ∧
    (NewDecoder [0x0E, 0x13, 0, 0, 0, 0, 0, 0, 0]).DecodeData = none ∧
    (NewDecoder [0x0E, 0x13, 0, 0, 0, 0, 0, 0, 0]).DecodeDataState =
      some ⟨[0x0E, 0x13, 0, 0, 0, 0, 0, 0, 0], -1⟩ ∧
    ¬ (Decoder.mk [0x0E, 0x13, 0, 0, 0, 0, 0, 0, 0] (-1)).Inv := by
  decide

end Coding
